import Mathlib

/-!
# Verification of the Batch-Auction-Simulator matching core

Shallow embedding of the repository's two matchers:

* `src/src/auction.py` — the uniform-price batch auction (`clear_batch`,
  `_allocate_fills`), embedded in namespace `Auction`;
* `src/src/engine.py` — the continuous price-time-priority order book
  (`OrderBook` with `add_order`, `cancel_order`, `snapshot`), embedded in
  namespace `Engine`.

Python floats are embedded as `ℚ` (all arithmetic the code performs on prices
— sums, comparisons, `abs`, `min`, `round`, division by the tick — is exact on
the values the spec is about), Python ints as `ℕ`, Python dicts as
insertion-ordered association lists, and the `heapq` heaps as lists observed
only through their minimum (which is exactly the interface `heapq` guarantees:
`heap[0]` is the minimum, `heappop` removes it, `heappush` adds an element,
`heapify` reorders in place).
-/

namespace BatchSim

/-- Output fill record, shared by both matchers
(`{"buyer_id", "seller_id", "price", "qty", "taker_side"}`). -/
structure Fill where
  buyer_id : ℕ
  seller_id : ℕ
  price : ℚ
  qty : ℕ
  taker_side : String
deriving DecidableEq, Repr

/-! ## Insertion-ordered dictionaries (Python `dict`)

A Python `dict` is embedded as a `List (κ × α)` in insertion order:
lookup finds the unique entry with the key, assignment updates an existing
entry in place or appends a new one at the end, `del` removes the entry. -/
/-- `d[k]` lookup, `none` when absent. -/
def dGet {κ α : Type} [DecidableEq κ] : List (κ × α) → κ → Option α
  | [], _ => none
  | (k', v) :: rest, k => if k' = k then some v else dGet rest k

/-- `d[k] = v`: update in place when present, append when absent. -/
def dSet {κ α : Type} [DecidableEq κ] : List (κ × α) → κ → α → List (κ × α)
  | [], k, v => [(k, v)]
  | (k', v') :: rest, k, v =>
    if k' = k then (k, v) :: rest else (k', v') :: dSet rest k v

/-- `del d[k]`: remove the entry with key `k` (the first one, which is the
only one when keys are distinct). -/
def dDel {κ α : Type} [DecidableEq κ] : List (κ × α) → κ → List (κ × α)
  | [], _ => []
  | (k', v') :: rest, k => if k' = k then rest else (k', v') :: dDel rest k

/-- Minimum of a nonempty list (`min(...)` over a Python list). -/
def listMin : List ℚ → ℚ
  | [] => 0
  | x :: xs => xs.foldl min x

/-- Python's built-in `round` (round half to even) on a rational. -/
def bround (x : ℚ) : ℤ :=
  let f := ⌊x⌋
  let r := x - f
  if r < 1 / 2 then f
  else if 1 / 2 < r then f + 1
  else if Even f then f else f + 1

namespace Auction

/-- A batch order as consumed by `clear_batch`: a dict with keys
`order_id`, `side`, `price`, `qty`, `type`, `timestamp`. Orders of type
`LIMIT`/`IOC` carry their limit price in `price`; for `MARKET` orders the
field is ignored (the source overwrites it with a sentinel) and for `CANCEL`
orders the whole record is skipped. -/
structure BOrder where
  order_id : ℕ
  side : String
  price : ℚ
  qty : ℕ
  otype : String
  timestamp : ℕ
deriving DecidableEq, Repr

/-- Normalised entry kept per side (`{"order_id", "price", "qty", "timestamp"}`). -/
structure BEntry where
  order_id : ℕ
  price : ℚ
  qty : ℕ
  timestamp : ℕ
deriving DecidableEq, Repr

/-- Price 1e9, the synthetic limit substituted for a MARKET BUY. -/
def sentinelBuy : ℚ := 10 ^ 9

/-- Price 0.0, the synthetic limit substituted for a MARKET SELL. -/
def sentinelSell : ℚ := 0

/-- Normalisation of one order (the body of the first loop of `clear_batch`):
MARKET orders get a sentinel price, everything else keeps its price. -/
def toEntry (o : BOrder) : BEntry :=
  { order_id := o.order_id
    price := if o.otype = "MARKET" then (if o.side = "BUY" then sentinelBuy else sentinelSell)
             else o.price
    qty := o.qty
    timestamp := o.timestamp }

/-- The `bids` list built by the first loop of `clear_batch`: non-CANCEL
orders with `side == "BUY"`, in input order. -/
def rawBids (orders : List BOrder) : List BEntry :=
  (orders.filter (fun o => o.otype ≠ "CANCEL" ∧ o.side = "BUY")).map toEntry

/-- The `asks` list built by the first loop of `clear_batch`. -/
def rawAsks (orders : List BOrder) : List BEntry :=
  (orders.filter (fun o => o.otype ≠ "CANCEL" ∧ o.side ≠ "BUY")).map toEntry

/-- Lexicographic order on the sort key triples used by `clear_batch`. -/
def keyLex (x y : ℚ × ℕ × ℕ) : Prop :=
  x.1 < y.1 ∨ (x.1 = y.1 ∧ (x.2.1 < y.2.1 ∨ (x.2.1 = y.2.1 ∧ x.2.2 ≤ y.2.2)))

instance keyLexDecidable : DecidableRel keyLex := fun x y => by
  unfold keyLex; infer_instance

/-- Bid sort key `(-price, timestamp, order_id)`. -/
def bidKey (e : BEntry) : ℚ × ℕ × ℕ := (-e.price, e.timestamp, e.order_id)

/-- Ask sort key `(price, timestamp, order_id)`. -/
def askKey (e : BEntry) : ℚ × ℕ × ℕ := (e.price, e.timestamp, e.order_id)

def bidRel (a b : BEntry) : Prop := keyLex (bidKey a) (bidKey b)

def askRel (a b : BEntry) : Prop := keyLex (askKey a) (askKey b)

instance bidRelDecidable : DecidableRel bidRel := fun a b => by
  unfold bidRel; infer_instance

instance askRelDecidable : DecidableRel askRel := fun a b => by
  unfold askRel; infer_instance

/-- `bids.sort(key=lambda x: (-price, timestamp, order_id))` (a stable sort). -/
def sortedBids (orders : List BOrder) : List BEntry :=
  List.insertionSort bidRel (rawBids orders)

/-- `asks.sort(key=lambda x: (price, timestamp, order_id))`. -/
def sortedAsks (orders : List BOrder) : List BEntry :=
  List.insertionSort askRel (rawAsks orders)

/-- `levels[price] = levels.get(price, 0) + qty` folded over the entries:
the aggregate `bid_levels` / `ask_levels` dicts. -/
def buildLevels (es : List BEntry) : List (ℚ × ℕ) :=
  es.foldl (fun acc e => dSet acc e.price ((dGet acc e.price).getD 0 + e.qty)) []

def bidLevelsOf (orders : List BOrder) : List (ℚ × ℕ) := buildLevels (sortedBids orders)

def askLevelsOf (orders : List BOrder) : List (ℚ × ℕ) := buildLevels (sortedAsks orders)

/-- `demand = sum(q for px, q in bid_levels.items() if px >= p)`. -/
def demandOf (orders : List BOrder) (p : ℚ) : ℕ :=
  (((bidLevelsOf orders).filter (fun kv => p ≤ kv.1)).map Prod.snd).sum

/-- `supply = sum(q for px, q in ask_levels.items() if px <= p)`. -/
def supplyOf (orders : List BOrder) (p : ℚ) : ℕ :=
  (((askLevelsOf orders).filter (fun kv => kv.1 ≤ p)).map Prod.snd).sum

/-- `volume = min(demand, supply)` at a candidate price. -/
def volumeOf (orders : List BOrder) (p : ℚ) : ℕ :=
  min (demandOf orders p) (supplyOf orders p)

/-- `candidates = sorted(set(bid_levels.keys()) | set(ask_levels.keys()))`. -/
def candidatesOf (orders : List BOrder) : List ℚ :=
  List.insertionSort (· ≤ ·)
    (((bidLevelsOf orders).map Prod.fst ++ (askLevelsOf orders).map Prod.fst).dedup)

/-- One step of the candidate scan: strictly larger volume resets the winners
to `[p]`; an equal positive volume appends `p`. -/
def scanStep (vol : ℚ → ℕ) (s : ℕ × List ℚ) (p : ℚ) : ℕ × List ℚ :=
  let v := vol p
  if s.1 < v then (v, [p])
  else if v = s.1 ∧ 0 < v then (s.1, s.2 ++ [p])
  else s

/-- The `(best_volume, winners)` pair computed by the candidate loop. -/
def scanOf (orders : List BOrder) : ℕ × List ℚ :=
  (candidatesOf orders).foldl (scanStep (volumeOf orders)) (0, [])

def bestVolumeOf (orders : List BOrder) : ℕ := (scanOf orders).1

def winnersOf (orders : List BOrder) : List ℚ := (scanOf orders).2

/-- The multi-winner tie-break: with `pre_mid`, the lowest price among those
closest to it; without, the tick-snapped midpoint of the winners band
(`round(midpoint / tick) * tick`). -/
def tieBreak (winners : List ℚ) (pre_mid : Option ℚ) (tick : ℚ) : ℚ :=
  match pre_mid with
  | some m =>
    let minDist := listMin (winners.map (fun p => |p - m|))
    let closest := winners.filter (fun p => |p - m| = minDist)
    listMin closest
  | none =>
    let midpoint := ((winners.head?.getD 0) + (winners.getLast?.getD 0)) / 2
    (bround (midpoint / tick) : ℚ) * tick

/-- The two-cursor FIFO allocation loop of `_allocate_fills`, on
`(order_id, remaining_qty)` pairs. -/
def allocGo : List (ℕ × ℕ) → List (ℕ × ℕ) → ℚ → ℕ → List Fill
  | [], _, _, _ => []
  | _ :: _, [], _, _ => []
  | (bid, brem) :: bs, (aid, arem) :: as', p, t =>
    if t = 0 then []
    else if brem = 0 then allocGo bs ((aid, arem) :: as') p t
    else if arem = 0 then allocGo ((bid, brem) :: bs) as' p t
    else
      let q := min (min brem arem) t
      ⟨bid, aid, p, q, "BUY"⟩ :: allocGo ((bid, brem - q) :: bs) ((aid, arem - q) :: as') p (t - q)
termination_by bs as' _ t => bs.length + as'.length + t
decreasing_by
  all_goals simp only [List.length_cons]
  all_goals omega

/-- `_allocate_fills(bids, asks, price, target_vol)`. -/
def allocateFills (bids asks : List BEntry) (price : ℚ) (target : ℕ) : List Fill :=
  let validBids := bids.filter (fun b => price ≤ b.price)
  let validAsks := asks.filter (fun a => a.price ≤ price)
  allocGo (validBids.map (fun b => (b.order_id, b.qty)))
    (validAsks.map (fun a => (a.order_id, a.qty))) price target

/-- The clearing price selected once `best_volume > 0`: the single winner when
`len(winners) == 1`, otherwise the tie-break. -/
def cpOf (orders : List BOrder) (pre_mid : Option ℚ) (tick : ℚ) : ℚ :=
  if (winnersOf orders).length = 1 then (winnersOf orders).head?.getD 0
  else tieBreak (winnersOf orders) pre_mid tick

/-- `clear_batch(orders, pre_mid, tick)` from `src/src/auction.py`, decomposed
into the named stages above. -/
def clear_batch (orders : List BOrder) (pre_mid : Option ℚ) (tick : ℚ) :
    Option ℚ × List Fill :=
  if candidatesOf orders = [] then (none, [])
  else if bestVolumeOf orders = 0 then (none, [])
  else
    (some (cpOf orders pre_mid tick),
     allocateFills (sortedBids orders) (sortedAsks orders) (cpOf orders pre_mid tick)
       (bestVolumeOf orders))

/-! ## Concrete batches from the spec's end-to-end scenarios

Non-integral rational constants are written as explicit reduced fractions
(`Rat.mk'` literals) so that the kernel can evaluate comparisons on them;
the lemmas `p995_eq`, `p399c_eq`, `pmktc_eq` identify them with the usual
division expressions. -/
/-- The price 99.5. -/
def p995 : ℚ := ⟨199, 2, by decide, by decide⟩

/-- The price 99.75 (= 399/4). -/
def p399c : ℚ := ⟨399, 4, by decide, by decide⟩

/-- The price 500000002.5 (= 1000000005/2). -/
def pmktc : ℚ := ⟨1000000005, 2, by decide, by decide⟩

/-- Scenario S4: BUY id=1 @100 qty=10, BUY id=2 @99 qty=10, SELL id=3 @99.5 qty=15. -/
def s4Orders : List BOrder :=
  [⟨1, "BUY", 100, 10, "LIMIT", 0⟩,
   ⟨2, "BUY", 99, 10, "LIMIT", 0⟩,
   ⟨3, "SELL", p995, 15, "LIMIT", 0⟩]

/-- Scenarios S5/S6: BUY id=1 @100 qty=10, SELL id=2 @98 qty=10. -/
def s5Orders : List BOrder :=
  [⟨1, "BUY", 100, 10, "LIMIT", 0⟩,
   ⟨2, "SELL", 98, 10, "LIMIT", 0⟩]

/-- A batch with a MARKET BUY: MARKET BUY id=1 qty=10, SELL id=2 @5 qty=10. -/
def mktOrders : List BOrder :=
  [⟨1, "BUY", 0, 10, "MARKET", 0⟩,
   ⟨2, "SELL", 5, 10, "LIMIT", 0⟩]

/-- A batch whose winners set is a singleton: BUY id=1 @100 qty=10,
SELL id=2 @100 qty=5. -/
def singletonOrders : List BOrder :=
  [⟨1, "BUY", 100, 10, "LIMIT", 0⟩,
   ⟨2, "SELL", 100, 5, "LIMIT", 0⟩]

end Auction

namespace Engine

/-- One resting order in a level's FIFO deque: `(order_id, remaining_qty)`. -/
abbrev Level := List (ℕ × ℕ)

/-- `{price: deque}` levels dict for one side. -/
abbrev Levels := List (ℚ × Level)

/-- `id -> (side, price, qty)` index for CANCEL lookups. -/
abbrev IdIndex := List (ℕ × (String × ℚ × ℕ))

/-- The `OrderBook` state: per-side level dicts, the two `heapq` heaps (the
bid heap stores negated prices), the cancel index and the trade log. -/
structure OrderBook where
  bids : Levels
  asks : Levels
  bid_heap : List ℚ
  ask_heap : List ℚ
  id_index : IdIndex
  trades : List Fill
deriving DecidableEq, Repr

/-- The empty book (`OrderBook.__init__`). -/
def emptyBook : OrderBook := ⟨[], [], [], [], [], []⟩

/-- `heap[0]`: the minimum of the heap, `none` when empty. -/
def hpTop : List ℚ → Option ℚ
  | [] => none
  | x :: xs => some (xs.foldl min x)

/-- The inner `while level and remaining > 0` loop of the matching methods:
consume one price level from the front. `mk maker q` builds the fill for a
trade of `q` against resting order `maker`; a fully consumed entry is popped
and deleted from the index, a partially consumed head is written back and its
index entry updated. Returns `(fills, remaining, level, id_index)`. -/
def consumeLevel (mk : ℕ → ℕ → Fill) (makerSide : String) (price : ℚ) :
    Level → ℕ → IdIndex → List Fill × ℕ × Level × IdIndex
  | [], remaining, idx => ([], remaining, [], idx)
  | (mid, mqty) :: rest, remaining, idx =>
    if remaining = 0 then ([], remaining, (mid, mqty) :: rest, idx)
    else
      let tq := min remaining mqty
      if mqty - tq = 0 then
        let out := consumeLevel mk makerSide price rest (remaining - tq) (dDel idx mid)
        (mk mid tq :: out.1, out.2.1, out.2.2.1, out.2.2.2)
      else
        ([mk mid tq], remaining - tq, (mid, mqty - tq) :: rest,
         dSet idx mid (makerSide, price, mqty - tq))

/-- The outer `while remaining > 0 and heap` sweep of the matching methods.
`toPrice` maps a heap value to the level price (`id` for asks, negation for
bids); `stop` is the crossing check on the best opposing price (always false
for MARKET). Each iteration consumes the best level; a fully-consumed level
is deleted from the dict and its value popped from the heap, a partial
consumption writes the level back and ends the sweep.
Returns `(fills, remaining, levels, heap, id_index)`. -/
def sweep (mkFill : ℚ → ℕ → ℕ → Fill) (makerSide : String) (toPrice : ℚ → ℚ)
    (stop : ℚ → Bool) :
    Levels → List ℚ → IdIndex → ℕ → List Fill × ℕ × Levels × List ℚ × IdIndex
  | levels, heap, idx, remaining =>
    if remaining = 0 then ([], remaining, levels, heap, idx)
    else
      match hh : hpTop heap with
      | none => ([], remaining, levels, heap, idx)
      | some hv =>
        if stop (toPrice hv) then ([], remaining, levels, heap, idx)
        else
          let res := consumeLevel (mkFill (toPrice hv)) makerSide (toPrice hv)
            ((dGet levels (toPrice hv)).getD []) remaining idx
          if res.2.2.1 = [] then
            let out := sweep mkFill makerSide toPrice stop
              (dDel levels (toPrice hv)) (heap.erase hv) res.2.2.2 res.2.1
            (res.1 ++ out.1, out.2.1, out.2.2.1, out.2.2.2.1, out.2.2.2.2)
          else
            (res.1, res.2.1, dSet levels (toPrice hv) res.2.2.1, heap, res.2.2.2)
termination_by _levels heap _idx _remaining => heap.length
decreasing_by
  have hfold : ∀ (xs : List ℚ) (x : ℚ), xs.foldl min x ∈ x :: xs := by
    intro xs
    induction xs with
    | nil => intro x; simp
    | cons y ys ih =>
      intro x
      simp only [List.foldl_cons]
      have h0 := ih (min x y)
      rcases List.mem_cons.mp h0 with h | h
      · rw [h]
        rcases min_choice x y with hc | hc
        · rw [hc]; simp
        · rw [hc]; simp
      · simp [h]
  have hmem : hv ∈ heap := by
    cases heap with
    | nil => simp [hpTop] at hh
    | cons a t =>
      simp only [hpTop, Option.some.injEq] at hh
      rw [← hh]
      exact hfold t a
  have hne : heap ≠ [] := by
    intro h0
    rw [h0] at hmem
    simp at hmem
  rw [List.length_erase_of_mem hmem]
  cases heap with
  | nil => exact absurd rfl hne
  | cons a t => simp

/-- `_match_limit(order_id, side, price, qty)`: sweep the opposing side under
the crossing check, then rest any remainder on the own side. -/
def matchLimit (b : OrderBook) (oid : ℕ) (side : String) (price : ℚ) (qty : ℕ) :
    OrderBook × List Fill :=
  if side = "BUY" then
    let out := sweep (fun p mid q => ⟨oid, mid, p, q, "BUY"⟩) "SELL" id
      (fun best => decide (price < best)) b.asks b.ask_heap b.id_index qty
    if 0 < out.2.1 then
      let bids' := match dGet b.bids price with
        | none => dSet b.bids price [(oid, out.2.1)]
        | some lv => dSet b.bids price (lv ++ [(oid, out.2.1)])
      let bidHeap' := match dGet b.bids price with
        | none => (-price) :: b.bid_heap
        | some _ => b.bid_heap
      ({ bids := bids', asks := out.2.2.1, bid_heap := bidHeap',
         ask_heap := out.2.2.2.1,
         id_index := dSet out.2.2.2.2 oid ("BUY", price, out.2.1),
         trades := b.trades ++ out.1 }, out.1)
    else
      ({ b with asks := out.2.2.1, ask_heap := out.2.2.2.1,
                id_index := out.2.2.2.2, trades := b.trades ++ out.1 }, out.1)
  else
    let out := sweep (fun p mid q => ⟨mid, oid, p, q, "SELL"⟩) "BUY" Neg.neg
      (fun best => decide (best < price)) b.bids b.bid_heap b.id_index qty
    if 0 < out.2.1 then
      let asks' := match dGet b.asks price with
        | none => dSet b.asks price [(oid, out.2.1)]
        | some lv => dSet b.asks price (lv ++ [(oid, out.2.1)])
      let askHeap' := match dGet b.asks price with
        | none => price :: b.ask_heap
        | some _ => b.ask_heap
      ({ bids := out.2.2.1, asks := asks', bid_heap := out.2.2.2.1,
         ask_heap := askHeap',
         id_index := dSet out.2.2.2.2 oid ("SELL", price, out.2.1),
         trades := b.trades ++ out.1 }, out.1)
    else
      ({ b with bids := out.2.2.1, bid_heap := out.2.2.2.1,
                id_index := out.2.2.2.2, trades := b.trades ++ out.1 }, out.1)

/-- `_execute_market(order_id, side, qty)`: the same sweep with no crossing
check and no resting remainder. -/
def executeMarket (b : OrderBook) (oid : ℕ) (side : String) (qty : ℕ) :
    OrderBook × List Fill :=
  if side = "BUY" then
    let out := sweep (fun p mid q => ⟨oid, mid, p, q, "BUY"⟩) "SELL" id
      (fun _ => false) b.asks b.ask_heap b.id_index qty
    ({ b with asks := out.2.2.1, ask_heap := out.2.2.2.1,
              id_index := out.2.2.2.2, trades := b.trades ++ out.1 }, out.1)
  else
    let out := sweep (fun p mid q => ⟨mid, oid, p, q, "SELL"⟩) "BUY" Neg.neg
      (fun _ => false) b.bids b.bid_heap b.id_index qty
    ({ b with bids := out.2.2.1, bid_heap := out.2.2.2.1,
              id_index := out.2.2.2.2, trades := b.trades ++ out.1 }, out.1)

/-- `_execute_ioc(order_id, side, price, qty)`: the crossing-checked sweep
with any remainder discarded. -/
def executeIOC (b : OrderBook) (oid : ℕ) (side : String) (price : ℚ) (qty : ℕ) :
    OrderBook × List Fill :=
  if side = "BUY" then
    let out := sweep (fun p mid q => ⟨oid, mid, p, q, "BUY"⟩) "SELL" id
      (fun best => decide (price < best)) b.asks b.ask_heap b.id_index qty
    ({ b with asks := out.2.2.1, ask_heap := out.2.2.2.1,
              id_index := out.2.2.2.2, trades := b.trades ++ out.1 }, out.1)
  else
    let out := sweep (fun p mid q => ⟨mid, oid, p, q, "SELL"⟩) "BUY" Neg.neg
      (fun best => decide (best < price)) b.bids b.bid_heap b.id_index qty
    ({ b with bids := out.2.2.1, bid_heap := out.2.2.2.1,
              id_index := out.2.2.2.2, trades := b.trades ++ out.1 }, out.1)

/-- `add_order(order_id, side, price, qty, order_type)`: MARKET and IOC are
dispatched specially; any other type takes the LIMIT path. -/
def addOrder (b : OrderBook) (oid : ℕ) (side : String) (price : ℚ) (qty : ℕ)
    (otype : String) : OrderBook × List Fill :=
  if otype = "MARKET" then executeMarket b oid side qty
  else if otype = "IOC" then executeIOC b oid side price qty
  else matchLimit b oid side price qty

/-- `_rebuild_heaps()`: rebuild both heaps from the level dict keys. -/
def rebuildHeaps (b : OrderBook) : OrderBook :=
  { b with bid_heap := b.bids.map (fun kv => -kv.1),
           ask_heap := b.asks.map Prod.fst }

/-- `cancel_order(order_id)`: look up the index; filter the order out of its
level's deque (preserving the rest); drop the level and rebuild the heaps if
it becomes empty. Returns the updated book and the `found` flag. -/
def cancelOrder (b : OrderBook) (oid : ℕ) : OrderBook × Bool :=
  match dGet b.id_index oid with
  | none => (b, false)
  | some (side, price, _q) =>
    let idx' := dDel b.id_index oid
    let levels := if side = "BUY" then b.bids else b.asks
    match dGet levels price with
    | none => ({ b with id_index := idx' }, false)
    | some level =>
      let newLevel := level.filter (fun e => e.1 ≠ oid)
      let found := level.any (fun e => e.1 == oid)
      if newLevel = [] then
        let levels' := dDel levels price
        if side = "BUY" then
          (rebuildHeaps { b with bids := levels', id_index := idx' }, found)
        else
          (rebuildHeaps { b with asks := levels', id_index := idx' }, found)
      else
        if side = "BUY" then
          ({ b with bids := dSet levels price newLevel, id_index := idx' }, found)
        else
          ({ b with asks := dSet levels price newLevel, id_index := idx' }, found)

/-- `snapshot()`: best bid (negated heap top) and best ask (heap top). -/
def snapshot (b : OrderBook) : Option ℚ × Option ℚ :=
  ((hpTop b.bid_heap).map Neg.neg, hpTop b.ask_heap)

/-- Books reachable from the empty book by `add_order` calls with fresh ids
(ids are unique in a valid stream, so an arriving id is never currently
resting) and arbitrary `cancel_order` calls. -/
inductive Reachable : OrderBook → Prop where
  | empty : Reachable emptyBook
  | add {b : OrderBook} (oid : ℕ) (side : String) (price : ℚ) (qty : ℕ)
      (otype : String) (hb : Reachable b)
      (hfresh : dGet b.id_index oid = none) :
      Reachable (addOrder b oid side price qty otype).1
  | cancel {b : OrderBook} (oid : ℕ) (hb : Reachable b) :
      Reachable (cancelOrder b oid).1

/-- The per-side invariant tying one side's levels dict, its heap (via the
key-to-heap-value map `f`) and the id index together. -/
structure SideInv (ms : String) (f : ℚ → ℚ) (levels : Levels) (heap : List ℚ)
    (idx : IdIndex) : Prop where
  keys_nodup : (levels.map Prod.fst).Nodup
  lv_ne : ∀ pl ∈ levels, pl.2 ≠ []
  lv_nodup : ∀ p lv, dGet levels p = some lv → (lv.map Prod.fst).Nodup
  heap_perm : heap.Perm (levels.map (fun kv => f kv.1))
  lsync : ∀ p lv, dGet levels p = some lv → ∀ e ∈ lv,
    dGet idx e.1 = some (ms, p, e.2)
  isync : ∀ o p q, dGet idx o = some (ms, p, q) →
    ∃ lv, dGet levels p = some lv ∧ (o, q) ∈ lv

/-- The full order-book invariant: both side invariants over the shared id
index, distinct index keys, and only the two side tags in index values. -/
structure Inv (b : OrderBook) : Prop where
  askS : SideInv "SELL" (fun p => p) b.asks b.ask_heap b.id_index
  bidS : SideInv "BUY" Neg.neg b.bids b.bid_heap b.id_index
  idxnd : (b.id_index.map Prod.fst).Nodup
  labels : ∀ o v, dGet b.id_index o = some v → v.1 = "BUY" ∨ v.1 = "SELL"

def wBook : OrderBook := (addOrder emptyBook 1 "BUY" 10 5 "LIMIT").1

/-- Witness book for the FIFO claim: two resting SELL orders at price 10,
id 1 (qty 2) queued ahead of id 2 (qty 4). -/
def w6b1 : OrderBook :=
  ⟨[], [(10, [(1, 2)])], [], [10], [(1, ("SELL", 10, 2))], []⟩

def w6book : OrderBook :=
  ⟨[], [(10, [(1, 2), (2, 4)])], [], [10],
   [(1, ("SELL", 10, 2)), (2, ("SELL", 10, 4))], []⟩

end Engine

@[simp]
theorem dGet_nil {κ α : Type} [DecidableEq κ] (k : κ) :
    dGet ([] : List (κ × α)) k = none := rfl

@[simp]
theorem dGet_cons {κ α : Type} [DecidableEq κ] (k' : κ) (v : α) (rest : List (κ × α)) (k : κ) :
    dGet ((k', v) :: rest) k = if k' = k then some v else dGet rest k := rfl

theorem dGet_dSet {κ α : Type} [DecidableEq κ] (d : List (κ × α)) (k k' : κ) (v : α) :
    dGet (dSet d k v) k' = if k = k' then some v else dGet d k' := by
  induction d with
  | nil => by_cases h : k = k' <;> simp [dSet, dGet, h]
  | cons hd tl ih =>
    obtain ⟨k0, v0⟩ := hd
    by_cases h0 : k0 = k
    · subst h0
      by_cases h : k0 = k' <;> simp [dSet, dGet, h]
    · simp only [dSet, if_neg h0]
      by_cases h : k0 = k'
      · subst h
        have : ¬ k = k0 := fun hh => h0 hh.symm
        simp [dGet, this]
      · simp [dGet, h, ih]

theorem dGet_dDel_ne {κ α : Type} [DecidableEq κ] (d : List (κ × α)) (k k' : κ)
    (h : k ≠ k') : dGet (dDel d k) k' = dGet d k' := by
  induction d with
  | nil => simp [dDel]
  | cons hd tl ih =>
    obtain ⟨k0, v0⟩ := hd
    by_cases h0 : k0 = k
    · subst h0
      simp [dDel, dGet, fun hh : k0 = k' => h hh]
    · simp [dDel, dGet, h0, ih]

theorem dGet_mem {κ α : Type} [DecidableEq κ] (d : List (κ × α)) (k : κ) (v : α)
    (h : dGet d k = some v) : (k, v) ∈ d := by
  induction d with
  | nil => simp [dGet] at h
  | cons hd tl ih =>
    obtain ⟨k0, v0⟩ := hd
    by_cases h0 : k0 = k
    · subst h0
      simp [dGet] at h
      simp [h]
    · simp [dGet, h0] at h
      exact List.mem_cons_of_mem _ (ih h)

theorem dGet_isSome_iff {κ α : Type} [DecidableEq κ] (d : List (κ × α)) (k : κ) :
    (dGet d k).isSome ↔ k ∈ d.map Prod.fst := by
  induction d with
  | nil => simp [dGet]
  | cons hd tl ih =>
    obtain ⟨k0, v0⟩ := hd
    by_cases h0 : k0 = k <;> simp [dGet, h0, ih]
    · exact fun h => (h0 h.symm).elim

theorem dGet_eq_none_iff {κ α : Type} [DecidableEq κ] (d : List (κ × α)) (k : κ) :
    dGet d k = none ↔ k ∉ d.map Prod.fst := by
  rw [← dGet_isSome_iff]
  cases dGet d k <;> simp

theorem mem_map_fst_exists_dGet {κ α : Type} [DecidableEq κ] (d : List (κ × α)) (k : κ)
    (h : k ∈ d.map Prod.fst) : ∃ v, dGet d k = some v := by
  have := (dGet_isSome_iff d k).mpr h
  cases hh : dGet d k
  · rw [hh] at this; simp at this
  · exact ⟨_, rfl⟩

theorem dSet_map_fst_of_mem {κ α : Type} [DecidableEq κ] (d : List (κ × α)) (k : κ) (v : α)
    (h : k ∈ d.map Prod.fst) : (dSet d k v).map Prod.fst = d.map Prod.fst := by
  induction d with
  | nil => simp at h
  | cons hd tl ih =>
    obtain ⟨k0, v0⟩ := hd
    by_cases h0 : k0 = k
    · subst h0; simp [dSet]
    · have h' : k ∈ tl.map Prod.fst := by
        rcases List.mem_cons.mp h with h | h
        · exact absurd h.symm h0
        · exact h
      simp [dSet, h0, ih h']

theorem dSet_map_fst_of_not_mem {κ α : Type} [DecidableEq κ] (d : List (κ × α)) (k : κ) (v : α)
    (h : k ∉ d.map Prod.fst) : (dSet d k v).map Prod.fst = d.map Prod.fst ++ [k] := by
  induction d with
  | nil => simp [dSet]
  | cons hd tl ih =>
    obtain ⟨k0, v0⟩ := hd
    have h1 : k0 ≠ k := by
      intro hh; exact h (by simp [hh])
    have h2 : k ∉ tl.map Prod.fst := by
      intro hh; exact h (by simp [hh])
    simp [dSet, h1, ih h2]

theorem dDel_map_fst {κ α : Type} [DecidableEq κ] (d : List (κ × α)) (k : κ) :
    (dDel d k).map Prod.fst = (d.map Prod.fst).erase k := by
  induction d with
  | nil => simp [dDel]
  | cons hd tl ih =>
    obtain ⟨k0, v0⟩ := hd
    by_cases h0 : k0 = k
    · subst h0; simp [dDel, List.erase_cons_head]
    · have : (k0 == k) = false := by simp [h0]
      simp [dDel, h0, List.erase_cons, this, ih]

theorem dGet_dDel_self {κ α : Type} [DecidableEq κ] (d : List (κ × α)) (k : κ)
    (hnd : (d.map Prod.fst).Nodup) : dGet (dDel d k) k = none := by
  rw [dGet_eq_none_iff, dDel_map_fst]
  exact fun h => (List.Nodup.not_mem_erase hnd) h

theorem dSet_keys_nodup {κ α : Type} [DecidableEq κ] (d : List (κ × α)) (k : κ) (v : α)
    (hnd : (d.map Prod.fst).Nodup) : ((dSet d k v).map Prod.fst).Nodup := by
  by_cases h : k ∈ d.map Prod.fst
  · rw [dSet_map_fst_of_mem d k v h]; exact hnd
  · rw [dSet_map_fst_of_not_mem d k v h]
    rw [List.nodup_append]
    exact ⟨hnd, List.nodup_singleton k, by
      intro a ha hb
      rcases List.mem_singleton.mp hb with rfl
      exact h ha⟩

theorem dDel_keys_nodup {κ α : Type} [DecidableEq κ] (d : List (κ × α)) (k : κ)
    (hnd : (d.map Prod.fst).Nodup) : ((dDel d k).map Prod.fst).Nodup := by
  rw [dDel_map_fst]; exact hnd.erase k

theorem foldl_min_le_init (xs : List ℚ) (x : ℚ) : xs.foldl min x ≤ x := by
  induction xs generalizing x with
  | nil => simp
  | cons y ys ih => exact le_trans (ih (min x y)) (min_le_left x y)

theorem foldl_min_le_mem (xs : List ℚ) (x : ℚ) (a : ℚ) (ha : a ∈ xs) :
    xs.foldl min x ≤ a := by
  induction xs generalizing x with
  | nil => simp at ha
  | cons y ys ih =>
    rcases List.mem_cons.mp ha with rfl | ha
    · exact le_trans (foldl_min_le_init ys (min x a)) (min_le_right x a)
    · exact ih (min x y) ha

theorem foldl_min_mem (xs : List ℚ) (x : ℚ) : xs.foldl min x ∈ x :: xs := by
  induction xs generalizing x with
  | nil => simp
  | cons y ys ih =>
    simp only [List.foldl_cons]
    have := ih (min x y)
    rcases List.mem_cons.mp this with h | h
    · rw [h]
      rcases min_choice x y with hc | hc <;> rw [hc] <;> simp
    · simp [h]

theorem listMin_mem (l : List ℚ) (h : l ≠ []) : listMin l ∈ l := by
  cases l with
  | nil => exact absurd rfl h
  | cons x xs => exact foldl_min_mem xs x

theorem listMin_le (l : List ℚ) (a : ℚ) (ha : a ∈ l) : listMin l ≤ a := by
  cases l with
  | nil => simp at ha
  | cons x xs =>
    rcases List.mem_cons.mp ha with rfl | ha
    · exact foldl_min_le_init xs a
    · exact foldl_min_le_mem xs x a ha

theorem rat_mk_eq_div (n : ℤ) (d : ℕ) (h1 : d ≠ 0) (h2 : n.natAbs.Coprime d) :
    (⟨n, d, h1, h2⟩ : ℚ) = (n : ℚ) / (d : ℚ) := by
  rw [Rat.mk'_eq_divInt, Rat.divInt_eq_div]
  norm_num

theorem bround_intCast (n : ℤ) : bround ((n : ℚ)) = n := by
  simp [bround, Int.floor_intCast]

namespace Auction

theorem p995_eq : p995 = 199 / 2 := by
  rw [p995, rat_mk_eq_div]; norm_num

theorem p399c_eq : p399c = 399 / 4 := by
  rw [p399c, rat_mk_eq_div]; norm_num

theorem pmktc_eq : pmktc = 1000000005 / 2 := by
  rw [pmktc, rat_mk_eq_div]; norm_num

/-! ## Evaluation lemmas for the concrete batches -/
theorem clear_batch_eq_multi (orders : List BOrder) (pm : Option ℚ) (t : ℚ)
    (h1 : candidatesOf orders ≠ []) (h2 : bestVolumeOf orders ≠ 0)
    (h3 : (winnersOf orders).length ≠ 1) :
    clear_batch orders pm t =
      (some (tieBreak (winnersOf orders) pm t),
       allocateFills (sortedBids orders) (sortedAsks orders)
         (tieBreak (winnersOf orders) pm t) (bestVolumeOf orders)) := by
  simp [clear_batch, cpOf, h1, h2, h3]

theorem clear_batch_eq_single (orders : List BOrder) (pm : Option ℚ) (t : ℚ)
    (h1 : candidatesOf orders ≠ []) (h2 : bestVolumeOf orders ≠ 0)
    (h3 : (winnersOf orders).length = 1) :
    clear_batch orders pm t =
      (some ((winnersOf orders).head?.getD 0),
       allocateFills (sortedBids orders) (sortedAsks orders)
         ((winnersOf orders).head?.getD 0) (bestVolumeOf orders)) := by
  simp [clear_batch, cpOf, h1, h2, h3]

theorem tieBreak_none_pair (a b t : ℚ) (n : ℤ) (h : (a + b) / 2 / t = (n : ℚ)) :
    tieBreak [a, b] none t = (n : ℚ) * t := by
  have h1 : ([a, b] : List ℚ).head?.getD 0 = a := rfl
  have h2 : ([a, b] : List ℚ).getLast?.getD 0 = b := rfl
  simp only [tieBreak, h1, h2, h, bround_intCast]

theorem tieBreak_s5 : tieBreak [(98 : ℚ), 100] (some 99) (1 / 100) = 98 := by
  have d1 : |(98 : ℚ) - 99| = 1 := by
    rw [abs_sub_comm, abs_of_nonneg] <;> norm_num
  have d2 : |(100 : ℚ) - 99| = 1 := by
    rw [abs_of_nonneg] <;> norm_num
  simp only [tieBreak, List.map_cons, List.map_nil, d1, d2, listMin, List.foldl,
    min_self, List.filter, decide_eq_true_eq]
  norm_num [min_eq_left (by norm_num : (98 : ℚ) ≤ 100)]

/-- Full evaluation of `clear_batch` on scenario S4 with no `pre_mid`. -/
theorem eval_clear_batch_s4 :
    clear_batch s4Orders none (1 / 100) =
      (some (399 / 4), [⟨1, 3, 399 / 4, 10, "BUY"⟩]) := by
  have hw : winnersOf s4Orders = [p995, 100] := by decide
  rw [clear_batch_eq_multi _ _ _ (by decide) (by decide) (by decide), hw]
  rw [tieBreak_none_pair p995 100 (1 / 100) 9975 (by rw [p995_eq]; norm_num)]
  have hp : ((9975 : ℤ) : ℚ) * (1 / 100) = p399c := by rw [p399c_eq]; norm_num
  rw [hp]
  have hsb : sortedBids s4Orders = [⟨1, 100, 10, 0⟩, ⟨2, 99, 10, 0⟩] := by decide
  have hsa : sortedAsks s4Orders = [⟨3, p995, 15, 0⟩] := by decide
  have hbv : bestVolumeOf s4Orders = 10 := by decide
  have hc1 : p399c ≤ (100 : ℚ) := by decide
  have hc2 : ¬ (p399c ≤ (99 : ℚ)) := by decide
  have hc3 : p995 ≤ p399c := by decide
  rw [hsb, hsa, hbv]
  simp only [allocateFills, List.filter, hc1, hc2, hc3, decide_eq_true_eq]
  simp [allocGo, p399c_eq]

/-- Full evaluation of `clear_batch` on scenario S5 (`pre_mid = 99`). -/
theorem eval_clear_batch_s5_mid :
    clear_batch s5Orders (some 99) (1 / 100) =
      (some 98, [⟨1, 2, 98, 10, "BUY"⟩]) := by
  have hw : winnersOf s5Orders = [98, 100] := by decide
  rw [clear_batch_eq_multi _ _ _ (by decide) (by decide) (by decide), hw, tieBreak_s5]
  have hsb : sortedBids s5Orders = [⟨1, 100, 10, 0⟩] := by decide
  have hsa : sortedAsks s5Orders = [⟨2, 98, 10, 0⟩] := by decide
  have hbv : bestVolumeOf s5Orders = 10 := by decide
  rw [hsb, hsa, hbv]
  have hc1 : (98 : ℚ) ≤ 100 := by decide
  have hc2 : (98 : ℚ) ≤ 98 := by decide
  simp only [allocateFills, List.filter, hc1, hc2, decide_eq_true_eq]
  simp [allocGo]

/-- Full evaluation of `clear_batch` on scenario S6 (same orders, no `pre_mid`). -/
theorem eval_clear_batch_s5_none :
    clear_batch s5Orders none (1 / 100) =
      (some 99, [⟨1, 2, 99, 10, "BUY"⟩]) := by
  have hw : winnersOf s5Orders = [98, 100] := by decide
  rw [clear_batch_eq_multi _ _ _ (by decide) (by decide) (by decide), hw]
  rw [tieBreak_none_pair 98 100 (1 / 100) 9900 (by norm_num)]
  have hp : ((9900 : ℤ) : ℚ) * (1 / 100) = 99 := by norm_num
  rw [hp]
  have hsb : sortedBids s5Orders = [⟨1, 100, 10, 0⟩] := by decide
  have hsa : sortedAsks s5Orders = [⟨2, 98, 10, 0⟩] := by decide
  have hbv : bestVolumeOf s5Orders = 10 := by decide
  rw [hsb, hsa, hbv]
  have hc1 : (99 : ℚ) ≤ 100 := by decide
  have hc2 : (98 : ℚ) ≤ 99 := by decide
  simp only [allocateFills, List.filter, hc1, hc2, decide_eq_true_eq]
  simp [allocGo]

/-- The clearing price on the MARKET-order batch: the winners set is
`[5, 1e9]` (it contains the sentinel) and the returned price is the snapped
midpoint 500000002.5. -/
theorem eval_clear_batch_mkt :
    (clear_batch mktOrders none (1 / 100)).1 = some (1000000005 / 2) := by
  have hw : winnersOf mktOrders = [5, 10 ^ 9] := by decide
  rw [clear_batch_eq_multi _ _ _ (by decide) (by decide) (by decide), hw]
  rw [tieBreak_none_pair 5 (10 ^ 9) (1 / 100) 50000000250 (by norm_num)]
  norm_num

/-! ## General lemmas about the candidate scan -/
theorem scanStep_eq (vol : ℚ → ℕ) (s : ℕ × List ℚ) (p : ℚ) :
    scanStep vol s p =
      if s.1 < vol p then (vol p, [p])
      else if vol p = s.1 ∧ 0 < vol p then (s.1, s.2 ++ [p]) else s := rfl

theorem scanStep_fst (vol : ℚ → ℕ) (s : ℕ × List ℚ) (p : ℚ) :
    (scanStep vol s p).1 = max s.1 (vol p) := by
  rw [scanStep_eq]
  split_ifs with hc1 hc2
  · exact (max_eq_right (le_of_lt hc1)).symm
  · exact (max_eq_left (not_lt.mp hc1)).symm
  · exact (max_eq_left (not_lt.mp hc1)).symm

theorem foldl_scan_fst (vol : ℚ → ℕ) (cs : List ℚ) (s : ℕ × List ℚ) :
    (cs.foldl (scanStep vol) s).1 = cs.foldl (fun b c => max b (vol c)) s.1 := by
  induction cs generalizing s with
  | nil => rfl
  | cons c cs' ih =>
    simp only [List.foldl_cons]
    rw [ih, scanStep_fst]

theorem init_le_foldl_max (vol : ℚ → ℕ) (cs : List ℚ) (b : ℕ) :
    b ≤ cs.foldl (fun b c => max b (vol c)) b := by
  induction cs generalizing b with
  | nil => simp
  | cons c cs' ih => exact le_trans (le_max_left b (vol c)) (ih (max b (vol c)))

theorem le_foldl_max (vol : ℚ → ℕ) (cs : List ℚ) (c : ℚ) (hc : c ∈ cs) :
    ∀ b : ℕ, vol c ≤ cs.foldl (fun b c => max b (vol c)) b := by
  induction cs with
  | nil => simp at hc
  | cons x cs' ih =>
    intro b
    simp only [List.foldl_cons]
    rcases List.mem_cons.mp hc with rfl | hc'
    · exact le_trans (le_max_right b (vol c)) (init_le_foldl_max vol cs' _)
    · exact ih hc' _

/-- Every candidate's volume is at most `best_volume`. -/
theorem vol_le_bestVolume (orders : List BOrder) (p : ℚ) (hp : p ∈ candidatesOf orders) :
    volumeOf orders p ≤ bestVolumeOf orders := by
  unfold bestVolumeOf scanOf
  rw [foldl_scan_fst]
  exact le_foldl_max (volumeOf orders) (candidatesOf orders) p hp 0

/-- Fold invariant: every winner has volume `best`, and a nonempty winner list
means positive best volume. -/
theorem foldl_scan_winners (vol : ℚ → ℕ) (cs : List ℚ) :
    ∀ s : ℕ × List ℚ, (∀ w ∈ s.2, vol w = s.1) → (s.2 ≠ [] → 0 < s.1) →
    (∀ w ∈ (cs.foldl (scanStep vol) s).2, vol w = (cs.foldl (scanStep vol) s).1) ∧
    ((cs.foldl (scanStep vol) s).2 ≠ [] → 0 < (cs.foldl (scanStep vol) s).1) := by
  induction cs with
  | nil => exact fun s h1 h2 => ⟨h1, h2⟩
  | cons c cs' ih =>
    intro s h1 h2
    simp only [List.foldl_cons]
    apply ih
    · rw [scanStep_eq]
      split_ifs with hc1 hc2
      · intro w hw
        simp at hw
        simp [hw]
      · intro w hw
        simp only at hw ⊢
        rcases List.mem_append.mp hw with h | h
        · exact h1 w h
        · simp at h
          rw [h, hc2.1]
      · exact h1
    · rw [scanStep_eq]
      split_ifs with hc1 hc2
      · intro _
        omega
      · intro _
        simp only
        omega
      · exact h2

theorem winners_vol (orders : List BOrder) (w : ℚ) (hw : w ∈ winnersOf orders) :
    volumeOf orders w = bestVolumeOf orders := by
  have := foldl_scan_winners (volumeOf orders) (candidatesOf orders) (0, [])
    (by intro w hw; simp at hw) (by intro h; simp at h)
  exact this.1 w hw

theorem bestVolume_pos (orders : List BOrder) (hne : winnersOf orders ≠ []) :
    0 < bestVolumeOf orders := by
  have := foldl_scan_winners (volumeOf orders) (candidatesOf orders) (0, [])
    (by intro w hw; simp at hw) (by intro h; simp at h)
  exact this.2 hne

/-- Winners come from the scanned candidates. -/
theorem foldl_scan_mem (vol : ℚ → ℕ) (cs : List ℚ) :
    ∀ s : ℕ × List ℚ, ∀ w : ℚ,
    w ∈ (cs.foldl (scanStep vol) s).2 → w ∈ s.2 ∨ w ∈ cs := by
  induction cs with
  | nil => exact fun s w hw => Or.inl hw
  | cons c cs' ih =>
    intro s w hw
    simp only [List.foldl_cons] at hw
    rcases ih _ w hw with h | h
    · rw [scanStep_eq] at h
      split_ifs at h with hc1 hc2
      · simp at h
        exact Or.inr (by simp [h])
      · simp only at h
        rcases List.mem_append.mp h with h | h
        · exact Or.inl h
        · simp at h
          exact Or.inr (by simp [h])
      · exact Or.inl h
    · exact Or.inr (List.mem_cons_of_mem c h)

theorem winners_subset_candidates (orders : List BOrder) (w : ℚ)
    (hw : w ∈ winnersOf orders) : w ∈ candidatesOf orders := by
  rcases foldl_scan_mem (volumeOf orders) (candidatesOf orders) (0, []) w hw with h | h
  · simp at h
  · exact h

theorem candidates_sorted (orders : List BOrder) :
    (candidatesOf orders).Sorted (· ≤ ·) := by
  unfold candidatesOf
  exact List.sorted_insertionSort (· ≤ ·) _

/-- Winner-list sortedness, as a fold invariant over a sorted candidate list. -/
theorem foldl_scan_sorted (vol : ℚ → ℕ) (cs : List ℚ) :
    ∀ s : ℕ × List ℚ, cs.Sorted (· ≤ ·) → s.2.Sorted (· ≤ ·) →
    (∀ w ∈ s.2, ∀ c ∈ cs, w ≤ c) →
    (cs.foldl (scanStep vol) s).2.Sorted (· ≤ ·) := by
  induction cs with
  | nil => exact fun s _ hs _ => hs
  | cons c cs' ih =>
    intro s hcs hs hb
    simp only [List.foldl_cons]
    have hcs' : cs'.Sorted (· ≤ ·) := hcs.of_cons
    have hc_le : ∀ x ∈ cs', c ≤ x := fun x hx => (List.sorted_cons.mp hcs).1 x hx
    apply ih _ hcs'
    · rw [scanStep_eq]
      split_ifs with hc1 hc2
      · simp
      · simp only
        refine List.pairwise_append.mpr ⟨hs, List.sorted_singleton c, ?_⟩
        intro a ha b hb'
        rcases List.mem_singleton.mp hb' with rfl
        exact hb a ha b (List.mem_cons_self b cs')
      · exact hs
    · rw [scanStep_eq]
      split_ifs with hc1 hc2
      · intro w hw x hx
        rcases List.mem_singleton.mp hw with rfl
        exact hc_le x hx
      · intro w hw x hx
        simp only at hw
        rcases List.mem_append.mp hw with h | h
        · exact hb w h x (List.mem_cons_of_mem c hx)
        · rcases List.mem_singleton.mp h with rfl
          exact hc_le x hx
      · intro w hw x hx
        exact hb w hw x (List.mem_cons_of_mem c hx)

theorem winners_sorted (orders : List BOrder) :
    (winnersOf orders).Sorted (· ≤ ·) := by
  refine foldl_scan_sorted (volumeOf orders) (candidatesOf orders) (0, [])
    (candidates_sorted orders) ?_ ?_
  · simp
  · intro w hw
    simp at hw

theorem sorted_headD_le (l : List ℚ) (hl : l.Sorted (· ≤ ·)) (x : ℚ) (hx : x ∈ l) :
    l.head?.getD 0 ≤ x := by
  cases l with
  | nil => simp at hx
  | cons a t =>
    rcases List.mem_cons.mp hx with rfl | hx
    · simp
    · exact le_trans (by simp) ((List.sorted_cons.mp hl).1 x hx)

theorem headD_mem (l : List ℚ) (hl : l ≠ []) : l.head?.getD 0 ∈ l := by
  cases l with
  | nil => exact absurd rfl hl
  | cons a t => simp

theorem getLastD_mem (l : List ℚ) (hl : l ≠ []) : l.getLast?.getD 0 ∈ l := by
  induction l with
  | nil => exact absurd rfl hl
  | cons a t ih =>
    cases t with
    | nil => simp [List.getLast?]
    | cons b t2 =>
      rw [List.getLast?_cons_cons]
      exact List.mem_cons_of_mem a (ih (by simp))

theorem sorted_le_getLastD (l : List ℚ) (hl : l.Sorted (· ≤ ·)) :
    ∀ x ∈ l, x ≤ l.getLast?.getD 0 := by
  induction l with
  | nil => simp
  | cons a t ih =>
    intro x hx
    cases t with
    | nil =>
      rcases List.mem_singleton.mp hx with rfl
      simp [List.getLast?]
    | cons b t2 =>
      rw [List.getLast?_cons_cons]
      rcases List.mem_cons.mp hx with rfl | hx2
      · exact le_trans ((List.sorted_cons.mp hl).1 b (by simp))
          (ih hl.of_cons b (by simp))
      · exact ih hl.of_cons x hx2

/-- The `pre_mid` tie-break returns a winner at minimal distance from
`pre_mid`, lowest first on ties. -/
theorem tieBreak_some_spec (ws : List ℚ) (m t : ℚ) (hne : ws ≠ []) :
    tieBreak ws (some m) t ∈ ws ∧
    (∀ q ∈ ws, |tieBreak ws (some m) t - m| ≤ |q - m|) ∧
    (∀ q ∈ ws, |q - m| = |tieBreak ws (some m) t - m| → tieBreak ws (some m) t ≤ q) := by
  have hD : ws.map (fun p => |p - m|) ≠ [] := by
    cases ws
    · exact absurd rfl hne
    · simp
  have hmd : listMin (ws.map (fun p => |p - m|)) ∈ ws.map (fun p => |p - m|) :=
    listMin_mem _ hD
  obtain ⟨w0, hw0, hw0e⟩ := List.mem_map.mp hmd
  have hw0C : w0 ∈ ws.filter
      (fun p => |p - m| = listMin (ws.map (fun p => |p - m|))) := by
    rw [List.mem_filter]
    exact ⟨hw0, by simp [hw0e]⟩
  have hCne : ws.filter
      (fun p => |p - m| = listMin (ws.map (fun p => |p - m|))) ≠ [] := by
    intro h
    rw [h] at hw0C
    simp at hw0C
  have hp : tieBreak ws (some m) t ∈ ws.filter
      (fun p => |p - m| = listMin (ws.map (fun p => |p - m|))) :=
    listMin_mem _ hCne
  have hpw : tieBreak ws (some m) t ∈ ws := (List.mem_filter.mp hp).1
  have hpd : |tieBreak ws (some m) t - m| = listMin (ws.map (fun p => |p - m|)) := by
    have := (List.mem_filter.mp hp).2
    simpa using this
  refine ⟨hpw, ?_, ?_⟩
  · intro q hq
    rw [hpd]
    exact listMin_le _ _ (List.mem_map_of_mem _ hq)
  · intro q hq hqd
    apply listMin_le
    rw [List.mem_filter]
    refine ⟨hq, by simp [hqd, hpd]⟩

/-- Without `pre_mid`, the tie-break is the tick-snapped midpoint of the
least and greatest winner (the code reads `winners[0]` and `winners[-1]`,
which are the min and max since the winner list is ascending). -/
theorem tieBreak_none_eq (ws : List ℚ) (t : ℚ) (hne : ws ≠ [])
    (hsorted : ws.Sorted (· ≤ ·)) (wmin wmax : ℚ)
    (hminm : wmin ∈ ws) (hmin : ∀ w ∈ ws, wmin ≤ w)
    (hmaxm : wmax ∈ ws) (hmax : ∀ w ∈ ws, w ≤ wmax) :
    tieBreak ws none t = (bround (((wmin + wmax) / 2) / t) : ℚ) * t := by
  have h1 : ws.head?.getD 0 = wmin :=
    le_antisymm (sorted_headD_le ws hsorted wmin hminm) (hmin _ (headD_mem ws hne))
  have h2 : ws.getLast?.getD 0 = wmax :=
    le_antisymm (hmax _ (getLastD_mem ws hne)) (sorted_le_getLastD ws hsorted wmax hmaxm)
  simp only [tieBreak, h1, h2]

theorem mem_keys_dSet {α : Type} (d : List (ℚ × α)) (k : ℚ) (v : α) (x : ℚ) :
    x ∈ (dSet d k v).map Prod.fst ↔ x ∈ d.map Prod.fst ∨ x = k := by
  by_cases h : k ∈ d.map Prod.fst
  · rw [dSet_map_fst_of_mem _ _ _ h]
    constructor
    · exact Or.inl
    · rintro (hx | rfl)
      · exact hx
      · exact h
  · rw [dSet_map_fst_of_not_mem _ _ _ h]
    simp

theorem mem_keys_buildLevels (es : List BEntry) (k : ℚ) :
    k ∈ (buildLevels es).map Prod.fst ↔ k ∈ es.map BEntry.price := by
  suffices h : ∀ acc : List (ℚ × ℕ),
      (k ∈ ((es.foldl (fun acc e =>
        dSet acc e.price ((dGet acc e.price).getD 0 + e.qty)) acc).map Prod.fst) ↔
      k ∈ acc.map Prod.fst ∨ k ∈ es.map BEntry.price) by
    have := h []
    simpa [buildLevels] using this
  induction es with
  | nil => intro acc; simp
  | cons e es' ih =>
    intro acc
    simp only [List.foldl_cons, List.map_cons, List.mem_cons]
    rw [ih, mem_keys_dSet]
    tauto

theorem bid_key_mem_candidates (orders : List BOrder) (k : ℚ)
    (hk : k ∈ (bidLevelsOf orders).map Prod.fst) : k ∈ candidatesOf orders := by
  unfold candidatesOf
  rw [(List.perm_insertionSort (· ≤ ·) _).mem_iff, List.mem_dedup]
  exact List.mem_append_left _ hk

theorem ask_key_mem_candidates (orders : List BOrder) (k : ℚ)
    (hk : k ∈ (askLevelsOf orders).map Prod.fst) : k ∈ candidatesOf orders := by
  unfold candidatesOf
  rw [(List.perm_insertionSort (· ≤ ·) _).mem_iff, List.mem_dedup]
  exact List.mem_append_right _ hk

/-- One `levels[price] = levels.get(price, 0) + qty` step adds `qty` to the
filtered level sum exactly when the price passes the filter. -/
theorem filterSum_dSet (acc : List (ℚ × ℕ)) (k : ℚ) (q : ℕ) (pred : ℚ → Bool) :
    (((dSet acc k ((dGet acc k).getD 0 + q)).filter (fun kv => pred kv.1)).map
        Prod.snd).sum =
      ((acc.filter (fun kv => pred kv.1)).map Prod.snd).sum +
        (if pred k then q else 0) := by
  induction acc with
  | nil =>
    simp only [dGet_nil, Option.getD_none, dSet, Nat.zero_add]
    by_cases h : pred k <;> simp [List.filter, h]
  | cons hd tl ih =>
    obtain ⟨k0, v0⟩ := hd
    by_cases h0 : k0 = k
    · subst h0
      simp only [dGet_cons, if_pos rfl, Option.getD_some, dSet, if_pos rfl]
      by_cases h : pred k0 <;> simp [List.filter, h] <;> omega
    · simp only [dGet_cons, if_neg h0, dSet, if_neg h0]
      by_cases h : pred k0 <;> simp [List.filter, h, ih] <;> omega

/-- The filtered aggregate-level sum equals the filtered raw-entry sum. -/
theorem filterSum_buildLevels (es : List BEntry) (pred : ℚ → Bool) :
    (((buildLevels es).filter (fun kv => pred kv.1)).map Prod.snd).sum =
      ((es.filter (fun e => pred e.price)).map BEntry.qty).sum := by
  suffices h : ∀ acc : List (ℚ × ℕ),
      (((es.foldl (fun acc e =>
          dSet acc e.price ((dGet acc e.price).getD 0 + e.qty)) acc).filter
            (fun kv => pred kv.1)).map Prod.snd).sum =
        ((acc.filter (fun kv => pred kv.1)).map Prod.snd).sum +
          ((es.filter (fun e => pred e.price)).map BEntry.qty).sum by
    have := h []
    simpa [buildLevels] using this
  induction es with
  | nil => intro acc; simp
  | cons e es' ih =>
    intro acc
    simp only [List.foldl_cons]
    rw [ih, filterSum_dSet]
    by_cases h : pred e.price <;> simp [List.filter, h] <;> omega

theorem sum_filter_mono {α : Type} (l : List α) (f : α → ℕ) (p q : α → Bool)
    (h : ∀ x, p x = true → q x = true) :
    ((l.filter p).map f).sum ≤ ((l.filter q).map f).sum := by
  induction l with
  | nil => simp
  | cons a t ih =>
    by_cases hp : p a
    · have hq := h a hp
      simp only [List.filter, hp, hq]
      simpa using Nat.add_le_add_left ih (f a)
    · by_cases hq : q a
      · simp only [List.filter, if_neg, hp, hq]
        simp only [Bool.not_eq_true] at hp
        simp [hp, List.map_cons]
        exact le_trans ih (Nat.le_add_left _ _)
      · simp only [Bool.not_eq_true] at hp hq
        simp [List.filter, hp, hq, ih]

/-- The volume function is bounded by `best_volume` at every price, not only
at candidates: the key step behind batch volume conservation. -/
theorem volume_le_best (orders : List BOrder) (p : ℚ) :
    volumeOf orders p ≤ bestVolumeOf orders := by
  by_cases hex : ∃ c ∈ candidatesOf orders, p ≤ c
  · obtain ⟨c0, hc0, hpc0⟩ := hex
    have hc0F : c0 ∈ (candidatesOf orders).filter (fun c => decide (p ≤ c)) := by
      rw [List.mem_filter]
      exact ⟨hc0, by simp [hpc0]⟩
    have hFne : (candidatesOf orders).filter (fun c => decide (p ≤ c)) ≠ [] := by
      intro h
      rw [h] at hc0F
      simp at hc0F
    have hcF : listMin ((candidatesOf orders).filter (fun c => decide (p ≤ c))) ∈
        (candidatesOf orders).filter (fun c => decide (p ≤ c)) := listMin_mem _ hFne
    set c := listMin ((candidatesOf orders).filter (fun c => decide (p ≤ c))) with hc_def
    have hcc : c ∈ candidatesOf orders := (List.mem_filter.mp hcF).1
    have hpc : p ≤ c := by
      have := (List.mem_filter.mp hcF).2
      simpa using this
    have hcmin : ∀ x ∈ candidatesOf orders, p ≤ x → c ≤ x := by
      intro x hx hpx
      apply listMin_le
      rw [List.mem_filter]
      exact ⟨hx, by simp [hpx]⟩
    have hfc : (bidLevelsOf orders).filter (fun kv => decide (p ≤ kv.1)) =
        (bidLevelsOf orders).filter (fun kv => decide (c ≤ kv.1)) := by
      apply List.filter_congr
      intro kv hkv
      have hkey : kv.1 ∈ (bidLevelsOf orders).map Prod.fst :=
        List.mem_map_of_mem Prod.fst hkv
      have hcand := bid_key_mem_candidates orders kv.1 hkey
      rcases le_or_lt p kv.1 with hle | hlt
      · simp [hle, hcmin kv.1 hcand hle]
      · simp [not_le.mpr hlt, not_le.mpr (lt_of_lt_of_le hlt hpc)]
    have hdem : demandOf orders p = demandOf orders c := by
      unfold demandOf
      rw [hfc]
    have hsup : supplyOf orders p ≤ supplyOf orders c := by
      unfold supplyOf
      apply sum_filter_mono
      intro kv hkv
      simp only [decide_eq_true_eq] at hkv ⊢
      exact le_trans hkv hpc
    calc volumeOf orders p = min (demandOf orders p) (supplyOf orders p) := rfl
      _ ≤ min (demandOf orders c) (supplyOf orders c) := by
          rw [hdem]
          exact min_le_min (le_refl _) hsup
      _ ≤ bestVolumeOf orders := vol_le_bestVolume orders c hcc
  · push_neg at hex
    have hd : demandOf orders p = 0 := by
      unfold demandOf
      have hnil : (bidLevelsOf orders).filter (fun kv => decide (p ≤ kv.1)) = [] := by
        rw [List.filter_eq_nil_iff]
        intro kv hkv
        have hkey : kv.1 ∈ (bidLevelsOf orders).map Prod.fst :=
          List.mem_map_of_mem Prod.fst hkv
        have hcand := bid_key_mem_candidates orders kv.1 hkey
        simp [hex kv.1 hcand]
      rw [hnil]
      simp
    unfold volumeOf
    rw [hd]
    simp

theorem allocGo_nil_left (as' : List (ℕ × ℕ)) (p : ℚ) (t : ℕ) :
    allocGo [] as' p t = [] := by
  rw [allocGo]

theorem allocGo_nil_right (hd : ℕ × ℕ) (tl : List (ℕ × ℕ)) (p : ℚ) (t : ℕ) :
    allocGo (hd :: tl) [] p t = [] := by
  rw [allocGo]

theorem allocGo_cons (bid brem : ℕ) (bs : List (ℕ × ℕ)) (aid arem : ℕ)
    (as' : List (ℕ × ℕ)) (p : ℚ) (t : ℕ) :
    allocGo ((bid, brem) :: bs) ((aid, arem) :: as') p t =
      if t = 0 then []
      else if brem = 0 then allocGo bs ((aid, arem) :: as') p t
      else if arem = 0 then allocGo ((bid, brem) :: bs) as' p t
      else
        let q := min (min brem arem) t
        ⟨bid, aid, p, q, "BUY"⟩ ::
          allocGo ((bid, brem - q) :: bs) ((aid, arem - q) :: as') p (t - q) := by
  rw [allocGo]

/-- Total allocated quantity: the two-cursor loop trades
`min(target, Σ bid remainder, Σ ask remainder)`. -/
theorem allocGo_sum (bs as' : List (ℕ × ℕ)) (p : ℚ) (t : ℕ) :
    ((allocGo bs as' p t).map Fill.qty).sum =
      min t (min ((bs.map Prod.snd).sum) ((as'.map Prod.snd).sum)) := by
  induction bs, as', p, t using allocGo.induct with
  | case1 as' p t => simp [allocGo_nil_left]
  | case2 hd tl p t => simp [allocGo_nil_right]
  | case3 bid brem bs aid arem as' p => simp [allocGo_cons]
  | case4 bid bs aid arem as' p t ht ih =>
    rw [allocGo_cons, if_neg ht, if_pos rfl, ih]
    simp only [List.map_cons, List.sum_cons]
    omega
  | case5 bid brem bs aid as' p t ht hb ih =>
    rw [allocGo_cons, if_neg ht, if_neg hb, if_pos rfl, ih]
    simp only [List.map_cons, List.sum_cons]
    omega
  | case6 bid brem bs aid arem as' p t ht hb ha q ih =>
    rw [allocGo_cons, if_neg ht, if_neg hb, if_neg ha]
    have hq : q = min (min brem arem) t := rfl
    rw [hq] at ih
    simp only [List.map_cons, List.sum_cons]
    rw [ih]
    simp only [List.map_cons, List.sum_cons]
    omega

theorem clear_batch_fst_some (orders : List BOrder) (pm : Option ℚ) (t : ℚ) (p : ℚ)
    (h : (clear_batch orders pm t).1 = some p) :
    candidatesOf orders ≠ [] ∧ bestVolumeOf orders ≠ 0 ∧ p = cpOf orders pm t := by
  by_cases h1 : candidatesOf orders = []
  · simp [clear_batch, h1] at h
  by_cases h2 : bestVolumeOf orders = 0
  · simp [clear_batch, h1, h2] at h
  refine ⟨h1, h2, ?_⟩
  simp [clear_batch, h1, h2] at h
  exact h.symm

theorem clear_batch_fills (orders : List BOrder) (pm : Option ℚ) (t : ℚ)
    (h1 : candidatesOf orders ≠ []) (h2 : bestVolumeOf orders ≠ 0) :
    clear_batch orders pm t =
      (some (cpOf orders pm t),
       allocateFills (sortedBids orders) (sortedAsks orders) (cpOf orders pm t)
         (bestVolumeOf orders)) := by
  simp [clear_batch, h1, h2]

theorem demandOf_eq_raw (orders : List BOrder) (p : ℚ) :
    demandOf orders p =
      (((sortedBids orders).filter (fun b => decide (p ≤ b.price))).map BEntry.qty).sum := by
  have h := filterSum_buildLevels (sortedBids orders) (fun x => decide (p ≤ x))
  exact h

theorem supplyOf_eq_raw (orders : List BOrder) (p : ℚ) :
    supplyOf orders p =
      (((sortedAsks orders).filter (fun a => decide (a.price ≤ p))).map BEntry.qty).sum := by
  have h := filterSum_buildLevels (sortedAsks orders) (fun x => decide (x ≤ p))
  exact h

theorem allocateFills_sum (orders : List BOrder) (p : ℚ) (t : ℕ) :
    ((allocateFills (sortedBids orders) (sortedAsks orders) p t).map Fill.qty).sum =
      min t (min (demandOf orders p) (supplyOf orders p)) := by
  unfold allocateFills
  rw [allocGo_sum]
  rw [demandOf_eq_raw, supplyOf_eq_raw]
  rw [List.map_map, List.map_map]
  rfl

/-- C5: batch volume conservation — whenever `clear_batch` returns a price
`p`, the fills total exactly `V(p) = min(demand(p), supply(p))`. -/
theorem C5_theorem (orders : List BOrder) (pm : Option ℚ) (t : ℚ) (p : ℚ)
    (h : (clear_batch orders pm t).1 = some p) :
    ((clear_batch orders pm t).2.map Fill.qty).sum =
      min (demandOf orders p) (supplyOf orders p) := by
  obtain ⟨h1, h2, hp⟩ := clear_batch_fst_some orders pm t p h
  rw [clear_batch_fills orders pm t h1 h2]
  have hfills :
      (((some (cpOf orders pm t),
        allocateFills (sortedBids orders) (sortedAsks orders) (cpOf orders pm t)
          (bestVolumeOf orders)) :
          Option ℚ × List Fill).2.map Fill.qty).sum =
      min (bestVolumeOf orders) (min (demandOf orders (cpOf orders pm t))
        (supplyOf orders (cpOf orders pm t))) := allocateFills_sum orders _ _
  rw [hfills, ← hp]
  exact min_eq_right (volume_le_best orders p)

/-- C5 witness: on scenario S6 the fills total `min(demand(99), supply(99)) = 10`. -/
theorem C5_witness :
    ((clear_batch s5Orders none (1 / 100)).2.map Fill.qty).sum =
      min (demandOf s5Orders 99) (supplyOf s5Orders 99) ∧
    min (demandOf s5Orders 99) (supplyOf s5Orders 99) = 10 :=
  ⟨C5_theorem s5Orders none (1 / 100) 99 (by rw [eval_clear_batch_s5_none]), by decide⟩

/-- C10: when the winners set is a singleton, the result of `clear_batch` does
not depend on `pre_mid` or `tick`. -/
theorem C10_theorem (orders : List BOrder) (pm1 pm2 : Option ℚ) (t1 t2 : ℚ)
    (h : (winnersOf orders).length = 1) :
    clear_batch orders pm1 t1 = clear_batch orders pm2 t2 := by
  by_cases h1 : candidatesOf orders = []
  · simp [clear_batch, h1]
  by_cases h2 : bestVolumeOf orders = 0
  · simp [clear_batch, h1, h2]
  rw [clear_batch_eq_single orders pm1 t1 h1 h2 h,
    clear_batch_eq_single orders pm2 t2 h1 h2 h]

/-- C10 witness: a singleton-winner batch clears identically under two
different tie-break inputs. -/
theorem C10_witness :
    clear_batch singletonOrders none (1 / 100) = clear_batch singletonOrders (some 42) 7 :=
  C10_theorem singletonOrders none (some 42) (1 / 100) 7 (by decide)

/-- C2 counterexample: on scenario S4 the clearing price is 99.75, not 100.00,
and the volume-maximising candidate is not unique (two winners). -/
theorem C2_counterexample :
    (clear_batch s4Orders none (1 / 100)).1 = some (399 / 4) ∧
    (399 / 4 : ℚ) ≠ 100 ∧ (winnersOf s4Orders).length = 2 :=
  ⟨by rw [eval_clear_batch_s4], by norm_num, by decide⟩

/-- C2 amended: on S4 the best volume is 10 and the fills total 10, but the
winners plateau is {99.5, 100}; with no `pre_mid` the price is the snapped
midpoint 99.75. -/
theorem C2_amended :
    bestVolumeOf s4Orders = 10 ∧
    winnersOf s4Orders = [p995, 100] ∧ p995 = 199 / 2 ∧
    clear_batch s4Orders none (1 / 100) =
      (some (399 / 4), [⟨1, 3, 399 / 4, 10, "BUY"⟩]) ∧
    ((clear_batch s4Orders none (1 / 100)).2.map Fill.qty).sum = 10 :=
  ⟨by decide, by decide, p995_eq, eval_clear_batch_s4, by rw [eval_clear_batch_s4]; rfl⟩

/-- C1 counterexample: the MARKET-BUY batch puts the sentinel 1e9 into the
winners set and the returned clearing price 500000002.5 is derived from it. -/
theorem C1_counterexample :
    (∃ o ∈ mktOrders, o.otype = "MARKET") ∧
    sentinelBuy ∈ winnersOf mktOrders ∧
    (clear_batch mktOrders none (1 / 100)).1 = some (1000000005 / 2) :=
  ⟨by decide, by decide, eval_clear_batch_mkt⟩

/-- C1 amended: sentinel prices are included in the aggregation AND in the
candidate set — every batch containing a MARKET BUY has the sentinel 1e9 as a
candidate clearing price. -/
theorem C1_amended (orders : List BOrder)
    (h : ∃ o ∈ orders, o.otype = "MARKET" ∧ o.side = "BUY") :
    sentinelBuy ∈ candidatesOf orders := by
  obtain ⟨o, ho, hm, hb⟩ := h
  apply bid_key_mem_candidates
  unfold bidLevelsOf
  rw [mem_keys_buildLevels]
  have hraw : toEntry o ∈ rawBids orders := by
    unfold rawBids
    apply List.mem_map_of_mem
    rw [List.mem_filter]
    refine ⟨ho, ?_⟩
    rw [hm, hb]
    decide
  have hsorted : toEntry o ∈ sortedBids orders := by
    unfold sortedBids
    rw [(List.perm_insertionSort bidRel _).mem_iff]
    exact hraw
  have hprice : (toEntry o).price = sentinelBuy := by
    simp [toEntry, hm, hb]
  rw [← hprice]
  exact List.mem_map_of_mem BEntry.price hsorted

/-- C1 witness: the MARKET-BUY batch has the sentinel as a candidate. -/
theorem C1_witness : sentinelBuy ∈ candidatesOf mktOrders :=
  C1_amended mktOrders (by decide)

/-- C3: with several winners and `pre_mid` given, `clear_batch` returns the
winner minimising the distance to `pre_mid`, lowest on ties; on S5 both
winners 98 and 100 are at distance 1 from 99.0, so the price is 98.00 (not
99.00) with fills `[(1,2,98.00,10,BUY)]`. -/
theorem C3_theorem :
    (∀ (orders : List BOrder) (m t : ℚ), 1 < (winnersOf orders).length →
      ∃ p, (clear_batch orders (some m) t).1 = some p ∧ p ∈ winnersOf orders ∧
        (∀ q ∈ winnersOf orders, |p - m| ≤ |q - m|) ∧
        (∀ q ∈ winnersOf orders, |q - m| = |p - m| → p ≤ q)) ∧
    clear_batch s5Orders (some 99) (1 / 100) = (some 98, [⟨1, 2, 98, 10, "BUY"⟩]) := by
  constructor
  · intro orders m t hlen
    have hne : winnersOf orders ≠ [] := by
      intro hh
      rw [hh] at hlen
      simp at hlen
    have h2 : bestVolumeOf orders ≠ 0 := (bestVolume_pos orders hne).ne'
    have h1 : candidatesOf orders ≠ [] := by
      intro hh
      obtain ⟨w, hw⟩ := List.exists_mem_of_ne_nil _ hne
      have := winners_subset_candidates orders w hw
      rw [hh] at this
      simp at this
    have hcp : (clear_batch orders (some m) t).1 = some (cpOf orders (some m) t) := by
      rw [clear_batch_fills orders (some m) t h1 h2]
    have hcpv : cpOf orders (some m) t = tieBreak (winnersOf orders) (some m) t := by
      unfold cpOf
      rw [if_neg (by omega : ¬(winnersOf orders).length = 1)]
    obtain ⟨hmem, hmin, htie⟩ := tieBreak_some_spec (winnersOf orders) m t hne
    refine ⟨tieBreak (winnersOf orders) (some m) t, ?_, hmem, hmin, htie⟩
    rw [hcp, hcpv]
  · exact eval_clear_batch_s5_mid

/-- C3 witness: the general tie-break rule applied to S5. -/
theorem C3_witness :
    (1 < (winnersOf s5Orders).length) ∧
    (∃ p, (clear_batch s5Orders (some 99) (1 / 100)).1 = some p ∧
      p ∈ winnersOf s5Orders ∧
      (∀ q ∈ winnersOf s5Orders, |p - 99| ≤ |q - 99|) ∧
      (∀ q ∈ winnersOf s5Orders, |q - 99| = |p - 99| → p ≤ q)) :=
  ⟨by decide, C3_theorem.1 s5Orders 99 (1 / 100) (by decide)⟩

/-- C4: with several winners and no `pre_mid`, the clearing price is
`round(((min W + max W) / 2) / tick) * tick`; on S6 this gives 99.00 with
fills `[(1,2,99.00,10,BUY)]`. -/
theorem C4_theorem :
    (∀ (orders : List BOrder) (t : ℚ) (wmin wmax : ℚ),
      1 < (winnersOf orders).length →
      wmin ∈ winnersOf orders → (∀ w ∈ winnersOf orders, wmin ≤ w) →
      wmax ∈ winnersOf orders → (∀ w ∈ winnersOf orders, w ≤ wmax) →
      (clear_batch orders none t).1 =
        some ((bround (((wmin + wmax) / 2) / t) : ℚ) * t)) ∧
    clear_batch s5Orders none (1 / 100) = (some 99, [⟨1, 2, 99, 10, "BUY"⟩]) := by
  constructor
  · intro orders t wmin wmax hlen hminm hmin hmaxm hmax
    have hne : winnersOf orders ≠ [] := by
      intro hh
      rw [hh] at hlen
      simp at hlen
    have h2 : bestVolumeOf orders ≠ 0 := (bestVolume_pos orders hne).ne'
    have h1 : candidatesOf orders ≠ [] := by
      intro hh
      obtain ⟨w, hw⟩ := List.exists_mem_of_ne_nil _ hne
      have := winners_subset_candidates orders w hw
      rw [hh] at this
      simp at this
    have hcp : (clear_batch orders none t).1 = some (cpOf orders none t) := by
      rw [clear_batch_fills orders none t h1 h2]
    have hcpv : cpOf orders none t = tieBreak (winnersOf orders) none t := by
      unfold cpOf
      rw [if_neg (by omega : ¬(winnersOf orders).length = 1)]
    rw [hcp, hcpv,
      tieBreak_none_eq (winnersOf orders) t hne (winners_sorted orders)
        wmin wmax hminm hmin hmaxm hmax]
  · exact eval_clear_batch_s5_none

/-- C4 witness: the midpoint rule applied to S6. -/
theorem C4_witness :
    (clear_batch s5Orders none (1 / 100)).1 =
      some ((bround (((98 + 100 : ℚ) / 2) / (1 / 100)) : ℚ) * (1 / 100)) :=
  C4_theorem.1 s5Orders (1 / 100) 98 100 (by decide) (by decide) (by decide)
    (by decide) (by decide)

/-- C3 counterexample: on S5 the code clears at 98.00, not at the 99.00 the
spec scenario expects. -/
theorem C3_counterexample :
    clear_batch s5Orders (some 99) (1 / 100) = (some 98, [⟨1, 2, 98, 10, "BUY"⟩]) ∧
    (98 : ℚ) ≠ 99 :=
  ⟨eval_clear_batch_s5_mid, by norm_num⟩

end Auction

namespace Engine

theorem hpTop_mem (h : List ℚ) (x : ℚ) (hx : hpTop h = some x) : x ∈ h := by
  cases h with
  | nil => simp [hpTop] at hx
  | cons y ys =>
    simp only [hpTop, Option.some.injEq] at hx
    rw [← hx]
    exact foldl_min_mem ys y

end Engine

theorem dDel_sublist {κ α : Type} [DecidableEq κ] (d : List (κ × α)) (k : κ) :
    (dDel d k).Sublist d := by
  induction d with
  | nil => simp [dDel]
  | cons hd tl ih =>
    obtain ⟨k0, v0⟩ := hd
    by_cases h0 : k0 = k
    · simp [dDel, h0]
    · simpa [dDel, h0] using ih.cons₂ (k0, v0)

theorem mem_dSet {κ α : Type} [DecidableEq κ] (d : List (κ × α)) (k : κ) (v : α)
    (x : κ × α) (hx : x ∈ dSet d k v) : x = (k, v) ∨ x ∈ d := by
  induction d with
  | nil => simpa [dSet] using hx
  | cons hd tl ih =>
    obtain ⟨k0, v0⟩ := hd
    by_cases h0 : k0 = k
    · rw [dSet, if_pos h0] at hx
      rcases List.mem_cons.mp hx with h | h
      · exact Or.inl h
      · exact Or.inr (List.mem_cons_of_mem _ h)
    · rw [dSet, if_neg h0] at hx
      rcases List.mem_cons.mp hx with h | h
      · exact Or.inr (by simp [h])
      · rcases ih h with h | h
        · exact Or.inl h
        · exact Or.inr (List.mem_cons_of_mem _ h)

theorem dDel_map_key {α : Type} (d : List (ℚ × α)) (k : ℚ) (f : ℚ → ℚ)
    (hinj : ∀ a b : ℚ, f a = f b → a = b) :
    (dDel d k).map (fun kv => f kv.1) = (d.map (fun kv => f kv.1)).erase (f k) := by
  induction d with
  | nil => simp [dDel]
  | cons hd tl ih =>
    obtain ⟨k0, v0⟩ := hd
    by_cases h0 : k0 = k
    · subst h0
      simp [dDel, List.erase_cons_head]
    · have hf : (f k0 == f k) = false := by
        simp only [beq_eq_false_iff_ne, ne_eq]
        intro hc
        exact h0 (hinj _ _ hc)
      simp [dDel, h0, List.erase_cons, hf, ih]

namespace Engine

/-- Master specification of the inner level-consumption loop: the written-back
deque is a sub-deque of the original (order preserved), and the index is
updated exactly on the consumed/decremented makers of this level. -/
theorem consumeLevel_spec (mk : ℕ → ℕ → Fill) (ms : String) (best : ℚ) :
    ∀ (lv : Level) (R : ℕ) (idx : IdIndex),
    (lv.map Prod.fst).Nodup →
    (idx.map Prod.fst).Nodup →
    (∀ e ∈ lv, dGet idx e.1 = some (ms, best, e.2)) →
    (∀ o q, dGet idx o = some (ms, best, q) → (o, q) ∈ lv) →
    ((consumeLevel mk ms best lv R idx).2.2.1.map Prod.fst).Sublist (lv.map Prod.fst) ∧
    ((consumeLevel mk ms best lv R idx).2.2.2.map Prod.fst).Nodup ∧
    (∀ e ∈ (consumeLevel mk ms best lv R idx).2.2.1,
      dGet (consumeLevel mk ms best lv R idx).2.2.2 e.1 = some (ms, best, e.2)) ∧
    (∀ o q, dGet (consumeLevel mk ms best lv R idx).2.2.2 o = some (ms, best, q) →
      (o, q) ∈ (consumeLevel mk ms best lv R idx).2.2.1) ∧
    (∀ o v, dGet (consumeLevel mk ms best lv R idx).2.2.2 o = some v →
      dGet idx o = some v ∨ (v.1 = ms ∧ v.2.1 = best)) ∧
    (∀ o v, dGet idx o = some v → ¬(v.1 = ms ∧ v.2.1 = best) →
      dGet (consumeLevel mk ms best lv R idx).2.2.2 o = some v) ∧
    (∀ o, dGet idx o = none → dGet (consumeLevel mk ms best lv R idx).2.2.2 o = none) := by
  intro lv
  induction lv with
  | nil =>
    intro R idx h1 h2 h3 h4
    simp only [consumeLevel]
    refine ⟨List.Sublist.refl _, h2, by simp, ?_, fun o v hv => Or.inl hv,
      fun o v hv _ => hv, fun o hv => hv⟩
    intro o q hq
    exact absurd (h4 o q hq) (by simp)
  | cons hd rest ih =>
    obtain ⟨mid, mqty⟩ := hd
    intro R idx h1 h2 h3 h4
    by_cases hR : R = 0
    · simp only [consumeLevel, if_pos hR]
      exact ⟨List.Sublist.refl _, h2, h3, h4, fun o v hv => Or.inl hv,
        fun o v hv _ => hv, fun o hv => hv⟩
    · simp only [consumeLevel, if_neg hR]
      have hmid_idx : dGet idx mid = some (ms, best, mqty) :=
        h3 (mid, mqty) (List.mem_cons_self _ _)
      have hmid_not_rest : mid ∉ rest.map Prod.fst := by
        have := h1
        simp only [List.map_cons, List.nodup_cons] at this
        exact this.1
      by_cases hfull : mqty - min R mqty = 0
      · simp only [if_pos hfull]
        have hrest_nd : (rest.map Prod.fst).Nodup := by
          have := h1
          simp only [List.map_cons, List.nodup_cons] at this
          exact this.2
        have hidx1_nd : ((dDel idx mid).map Prod.fst).Nodup := dDel_keys_nodup idx mid h2
        have hsync1 : ∀ e ∈ rest, dGet (dDel idx mid) e.1 = some (ms, best, e.2) := by
          intro e he
          have hne : mid ≠ e.1 := by
            intro hc
            exact hmid_not_rest (hc ▸ List.mem_map_of_mem Prod.fst he)
          rw [dGet_dDel_ne idx mid e.1 hne]
          exact h3 e (List.mem_cons_of_mem _ he)
        have hrev1 : ∀ o q, dGet (dDel idx mid) o = some (ms, best, q) → (o, q) ∈ rest := by
          intro o q hq
          by_cases ho : o = mid
          · rw [ho, dGet_dDel_self idx mid h2] at hq
            exact absurd hq (by simp)
          · rw [dGet_dDel_ne idx mid o (fun hc => ho hc.symm)] at hq
            have := h4 o q hq
            rcases List.mem_cons.mp this with h | h
            · exact absurd (congrArg Prod.fst h) ho
            · exact h
        obtain ⟨iSUB, iND, iLS, iIS, iNEW, iPRES, iKEYS⟩ :=
          ih (R - min R mqty) (dDel idx mid) hrest_nd hidx1_nd hsync1 hrev1
        refine ⟨?_, iND, iLS, iIS, ?_, ?_, ?_⟩
        · simp only [List.map_cons]
          exact iSUB.trans (List.sublist_cons_self _ _)
        · intro o v hv
          rcases iNEW o v hv with h | h
          · by_cases ho : o = mid
            · rw [ho, dGet_dDel_self idx mid h2] at h
              exact absurd h (by simp)
            · rw [dGet_dDel_ne idx mid o (fun hc => ho hc.symm)] at h
              exact Or.inl h
          · exact Or.inr h
        · intro o v hv hvne
          have ho : o ≠ mid := by
            intro hc
            rw [hc, hmid_idx] at hv
            injection hv with hv
            rw [← hv] at hvne
            exact hvne ⟨rfl, rfl⟩
          apply iPRES o v _ hvne
          rw [dGet_dDel_ne idx mid o (fun hc => ho hc.symm)]
          exact hv
        · intro o hv
          apply iKEYS
          by_cases ho : o = mid
          · rw [ho, dGet_dDel_self idx mid h2]
          · rw [dGet_dDel_ne idx mid o (fun hc => ho hc.symm)]
            exact hv
      · simp only [if_neg hfull]
        refine ⟨?_, dSet_keys_nodup idx mid _ h2, ?_, ?_, ?_, ?_, ?_⟩
        · simp only [List.map_cons]
          exact List.Sublist.refl _
        · intro e he
          rcases List.mem_cons.mp he with rfl | he
          · simp only []
            rw [dGet_dSet]
            simp
          · have hne : mid ≠ e.1 := by
              intro hc
              exact hmid_not_rest (hc ▸ List.mem_map_of_mem Prod.fst he)
            rw [dGet_dSet, if_neg hne]
            exact h3 e (List.mem_cons_of_mem _ he)
        · intro o q hq
          rw [dGet_dSet] at hq
          by_cases ho : mid = o
          · rw [if_pos ho] at hq
            injection hq with hq
            have : q = mqty - min R mqty := by
              have := congrArg (fun x => x.2.2) hq
              simpa using this.symm
            rw [← ho, this]
            exact List.mem_cons_self _ _
          · rw [if_neg ho] at hq
            have := h4 o q hq
            rcases List.mem_cons.mp this with h | h
            · exact absurd (congrArg Prod.fst h).symm ho
            · exact List.mem_cons_of_mem _ h
        · intro o v hv
          rw [dGet_dSet] at hv
          by_cases ho : mid = o
          · rw [if_pos ho] at hv
            injection hv with hv
            exact Or.inr (by rw [← hv]; exact ⟨rfl, rfl⟩)
          · rw [if_neg ho] at hv
            exact Or.inl hv
        · intro o v hv hvne
          have ho : ¬ (mid = o) := by
            intro hc
            rw [← hc, hmid_idx] at hv
            injection hv with hv
            rw [← hv] at hvne
            exact hvne ⟨rfl, rfl⟩
          rw [dGet_dSet, if_neg ho]
          exact hv
        · intro o hv
          have ho : ¬ (mid = o) := by
            intro hc
            rw [← hc, hmid_idx] at hv
            cases hv
          rw [dGet_dSet, if_neg ho]
          exact hv

theorem sweep_zero (mk : ℚ → ℕ → ℕ → Fill) (ms : String) (toP : ℚ → ℚ)
    (stop : ℚ → Bool) (levels : Levels) (heap : List ℚ) (idx : IdIndex) :
    sweep mk ms toP stop levels heap idx 0 = ([], 0, levels, heap, idx) := by
  rw [sweep, if_pos rfl]

theorem sweep_noheap (mk : ℚ → ℕ → ℕ → Fill) (ms : String) (toP : ℚ → ℚ)
    (stop : ℚ → Bool) (levels : Levels) (heap : List ℚ) (idx : IdIndex) (R : ℕ)
    (hR : ¬ R = 0) (hh : hpTop heap = none) :
    sweep mk ms toP stop levels heap idx R = ([], R, levels, heap, idx) := by
  rw [sweep, if_neg hR]
  split
  · rfl
  next hv heq =>
    rw [hh] at heq
    cases heq

theorem sweep_stopped (mk : ℚ → ℕ → ℕ → Fill) (ms : String) (toP : ℚ → ℚ)
    (stop : ℚ → Bool) (levels : Levels) (heap : List ℚ) (idx : IdIndex) (R : ℕ)
    (hv : ℚ) (hR : ¬ R = 0) (hh : hpTop heap = some hv)
    (hs : stop (toP hv) = true) :
    sweep mk ms toP stop levels heap idx R = ([], R, levels, heap, idx) := by
  rw [sweep, if_neg hR]
  split
  · rfl
  next hv0 heq =>
    rw [hh] at heq
    injection heq with heq
    subst heq
    rw [if_pos hs]

theorem sweep_full (mk : ℚ → ℕ → ℕ → Fill) (ms : String) (toP : ℚ → ℚ)
    (stop : ℚ → Bool) (levels : Levels) (heap : List ℚ) (idx : IdIndex) (R : ℕ)
    (hv : ℚ) (hR : ¬ R = 0) (hh : hpTop heap = some hv)
    (hs : ¬ stop (toP hv) = true)
    (hres : (consumeLevel (mk (toP hv)) ms (toP hv)
      ((dGet levels (toP hv)).getD []) R idx).2.2.1 = []) :
    sweep mk ms toP stop levels heap idx R =
      ((consumeLevel (mk (toP hv)) ms (toP hv)
          ((dGet levels (toP hv)).getD []) R idx).1 ++
        (sweep mk ms toP stop (dDel levels (toP hv)) (heap.erase hv)
          (consumeLevel (mk (toP hv)) ms (toP hv)
            ((dGet levels (toP hv)).getD []) R idx).2.2.2
          (consumeLevel (mk (toP hv)) ms (toP hv)
            ((dGet levels (toP hv)).getD []) R idx).2.1).1,
       (sweep mk ms toP stop (dDel levels (toP hv)) (heap.erase hv)
          (consumeLevel (mk (toP hv)) ms (toP hv)
            ((dGet levels (toP hv)).getD []) R idx).2.2.2
          (consumeLevel (mk (toP hv)) ms (toP hv)
            ((dGet levels (toP hv)).getD []) R idx).2.1).2) := by
  conv_lhs => rw [sweep]
  rw [if_neg hR]
  split
  next heq =>
    rw [hh] at heq
    cases heq
  next hv0 heq =>
    rw [hh] at heq
    injection heq with heq
    subst heq
    rw [if_neg hs]
    simp only [hres, if_pos]

theorem sweep_stay (mk : ℚ → ℕ → ℕ → Fill) (ms : String) (toP : ℚ → ℚ)
    (stop : ℚ → Bool) (levels : Levels) (heap : List ℚ) (idx : IdIndex) (R : ℕ)
    (hv : ℚ) (hR : ¬ R = 0) (hh : hpTop heap = some hv)
    (hs : ¬ stop (toP hv) = true)
    (hres : ¬ (consumeLevel (mk (toP hv)) ms (toP hv)
      ((dGet levels (toP hv)).getD []) R idx).2.2.1 = []) :
    sweep mk ms toP stop levels heap idx R =
      ((consumeLevel (mk (toP hv)) ms (toP hv)
          ((dGet levels (toP hv)).getD []) R idx).1,
       (consumeLevel (mk (toP hv)) ms (toP hv)
          ((dGet levels (toP hv)).getD []) R idx).2.1,
       dSet levels (toP hv)
         (consumeLevel (mk (toP hv)) ms (toP hv)
            ((dGet levels (toP hv)).getD []) R idx).2.2.1,
       heap,
       (consumeLevel (mk (toP hv)) ms (toP hv)
          ((dGet levels (toP hv)).getD []) R idx).2.2.2) := by
  conv_lhs => rw [sweep]
  rw [if_neg hR]
  split
  next heq =>
    rw [hh] at heq
    cases heq
  next hv0 heq =>
    rw [hh] at heq
    injection heq with heq
    subst heq
    rw [if_neg hs]
    simp only [if_neg hres]

theorem map_key_eq {α : Type} (d : List (ℚ × α)) (f : ℚ → ℚ) :
    d.map (fun kv => f kv.1) = (d.map Prod.fst).map f := by
  rw [List.map_map]
  rfl

/-- Master preservation lemma for the aggressive sweep: the side invariant is
maintained, the index keys stay distinct, entries of the other side are
untouched, and any new index value carries the maker side tag. -/
theorem sweep_spec (mk : ℚ → ℕ → ℕ → Fill) (ms : String) (toP : ℚ → ℚ)
    (stop : ℚ → Bool) (f : ℚ → ℚ)
    (hf : ∀ hv : ℚ, f (toP hv) = hv) (hft : ∀ p : ℚ, toP (f p) = p) :
    ∀ (levels : Levels) (heap : List ℚ) (idx : IdIndex) (R : ℕ),
    SideInv ms f levels heap idx → (idx.map Prod.fst).Nodup →
    SideInv ms f (sweep mk ms toP stop levels heap idx R).2.2.1
      (sweep mk ms toP stop levels heap idx R).2.2.2.1
      (sweep mk ms toP stop levels heap idx R).2.2.2.2 ∧
    (((sweep mk ms toP stop levels heap idx R).2.2.2.2).map Prod.fst).Nodup ∧
    (∀ o v, dGet idx o = some v → v.1 ≠ ms →
      dGet (sweep mk ms toP stop levels heap idx R).2.2.2.2 o = some v) ∧
    (∀ o v, dGet (sweep mk ms toP stop levels heap idx R).2.2.2.2 o = some v →
      dGet idx o = some v ∨ v.1 = ms) ∧
    (∀ o, dGet idx o = none →
      dGet (sweep mk ms toP stop levels heap idx R).2.2.2.2 o = none) := by
  have hinj : ∀ a b : ℚ, f a = f b → a = b := by
    intro a b hab
    have := congrArg toP hab
    rwa [hft, hft] at this
  intro levels heap idx R
  induction levels, heap, idx, R using sweep.induct mk ms toP stop with
  | case1 levels heap idx =>
    intro hS hnd
    rw [sweep_zero]
    exact ⟨hS, hnd, fun o v hv _ => hv, fun o v hv => Or.inl hv, fun o hv => hv⟩
  | case2 levels heap idx R hR hh =>
    intro hS hnd
    rw [sweep_noheap mk ms toP stop levels heap idx R hR hh]
    exact ⟨hS, hnd, fun o v hv _ => hv, fun o v hv => Or.inl hv, fun o hv => hv⟩
  | case3 levels heap idx R hR hv hh hs =>
    intro hS hnd
    rw [sweep_stopped mk ms toP stop levels heap idx R hv hR hh hs]
    exact ⟨hS, hnd, fun o v hv _ => hv, fun o v hv => Or.inl hv, fun o hv => hv⟩
  | case4 levels heap idx R hR hv hh hs res hres ih =>
    intro hS hnd
    have hv_mem : hv ∈ heap := hpTop_mem heap hv hh
    have hv_img : hv ∈ levels.map (fun kv => f kv.1) := hS.heap_perm.mem_iff.mp hv_mem
    obtain ⟨kv, hkv, hkvf⟩ := List.mem_map.mp hv_img
    have hbest : toP hv = kv.1 := by
      rw [← hkvf, hft]
    have hkey : toP hv ∈ levels.map Prod.fst := by
      rw [hbest]
      exact List.mem_map_of_mem Prod.fst hkv
    obtain ⟨lv0, hlv0⟩ := mem_map_fst_exists_dGet levels (toP hv) hkey
    have hlvG : dGet levels (toP hv) = some ((dGet levels (toP hv)).getD []) := by
      rw [hlv0]
      rfl
    have hlvnd : (((dGet levels (toP hv)).getD []).map Prod.fst).Nodup :=
      hS.lv_nodup _ _ hlvG
    have hsync : ∀ e ∈ (dGet levels (toP hv)).getD [],
        dGet idx e.1 = some (ms, toP hv, e.2) := hS.lsync _ _ hlvG
    have hrev : ∀ o q, dGet idx o = some (ms, toP hv, q) →
        (o, q) ∈ (dGet levels (toP hv)).getD [] := by
      intro o q hq
      obtain ⟨lv1, hlv1, hmem⟩ := hS.isync o _ q hq
      rw [hlvG] at hlv1
      injection hlv1 with hlv1
      rw [hlv1]
      exact hmem
    obtain ⟨cSUB, cND, cLS, cIS, cNEW, cPRES, cKEYS⟩ :=
      consumeLevel_spec (mk (toP hv)) ms (toP hv) ((dGet levels (toP hv)).getD [])
        R idx hlvnd hnd hsync hrev
    have hS1 : SideInv ms f (dDel levels (toP hv)) (heap.erase hv) res.2.2.2 := by
      constructor
      · exact dDel_keys_nodup levels (toP hv) hS.keys_nodup
      · intro pl hpl
        exact hS.lv_ne pl ((dDel_sublist levels (toP hv)).mem hpl)
      · intro p lv hlv
        by_cases hp : p = toP hv
        · rw [hp, dGet_dDel_self levels (toP hv) hS.keys_nodup] at hlv
          cases hlv
        · rw [dGet_dDel_ne levels (toP hv) p (fun hc => hp hc.symm)] at hlv
          exact hS.lv_nodup p lv hlv
      · rw [dDel_map_key levels (toP hv) f hinj, hf]
        exact hS.heap_perm.erase hv
      · intro p lv hlv e he
        by_cases hp : p = toP hv
        · rw [hp, dGet_dDel_self levels (toP hv) hS.keys_nodup] at hlv
          cases hlv
        · rw [dGet_dDel_ne levels (toP hv) p (fun hc => hp hc.symm)] at hlv
          apply cPRES
          · exact hS.lsync p lv hlv e he
          · intro hc
            exact hp hc.2
      · intro o p q hq
        have hpne : p ≠ toP hv := by
          intro hc
          rw [hc] at hq
          have := cIS o q hq
          rw [hres] at this
          simp at this
        rcases cNEW o _ hq with hold | hnew
        · obtain ⟨lv1, hlv1, hmem⟩ := hS.isync o p q hold
          refine ⟨lv1, ?_, hmem⟩
          rw [dGet_dDel_ne levels (toP hv) p (fun hc => hpne hc.symm)]
          exact hlv1
        · exact absurd hnew.2 hpne
    obtain ⟨iS, iND, iPRES, iNEW, iKEYS⟩ := ih hS1 cND
    rw [sweep_full mk ms toP stop levels heap idx R hv hR hh hs hres]
    refine ⟨iS, iND, ?_, ?_, ?_⟩
    · intro o v hvv hvne
      apply iPRES
      · apply cPRES o v hvv
        intro hc
        exact hvne hc.1
      · exact hvne
    · intro o v hvv
      rcases iNEW o v hvv with h | h
      · rcases cNEW o v h with h2 | h2
        · exact Or.inl h2
        · exact Or.inr h2.1
      · exact Or.inr h
    · intro o hv
      exact iKEYS o (cKEYS o hv)
  | case5 levels heap idx R hR hv hh hs res hres =>
    intro hS hnd
    have hv_mem : hv ∈ heap := hpTop_mem heap hv hh
    have hv_img : hv ∈ levels.map (fun kv => f kv.1) := hS.heap_perm.mem_iff.mp hv_mem
    obtain ⟨kv, hkv, hkvf⟩ := List.mem_map.mp hv_img
    have hbest : toP hv = kv.1 := by
      rw [← hkvf, hft]
    have hkey : toP hv ∈ levels.map Prod.fst := by
      rw [hbest]
      exact List.mem_map_of_mem Prod.fst hkv
    obtain ⟨lv0, hlv0⟩ := mem_map_fst_exists_dGet levels (toP hv) hkey
    have hlvG : dGet levels (toP hv) = some ((dGet levels (toP hv)).getD []) := by
      rw [hlv0]
      rfl
    have hlvnd : (((dGet levels (toP hv)).getD []).map Prod.fst).Nodup :=
      hS.lv_nodup _ _ hlvG
    have hsync : ∀ e ∈ (dGet levels (toP hv)).getD [],
        dGet idx e.1 = some (ms, toP hv, e.2) := hS.lsync _ _ hlvG
    have hrev : ∀ o q, dGet idx o = some (ms, toP hv, q) →
        (o, q) ∈ (dGet levels (toP hv)).getD [] := by
      intro o q hq
      obtain ⟨lv1, hlv1, hmem⟩ := hS.isync o _ q hq
      rw [hlvG] at hlv1
      injection hlv1 with hlv1
      rw [hlv1]
      exact hmem
    obtain ⟨cSUB, cND, cLS, cIS, cNEW, cPRES, cKEYS⟩ :=
      consumeLevel_spec (mk (toP hv)) ms (toP hv) ((dGet levels (toP hv)).getD [])
        R idx hlvnd hnd hsync hrev
    rw [sweep_stay mk ms toP stop levels heap idx R hv hR hh hs hres]
    refine ⟨?_, cND, ?_, ?_, ?_⟩
    · constructor
      · exact dSet_keys_nodup levels (toP hv) _ hS.keys_nodup
      · intro pl hpl
        rcases mem_dSet levels (toP hv) _ pl hpl with rfl | h
        · exact hres
        · exact hS.lv_ne pl h
      · intro p lv hlv
        rw [dGet_dSet] at hlv
        by_cases hp : toP hv = p
        · rw [if_pos hp] at hlv
          injection hlv with hlv
          rw [← hlv]
          exact hlvnd.sublist cSUB
        · rw [if_neg hp] at hlv
          exact hS.lv_nodup p lv hlv
      · rw [map_key_eq, dSet_map_fst_of_mem levels (toP hv) _ hkey, ← map_key_eq]
        exact hS.heap_perm
      · intro p lv hlv e he
        rw [dGet_dSet] at hlv
        by_cases hp : toP hv = p
        · rw [if_pos hp] at hlv
          injection hlv with hlv
          rw [← hp]
          apply cLS
          rw [hlv]
          exact he
        · rw [if_neg hp] at hlv
          apply cPRES
          · exact hS.lsync p lv hlv e he
          · intro hc
            exact hp hc.2.symm
      · intro o p q hq
        by_cases hp : toP hv = p
        · refine ⟨res.2.2.1, ?_, ?_⟩
          · rw [dGet_dSet, if_pos hp]
          · exact cIS o q (hp ▸ hq)
        · rcases cNEW o _ hq with hold | hnew
          · obtain ⟨lv1, hlv1, hmem⟩ := hS.isync o p q hold
            refine ⟨lv1, ?_, hmem⟩
            rw [dGet_dSet, if_neg hp]
            exact hlv1
          · exact absurd hnew.2.symm hp
    · intro o v hvv hvne
      apply cPRES o v hvv
      intro hc
      exact hvne hc.1
    · intro o v hvv
      rcases cNEW o v hvv with h | h
      · exact Or.inl h
      · exact Or.inr h.1
    · intro o hv
      exact cKEYS o hv

/-- Resting a fresh order on its own side preserves the side invariant. -/
theorem rest_side_spec (ms : String) (f : ℚ → ℚ) (levels : Levels) (heap : List ℚ)
    (idx : IdIndex) (oid : ℕ) (price : ℚ) (r : ℕ)
    (hS : SideInv ms f levels heap idx)
    (hnd : (idx.map Prod.fst).Nodup)
    (hfresh : dGet idx oid = none) :
    SideInv ms f
      (match dGet levels price with
        | none => dSet levels price [(oid, r)]
        | some lv => dSet levels price (lv ++ [(oid, r)]))
      (match dGet levels price with
        | none => f price :: heap
        | some _ => heap)
      (dSet idx oid (ms, price, r)) ∧
    ((dSet idx oid (ms, price, r)).map Prod.fst).Nodup := by
  have hmem_ne : ∀ p lv, dGet levels p = some lv → ∀ e ∈ lv, e.1 ≠ oid := by
    intro p lv hlv e he hc
    have := hS.lsync p lv hlv e he
    rw [hc, hfresh] at this
    cases this
  refine ⟨?_, dSet_keys_nodup idx oid _ hnd⟩
  cases hbp : dGet levels price with
  | none =>
    constructor
    · exact dSet_keys_nodup levels price _ hS.keys_nodup
    · intro pl hpl
      rcases mem_dSet levels price _ pl hpl with rfl | h
      · simp
      · exact hS.lv_ne pl h
    · intro p lv hlv
      rw [dGet_dSet] at hlv
      by_cases hp : price = p
      · rw [if_pos hp] at hlv
        injection hlv with hlv
        rw [← hlv]
        simp
      · rw [if_neg hp] at hlv
        exact hS.lv_nodup p lv hlv
    · have hkey : price ∉ levels.map Prod.fst := (dGet_eq_none_iff levels price).mp hbp
      rw [map_key_eq, dSet_map_fst_of_not_mem levels price _ hkey]
      rw [List.map_append]
      refine (hS.heap_perm.cons (f price)).trans ?_
      rw [← map_key_eq]
      exact (List.perm_append_singleton _ _).symm
    · intro p lv hlv e he
      rw [dGet_dSet] at hlv
      by_cases hp : price = p
      · rw [if_pos hp] at hlv
        injection hlv with hlv
        rw [← hlv] at he
        rcases List.mem_singleton.mp he with rfl
        rw [dGet_dSet, if_pos rfl, hp]
      · rw [if_neg hp] at hlv
        have hne : oid ≠ e.1 := fun hc => (hmem_ne p lv hlv e he) hc.symm
        rw [dGet_dSet, if_neg hne]
        exact hS.lsync p lv hlv e he
    · intro o p q hq
      rw [dGet_dSet] at hq
      by_cases ho : oid = o
      · rw [if_pos ho] at hq
        injection hq with hq
        have hp : price = p := congrArg (fun x => x.2.1) hq
        have hr : r = q := congrArg (fun x => x.2.2) hq
        refine ⟨[(oid, r)], ?_, ?_⟩
        · rw [dGet_dSet, if_pos hp]
        · rw [ho, hr]
          exact List.mem_singleton.mpr rfl
      · rw [if_neg ho] at hq
        obtain ⟨lv1, hlv1, hmem⟩ := hS.isync o p q hq
        by_cases hp : price = p
        · rw [← hp, hbp] at hlv1
          cases hlv1
        · refine ⟨lv1, ?_, hmem⟩
          rw [dGet_dSet, if_neg hp]
          exact hlv1
  | some lv0 =>
    constructor
    · exact dSet_keys_nodup levels price _ hS.keys_nodup
    · intro pl hpl
      rcases mem_dSet levels price _ pl hpl with rfl | h
      · simp
      · exact hS.lv_ne pl h
    · intro p lv hlv
      rw [dGet_dSet] at hlv
      by_cases hp : price = p
      · rw [if_pos hp] at hlv
        injection hlv with hlv
        rw [← hlv, List.map_append]
        rw [List.nodup_append]
        refine ⟨hS.lv_nodup price lv0 hbp, by simp, ?_⟩
        intro a ha hb
        rcases List.mem_singleton.mp hb with rfl
        obtain ⟨e, he, hee⟩ := List.mem_map.mp ha
        exact (hmem_ne price lv0 hbp e he) hee
      · rw [if_neg hp] at hlv
        exact hS.lv_nodup p lv hlv
    · have hkey : price ∈ levels.map Prod.fst := by
        rw [← dGet_isSome_iff, hbp]
        rfl
      rw [map_key_eq, dSet_map_fst_of_mem levels price _ hkey, ← map_key_eq]
      exact hS.heap_perm
    · intro p lv hlv e he
      rw [dGet_dSet] at hlv
      by_cases hp : price = p
      · rw [if_pos hp] at hlv
        injection hlv with hlv
        rw [← hlv] at he
        rcases List.mem_append.mp he with h | h
        · have hne : oid ≠ e.1 := fun hc => (hmem_ne price lv0 hbp e h) hc.symm
          rw [dGet_dSet, if_neg hne, ← hp]
          exact hS.lsync price lv0 hbp e h
        · rcases List.mem_singleton.mp h with rfl
          rw [dGet_dSet, if_pos rfl, hp]
      · rw [if_neg hp] at hlv
        have hne : oid ≠ e.1 := fun hc => (hmem_ne p lv hlv e he) hc.symm
        rw [dGet_dSet, if_neg hne]
        exact hS.lsync p lv hlv e he
    · intro o p q hq
      rw [dGet_dSet] at hq
      by_cases ho : oid = o
      · rw [if_pos ho] at hq
        injection hq with hq
        have hp : price = p := congrArg (fun x => x.2.1) hq
        have hr : r = q := congrArg (fun x => x.2.2) hq
        refine ⟨lv0 ++ [(oid, r)], ?_, ?_⟩
        · rw [dGet_dSet, if_pos hp]
        · rw [ho, hr]
          exact List.mem_append_right _ (List.mem_singleton.mpr rfl)
      · rw [if_neg ho] at hq
        obtain ⟨lv1, hlv1, hmem⟩ := hS.isync o p q hq
        by_cases hp : price = p
        · refine ⟨lv0 ++ [(oid, r)], ?_, ?_⟩
          · rw [dGet_dSet, if_pos hp]
          · rw [← hp, hbp] at hlv1
            injection hlv1 with hlv1
            rw [← hlv1] at hmem
            exact List.mem_append_left _ hmem
        · refine ⟨lv1, ?_, hmem⟩
          rw [dGet_dSet, if_neg hp]
          exact hlv1

theorem inv_empty : Inv emptyBook := by
  constructor
  · constructor <;> simp [emptyBook]
  · constructor <;> simp [emptyBook]
  · simp [emptyBook]
  · intro o v hv
    simp [emptyBook] at hv

/-- A side whose levels and heap are untouched keeps its invariant when the
index changes only on entries tagged with the other side. -/
theorem side_other_pres (ms ms' : String) (hne : ms' ≠ ms) (f' : ℚ → ℚ)
    (levels' : Levels) (heap' : List ℚ) (idx idx' : IdIndex)
    (hS : SideInv ms' f' levels' heap' idx)
    (hOP : ∀ o v, dGet idx o = some v → v.1 ≠ ms → dGet idx' o = some v)
    (hON : ∀ o v, dGet idx' o = some v → dGet idx o = some v ∨ v.1 = ms) :
    SideInv ms' f' levels' heap' idx' := by
  constructor
  · exact hS.keys_nodup
  · exact hS.lv_ne
  · exact hS.lv_nodup
  · exact hS.heap_perm
  · intro p lv hlv e he
    exact hOP _ _ (hS.lsync p lv hlv e he) hne
  · intro o p q hq
    rcases hON o _ hq with h | h
    · exact hS.isync o p q h
    · exact absurd h hne

theorem matchLimit_inv (b : OrderBook) (oid : ℕ) (side : String) (price : ℚ)
    (qty : ℕ) (hI : Inv b) (hfresh : dGet b.id_index oid = none) :
    Inv (matchLimit b oid side price qty).1 := by
  unfold matchLimit
  by_cases hside : side = "BUY"
  · rw [if_pos hside]
    obtain ⟨sS, sND, sOP, sON, sKEYS⟩ :=
      sweep_spec (fun p mid q => ⟨oid, mid, p, q, "BUY"⟩) "SELL" id
        (fun best => decide (price < best)) (fun p => p)
        (fun hv => rfl) (fun p => rfl)
        b.asks b.ask_heap b.id_index qty hI.askS hI.idxnd
    have hbidS : SideInv "BUY" Neg.neg b.bids b.bid_heap
        (sweep (fun p mid q => ⟨oid, mid, p, q, "BUY"⟩) "SELL" id
          (fun best => decide (price < best)) b.asks b.ask_heap b.id_index qty).2.2.2.2 :=
      side_other_pres "SELL" "BUY" (by decide) Neg.neg b.bids b.bid_heap _ _
        hI.bidS sOP sON
    have hfresh2 : dGet (sweep (fun p mid q => ⟨oid, mid, p, q, "BUY"⟩) "SELL" id
        (fun best => decide (price < best)) b.asks b.ask_heap b.id_index qty).2.2.2.2
        oid = none := sKEYS oid hfresh
    have hlabels2 : ∀ o v, dGet (sweep (fun p mid q => ⟨oid, mid, p, q, "BUY"⟩) "SELL" id
        (fun best => decide (price < best)) b.asks b.ask_heap b.id_index qty).2.2.2.2
        o = some v → v.1 = "BUY" ∨ v.1 = "SELL" := by
      intro o v hv
      rcases sON o v hv with h | h
      · exact hI.labels o v h
      · exact Or.inr h
    by_cases hrem : 0 <
        (sweep (fun p mid q => ⟨oid, mid, p, q, "BUY"⟩) "SELL" id
          (fun best => decide (price < best)) b.asks b.ask_heap b.id_index qty).2.1
    · rw [if_pos hrem]
      obtain ⟨rS, rND⟩ := rest_side_spec "BUY" Neg.neg b.bids b.bid_heap _ oid price
        _ hbidS sND hfresh2
      constructor
      · refine side_other_pres "BUY" "SELL" (by decide) (fun p => p) _ _ _ _ sS ?_ ?_
        · intro o v hv hvne
          have ho : oid ≠ o := by
            intro hc
            rw [← hc, hfresh2] at hv
            cases hv
          rw [dGet_dSet, if_neg ho]
          exact hv
        · intro o v hv
          rw [dGet_dSet] at hv
          by_cases ho : oid = o
          · rw [if_pos ho] at hv
            injection hv with hv
            exact Or.inr (congrArg Prod.fst hv).symm
          · rw [if_neg ho] at hv
            exact Or.inl hv
      · cases hbp : dGet b.bids price with
        | none => simpa [hbp] using rS
        | some lv => simpa [hbp] using rS
      · exact rND
      · intro o v hv
        rw [dGet_dSet] at hv
        by_cases ho : oid = o
        · rw [if_pos ho] at hv
          injection hv with hv
          exact Or.inl (congrArg Prod.fst hv).symm
        · rw [if_neg ho] at hv
          exact hlabels2 o v hv
    · rw [if_neg hrem]
      exact ⟨sS, hbidS, sND, hlabels2⟩
  · rw [if_neg hside]
    obtain ⟨sS, sND, sOP, sON, sKEYS⟩ :=
      sweep_spec (fun p mid q => ⟨mid, oid, p, q, "SELL"⟩) "BUY" Neg.neg
        (fun best => decide (best < price)) Neg.neg
        (fun hv => neg_neg hv) (fun p => neg_neg p)
        b.bids b.bid_heap b.id_index qty hI.bidS hI.idxnd
    have haskS : SideInv "SELL" (fun p => p) b.asks b.ask_heap
        (sweep (fun p mid q => ⟨mid, oid, p, q, "SELL"⟩) "BUY" Neg.neg
          (fun best => decide (best < price)) b.bids b.bid_heap b.id_index qty).2.2.2.2 :=
      side_other_pres "BUY" "SELL" (by decide) (fun p => p) b.asks b.ask_heap _ _
        hI.askS sOP sON
    have hfresh2 : dGet (sweep (fun p mid q => ⟨mid, oid, p, q, "SELL"⟩) "BUY" Neg.neg
        (fun best => decide (best < price)) b.bids b.bid_heap b.id_index qty).2.2.2.2
        oid = none := sKEYS oid hfresh
    have hlabels2 : ∀ o v, dGet (sweep (fun p mid q => ⟨mid, oid, p, q, "SELL"⟩) "BUY" Neg.neg
        (fun best => decide (best < price)) b.bids b.bid_heap b.id_index qty).2.2.2.2
        o = some v → v.1 = "BUY" ∨ v.1 = "SELL" := by
      intro o v hv
      rcases sON o v hv with h | h
      · exact hI.labels o v h
      · exact Or.inl h
    by_cases hrem : 0 <
        (sweep (fun p mid q => ⟨mid, oid, p, q, "SELL"⟩) "BUY" Neg.neg
          (fun best => decide (best < price)) b.bids b.bid_heap b.id_index qty).2.1
    · rw [if_pos hrem]
      obtain ⟨rS, rND⟩ := rest_side_spec "SELL" (fun p => p) b.asks b.ask_heap _ oid price
        _ haskS sND hfresh2
      constructor
      · cases hbp : dGet b.asks price with
        | none => simpa [hbp] using rS
        | some lv => simpa [hbp] using rS
      · refine side_other_pres "SELL" "BUY" (by decide) Neg.neg _ _ _ _ sS ?_ ?_
        · intro o v hv hvne
          have ho : oid ≠ o := by
            intro hc
            rw [← hc, hfresh2] at hv
            cases hv
          rw [dGet_dSet, if_neg ho]
          exact hv
        · intro o v hv
          rw [dGet_dSet] at hv
          by_cases ho : oid = o
          · rw [if_pos ho] at hv
            injection hv with hv
            exact Or.inr (congrArg Prod.fst hv).symm
          · rw [if_neg ho] at hv
            exact Or.inl hv
      · exact rND
      · intro o v hv
        rw [dGet_dSet] at hv
        by_cases ho : oid = o
        · rw [if_pos ho] at hv
          injection hv with hv
          exact Or.inr (congrArg Prod.fst hv).symm
        · rw [if_neg ho] at hv
          exact hlabels2 o v hv
    · rw [if_neg hrem]
      exact ⟨haskS, sS, sND, hlabels2⟩

end Engine

theorem dGet_dDel_some {κ α : Type} [DecidableEq κ] (d : List (κ × α)) (k k' : κ) (v : α)
    (hnd : (d.map Prod.fst).Nodup) (h : dGet (dDel d k) k' = some v) :
    k ≠ k' ∧ dGet d k' = some v := by
  by_cases hk : k = k'
  · subst hk
    rw [dGet_dDel_self d k hnd] at h
    cases h
  · exact ⟨hk, by rwa [dGet_dDel_ne d k k' hk] at h⟩

namespace Engine

theorem sweep_book_sell (b : OrderBook) (mk : ℚ → ℕ → ℕ → Fill) (stop : ℚ → Bool)
    (qty : ℕ) (tr : List Fill) (hI : Inv b) :
    Inv (OrderBook.mk b.bids
      (sweep mk "SELL" id stop b.asks b.ask_heap b.id_index qty).2.2.1
      b.bid_heap
      (sweep mk "SELL" id stop b.asks b.ask_heap b.id_index qty).2.2.2.1
      (sweep mk "SELL" id stop b.asks b.ask_heap b.id_index qty).2.2.2.2 tr) := by
  obtain ⟨sS, sND, sOP, sON, sKEYS⟩ :=
    sweep_spec mk "SELL" id stop (fun p => p) (fun hv => rfl) (fun p => rfl)
      b.asks b.ask_heap b.id_index qty hI.askS hI.idxnd
  refine ⟨sS, ?_, sND, ?_⟩
  · exact side_other_pres "SELL" "BUY" (by decide) Neg.neg b.bids b.bid_heap _ _
      hI.bidS sOP sON
  · intro o v hv
    rcases sON o v hv with h | h
    · exact hI.labels o v h
    · exact Or.inr h

theorem sweep_book_buy (b : OrderBook) (mk : ℚ → ℕ → ℕ → Fill) (stop : ℚ → Bool)
    (qty : ℕ) (tr : List Fill) (hI : Inv b) :
    Inv (OrderBook.mk
      (sweep mk "BUY" Neg.neg stop b.bids b.bid_heap b.id_index qty).2.2.1
      b.asks
      (sweep mk "BUY" Neg.neg stop b.bids b.bid_heap b.id_index qty).2.2.2.1
      b.ask_heap
      (sweep mk "BUY" Neg.neg stop b.bids b.bid_heap b.id_index qty).2.2.2.2 tr) := by
  obtain ⟨sS, sND, sOP, sON, sKEYS⟩ :=
    sweep_spec mk "BUY" Neg.neg stop Neg.neg (fun hv => neg_neg hv) (fun p => neg_neg p)
      b.bids b.bid_heap b.id_index qty hI.bidS hI.idxnd
  refine ⟨?_, sS, sND, ?_⟩
  · exact side_other_pres "BUY" "SELL" (by decide) (fun p => p) b.asks b.ask_heap _ _
      hI.askS sOP sON
  · intro o v hv
    rcases sON o v hv with h | h
    · exact hI.labels o v h
    · exact Or.inl h

theorem executeMarket_inv (b : OrderBook) (oid : ℕ) (side : String) (qty : ℕ)
    (hI : Inv b) : Inv (executeMarket b oid side qty).1 := by
  unfold executeMarket
  by_cases hside : side = "BUY"
  · rw [if_pos hside]
    exact sweep_book_sell b _ _ qty _ hI
  · rw [if_neg hside]
    exact sweep_book_buy b _ _ qty _ hI

theorem executeIOC_inv (b : OrderBook) (oid : ℕ) (side : String) (price : ℚ)
    (qty : ℕ) (hI : Inv b) : Inv (executeIOC b oid side price qty).1 := by
  unfold executeIOC
  by_cases hside : side = "BUY"
  · rw [if_pos hside]
    exact sweep_book_sell b _ _ qty _ hI
  · rw [if_neg hside]
    exact sweep_book_buy b _ _ qty _ hI

theorem addOrder_inv (b : OrderBook) (oid : ℕ) (side : String) (price : ℚ)
    (qty : ℕ) (otype : String) (hI : Inv b)
    (hfresh : dGet b.id_index oid = none) :
    Inv (addOrder b oid side price qty otype).1 := by
  unfold addOrder
  by_cases h1 : otype = "MARKET"
  · rw [if_pos h1]
    exact executeMarket_inv b oid side qty hI
  · rw [if_neg h1]
    by_cases h2 : otype = "IOC"
    · rw [if_pos h2]
      exact executeIOC_inv b oid side price qty hI
    · rw [if_neg h2]
      exact matchLimit_inv b oid side price qty hI hfresh

theorem filter_ne_nil_eq (lv0 : Level) (oid : ℕ) (q : ℕ)
    (hnd : (lv0.map Prod.fst).Nodup) (hmem : (oid, q) ∈ lv0)
    (hfe : lv0.filter (fun e => e.1 ≠ oid) = []) : lv0 = [(oid, q)] := by
  have hall : ∀ e ∈ lv0, e.1 = oid := by
    intro e he
    have := List.filter_eq_nil_iff.mp hfe e he
    simpa using this
  cases lv0 with
  | nil => cases hmem
  | cons a t =>
    have ha : a.1 = oid := hall a (List.mem_cons_self a t)
    have ht : t = [] := by
      cases t with
      | nil => rfl
      | cons c u =>
        exfalso
        have hc : c.1 = oid := hall c (by simp)
        have hmm : a.1 ∈ (c :: u).map Prod.fst := by
          simp [ha, hc]
        simp only [List.map_cons, List.nodup_cons] at hnd
        exact hnd.1 hmm
    subst ht
    have h := List.mem_singleton.mp hmem
    rw [h]

theorem sideInv_dDel_untouched (ms' : String) (f' : ℚ → ℚ) (levels' : Levels)
    (heap' : List ℚ) (idx : IdIndex) (oid : ℕ) (v : String × ℚ × ℕ)
    (hS : SideInv ms' f' levels' heap' idx) (hnd : (idx.map Prod.fst).Nodup)
    (hidx : dGet idx oid = some v) (hne : v.1 ≠ ms') :
    SideInv ms' f' levels' heap' (dDel idx oid) := by
  constructor
  · exact hS.keys_nodup
  · exact hS.lv_ne
  · exact hS.lv_nodup
  · exact hS.heap_perm
  · intro p lv hlv e he
    have h0 := hS.lsync p lv hlv e he
    have heo : oid ≠ e.1 := by
      intro hc
      rw [← hc, hidx] at h0
      injection h0 with h0
      exact hne (congrArg Prod.fst h0)
    rw [dGet_dDel_ne idx oid e.1 heo]
    exact h0
  · intro o p q hq
    obtain ⟨hone, hget⟩ := dGet_dDel_some idx oid o _ hnd hq
    exact hS.isync o p q hget

theorem sideInv_canon_heap (ms : String) (f : ℚ → ℚ) (levels : Levels)
    (heap : List ℚ) (idx : IdIndex) (hS : SideInv ms f levels heap idx) :
    SideInv ms f levels (levels.map (fun kv => f kv.1)) idx :=
  ⟨hS.keys_nodup, hS.lv_ne, hS.lv_nodup, List.Perm.refl _, hS.lsync, hS.isync⟩

theorem cancel_own_empty (ms : String) (f : ℚ → ℚ) (levels : Levels)
    (heap : List ℚ) (idx : IdIndex) (oid : ℕ) (price : ℚ) (q : ℕ) (lv0 : Level)
    (hS : SideInv ms f levels heap idx) (hnd : (idx.map Prod.fst).Nodup)
    (hidx : dGet idx oid = some (ms, price, q))
    (hlv0 : dGet levels price = some lv0)
    (hfe : lv0.filter (fun e => e.1 ≠ oid) = []) :
    SideInv ms f (dDel levels price)
      ((dDel levels price).map (fun kv => f kv.1)) (dDel idx oid) := by
  obtain ⟨lv1, hlv1, hmem1⟩ := hS.isync oid price q hidx
  rw [hlv0] at hlv1
  injection hlv1 with hlv1
  subst hlv1
  have hlveq : lv0 = [(oid, q)] :=
    filter_ne_nil_eq lv0 oid q (hS.lv_nodup price lv0 hlv0) hmem1 hfe
  constructor
  · exact dDel_keys_nodup levels price hS.keys_nodup
  · intro pl hpl
    exact hS.lv_ne pl ((dDel_sublist levels price).subset hpl)
  · intro p lv hlv
    obtain ⟨hpne, hget⟩ := dGet_dDel_some levels price p _ hS.keys_nodup hlv
    exact hS.lv_nodup p lv hget
  · exact List.Perm.refl _
  · intro p lv hlv e he
    obtain ⟨hpne, hget⟩ := dGet_dDel_some levels price p _ hS.keys_nodup hlv
    have h0 := hS.lsync p lv hget e he
    have heo : oid ≠ e.1 := by
      intro hc
      rw [← hc, hidx] at h0
      injection h0 with h0
      exact hpne (congrArg (fun w => w.2.1) h0)
    rw [dGet_dDel_ne idx oid e.1 heo]
    exact h0
  · intro o p q' hq
    obtain ⟨hone, hget⟩ := dGet_dDel_some idx oid o _ hnd hq
    obtain ⟨lv, hlv, hmem⟩ := hS.isync o p q' hget
    by_cases hp : p = price
    · subst hp
      rw [hlv0] at hlv
      injection hlv with hlv
      subst hlv
      rw [hlveq] at hmem
      have h := List.mem_singleton.mp hmem
      exact absurd (congrArg Prod.fst h) (Ne.symm hone)
    · refine ⟨lv, ?_, hmem⟩
      rw [dGet_dDel_ne levels price p (fun hc => hp hc.symm)]
      exact hlv

theorem cancel_own_stay (ms : String) (f : ℚ → ℚ) (levels : Levels)
    (heap : List ℚ) (idx : IdIndex) (oid : ℕ) (price : ℚ) (q : ℕ) (lv0 : Level)
    (hS : SideInv ms f levels heap idx) (hnd : (idx.map Prod.fst).Nodup)
    (hidx : dGet idx oid = some (ms, price, q))
    (hlv0 : dGet levels price = some lv0)
    (hfe : lv0.filter (fun e => e.1 ≠ oid) ≠ []) :
    SideInv ms f (dSet levels price (lv0.filter (fun e => e.1 ≠ oid))) heap
      (dDel idx oid) := by
  have hkey : price ∈ levels.map Prod.fst :=
    List.mem_map_of_mem Prod.fst (dGet_mem levels price lv0 hlv0)
  constructor
  · rw [dSet_map_fst_of_mem levels price _ hkey]
    exact hS.keys_nodup
  · intro pl hpl
    rcases mem_dSet levels price _ pl hpl with h | h
    · rw [h]
      exact hfe
    · exact hS.lv_ne pl h
  · intro p lv hlv
    rw [dGet_dSet] at hlv
    by_cases hp : price = p
    · rw [if_pos hp] at hlv
      injection hlv with hlv
      rw [← hlv]
      exact List.Nodup.sublist ((List.filter_sublist lv0).map Prod.fst)
        (hS.lv_nodup price lv0 hlv0)
    · rw [if_neg hp] at hlv
      exact hS.lv_nodup p lv hlv
  · have hkm : (dSet levels price (lv0.filter (fun e => e.1 ≠ oid))).map
        (fun kv => f kv.1) = levels.map (fun kv => f kv.1) := by
      rw [map_key_eq, map_key_eq, dSet_map_fst_of_mem levels price _ hkey]
    rw [hkm]
    exact hS.heap_perm
  · intro p lv hlv e he
    rw [dGet_dSet] at hlv
    by_cases hp : price = p
    · rw [if_pos hp] at hlv
      injection hlv with hlv
      rw [← hlv] at he
      have he0 := (List.mem_filter.mp he).1
      have heo : e.1 ≠ oid := by simpa using (List.mem_filter.mp he).2
      have h0 := hS.lsync price lv0 hlv0 e he0
      rw [hp] at h0
      rw [dGet_dDel_ne idx oid e.1 (Ne.symm heo)]
      exact h0
    · rw [if_neg hp] at hlv
      have h0 := hS.lsync p lv hlv e he
      have heo : oid ≠ e.1 := by
        intro hc
        rw [← hc, hidx] at h0
        injection h0 with h0
        exact hp (congrArg (fun w => w.2.1) h0)
      rw [dGet_dDel_ne idx oid e.1 heo]
      exact h0
  · intro o p q' hq
    obtain ⟨hone, hget⟩ := dGet_dDel_some idx oid o _ hnd hq
    obtain ⟨lv, hlv, hmem⟩ := hS.isync o p q' hget
    by_cases hp : price = p
    · subst hp
      rw [hlv0] at hlv
      injection hlv with hlv
      subst hlv
      refine ⟨lv0.filter (fun e => e.1 ≠ oid), ?_, ?_⟩
      · rw [dGet_dSet, if_pos rfl]
      · rw [List.mem_filter]
        exact ⟨hmem, by simpa using Ne.symm hone⟩
    · refine ⟨lv, ?_, hmem⟩
      rw [dGet_dSet, if_neg hp]
      exact hlv

theorem cancelOrder_inv (b : OrderBook) (oid : ℕ) (hI : Inv b) :
    Inv (cancelOrder b oid).1 := by
  unfold cancelOrder
  cases hidx : dGet b.id_index oid with
  | none =>
    simp only [hidx]
    exact hI
  | some v =>
    obtain ⟨side, price, q⟩ := v
    simp only [hidx]
    have hlab2 : ∀ o w, dGet (dDel b.id_index oid) o = some w →
        w.1 = "BUY" ∨ w.1 = "SELL" := by
      intro o w hw
      obtain ⟨_, hget⟩ := dGet_dDel_some b.id_index oid o _ hI.idxnd hw
      exact hI.labels o w hget
    have hnd2 : ((dDel b.id_index oid).map Prod.fst).Nodup :=
      dDel_keys_nodup b.id_index oid hI.idxnd
    rcases hI.labels oid _ hidx with hside | hside
    · have hsd : side = "BUY" := hside
      subst hsd
      obtain ⟨lv1, hlv1, hmem1⟩ := hI.bidS.isync oid price q hidx
      rw [if_pos rfl]
      simp only [hlv1]
      by_cases hfe : lv1.filter (fun e => e.1 ≠ oid) = []
      · rw [if_pos hfe]
        refine ⟨?_, ?_, hnd2, hlab2⟩
        · exact sideInv_canon_heap "SELL" (fun p => p) b.asks b.ask_heap _
            (sideInv_dDel_untouched "SELL" (fun p => p) b.asks b.ask_heap
              b.id_index oid ("BUY", price, q) hI.askS hI.idxnd hidx (by simp))
        · exact cancel_own_empty "BUY" Neg.neg b.bids b.bid_heap b.id_index oid
            price q lv1 hI.bidS hI.idxnd hidx hlv1 hfe
      · rw [if_neg hfe]
        refine ⟨?_, ?_, hnd2, hlab2⟩
        · exact sideInv_dDel_untouched "SELL" (fun p => p) b.asks b.ask_heap
            b.id_index oid ("BUY", price, q) hI.askS hI.idxnd hidx (by simp)
        · exact cancel_own_stay "BUY" Neg.neg b.bids b.bid_heap b.id_index oid
            price q lv1 hI.bidS hI.idxnd hidx hlv1 hfe
    · have hsd : side = "SELL" := hside
      subst hsd
      obtain ⟨lv1, hlv1, hmem1⟩ := hI.askS.isync oid price q hidx
      rw [if_neg (by decide)]
      simp only [hlv1]
      by_cases hfe : lv1.filter (fun e => e.1 ≠ oid) = []
      · rw [if_pos hfe]
        refine ⟨?_, ?_, hnd2, hlab2⟩
        · exact cancel_own_empty "SELL" (fun p => p) b.asks b.ask_heap b.id_index
            oid price q lv1 hI.askS hI.idxnd hidx hlv1 hfe
        · exact sideInv_canon_heap "BUY" Neg.neg b.bids b.bid_heap _
            (sideInv_dDel_untouched "BUY" Neg.neg b.bids b.bid_heap
              b.id_index oid ("SELL", price, q) hI.bidS hI.idxnd hidx (by simp))
      · rw [if_neg hfe]
        refine ⟨?_, ?_, hnd2, hlab2⟩
        · exact cancel_own_stay "SELL" (fun p => p) b.asks b.ask_heap
            b.id_index oid price q lv1 hI.askS hI.idxnd hidx hlv1 hfe
        · exact sideInv_dDel_untouched "BUY" Neg.neg b.bids b.bid_heap
            b.id_index oid ("SELL", price, q) hI.bidS hI.idxnd hidx (by simp)

theorem reachable_inv (b : OrderBook) (hb : Reachable b) : Inv b := by
  induction hb with
  | empty => exact inv_empty
  | add oid side price qty otype hb hfresh ih =>
    exact addOrder_inv _ oid side price qty otype ih hfresh
  | cancel oid hb ih => exact cancelOrder_inv _ oid ih

theorem hpTop_eq_none (h : List ℚ) : hpTop h = none ↔ h = [] := by
  cases h <;> simp [hpTop]

theorem book_trades_nil (b : OrderBook) :
    OrderBook.mk b.bids b.asks b.bid_heap b.ask_heap b.id_index
      (b.trades ++ []) = b := by
  cases b
  simp

theorem matchLimit_zero (b : OrderBook) (oid : ℕ) (side : String) (price : ℚ) :
    matchLimit b oid side price 0 = (b, []) := by
  unfold matchLimit
  by_cases hside : side = "BUY"
  · rw [if_pos hside, sweep_zero]
    have h0 : ¬ ((0:ℕ) < (([], 0, b.asks, b.ask_heap, b.id_index) :
        List Fill × ℕ × Levels × List ℚ × IdIndex).2.1) := by simp
    rw [if_neg h0]
    show (OrderBook.mk b.bids b.asks b.bid_heap b.ask_heap b.id_index
      (b.trades ++ []), ([] : List Fill)) = (b, [])
    rw [book_trades_nil]
  · rw [if_neg hside, sweep_zero]
    have h0 : ¬ ((0:ℕ) < (([], 0, b.bids, b.bid_heap, b.id_index) :
        List Fill × ℕ × Levels × List ℚ × IdIndex).2.1) := by simp
    rw [if_neg h0]
    show (OrderBook.mk b.bids b.asks b.bid_heap b.ask_heap b.id_index
      (b.trades ++ []), ([] : List Fill)) = (b, [])
    rw [book_trades_nil]

theorem executeMarket_zero (b : OrderBook) (oid : ℕ) (side : String) :
    executeMarket b oid side 0 = (b, []) := by
  unfold executeMarket
  by_cases hside : side = "BUY"
  · rw [if_pos hside, sweep_zero]
    show (OrderBook.mk b.bids b.asks b.bid_heap b.ask_heap b.id_index
      (b.trades ++ []), ([] : List Fill)) = (b, [])
    rw [book_trades_nil]
  · rw [if_neg hside, sweep_zero]
    show (OrderBook.mk b.bids b.asks b.bid_heap b.ask_heap b.id_index
      (b.trades ++ []), ([] : List Fill)) = (b, [])
    rw [book_trades_nil]

theorem executeIOC_zero (b : OrderBook) (oid : ℕ) (side : String) (price : ℚ) :
    executeIOC b oid side price 0 = (b, []) := by
  unfold executeIOC
  by_cases hside : side = "BUY"
  · rw [if_pos hside, sweep_zero]
    show (OrderBook.mk b.bids b.asks b.bid_heap b.ask_heap b.id_index
      (b.trades ++ []), ([] : List Fill)) = (b, [])
    rw [book_trades_nil]
  · rw [if_neg hside, sweep_zero]
    show (OrderBook.mk b.bids b.asks b.bid_heap b.ask_heap b.id_index
      (b.trades ++ []), ([] : List Fill)) = (b, [])
    rw [book_trades_nil]

theorem addOrder_zero (b : OrderBook) (oid : ℕ) (side : String) (price : ℚ)
    (otype : String) : addOrder b oid side price 0 otype = (b, []) := by
  unfold addOrder
  by_cases h1 : otype = "MARKET"
  · rw [if_pos h1]
    exact executeMarket_zero b oid side
  · rw [if_neg h1]
    by_cases h2 : otype = "IOC"
    · rw [if_pos h2]
      exact executeIOC_zero b oid side price
    · rw [if_neg h2]
      exact matchLimit_zero b oid side price

theorem filter_id_of_other_level (ms : String) (f : ℚ → ℚ) (levels : Levels)
    (heap : List ℚ) (idx : IdIndex) (oid : ℕ) (price : ℚ) (q : ℕ) (p : ℚ)
    (lvp : Level) (hS : SideInv ms f levels heap idx)
    (hidx : dGet idx oid = some (ms, price, q))
    (hp : p ≠ price) (hlvp : dGet levels p = some lvp) :
    lvp.filter (fun e => e.1 ≠ oid) = lvp := by
  apply List.filter_eq_self.mpr
  intro e he
  simp only [decide_eq_true_eq]
  intro hc
  have h0 := hS.lsync p lvp hlvp e he
  rw [hc, hidx] at h0
  injection h0 with h0
  exact hp (congrArg (fun w => w.2.1) h0).symm

theorem cancel_bind_chr (ms : String) (f : ℚ → ℚ) (levels : Levels)
    (heap : List ℚ) (idx : IdIndex) (oid : ℕ) (price : ℚ) (q : ℕ) (lv1 : Level)
    (hS : SideInv ms f levels heap idx)
    (hidx : dGet idx oid = some (ms, price, q))
    (hlv1 : dGet levels price = some lv1) :
    (lv1.filter (fun e => e.1 ≠ oid) = [] →
      ∀ p, dGet (dDel levels price) p = (dGet levels p).bind (fun lvp =>
        if lvp.filter (fun e => e.1 ≠ oid) = [] then none
        else some (lvp.filter (fun e => e.1 ≠ oid)))) ∧
    (lv1.filter (fun e => e.1 ≠ oid) ≠ [] →
      ∀ p, dGet (dSet levels price (lv1.filter (fun e => e.1 ≠ oid))) p
        = (dGet levels p).bind (fun lvp =>
        if lvp.filter (fun e => e.1 ≠ oid) = [] then none
        else some (lvp.filter (fun e => e.1 ≠ oid)))) := by
  constructor
  · intro hfe p
    by_cases hp : p = price
    · subst hp
      rw [dGet_dDel_self levels p hS.keys_nodup, hlv1]
      simp only [Option.bind]
      rw [if_pos hfe]
    · rw [dGet_dDel_ne levels price p (fun hc => hp hc.symm)]
      cases hq : dGet levels p with
      | none => simp
      | some lvp =>
        have hid := filter_id_of_other_level ms f levels heap idx oid price q p
          lvp hS hidx hp hq
        have hne : lvp ≠ [] := hS.lv_ne (p, lvp) (dGet_mem _ _ _ hq)
        simp only [Option.bind, hid]
        rw [if_neg hne]
  · intro hfe p
    by_cases hp : p = price
    · subst hp
      rw [dGet_dSet, if_pos rfl, hlv1]
      simp only [Option.bind]
      rw [if_neg hfe]
    · rw [dGet_dSet, if_neg (fun hc => hp hc.symm)]
      cases hq : dGet levels p with
      | none => simp
      | some lvp =>
        have hid := filter_id_of_other_level ms f levels heap idx oid price q p
          lvp hS hidx hp hq
        have hne : lvp ≠ [] := hS.lv_ne (p, lvp) (dGet_mem _ _ _ hq)
        simp only [Option.bind, hid]
        rw [if_neg hne]

/-- C7: in every reachable book state, `snapshot()` returns null exactly for an
empty side, and any reported best price carries at least one resting order at
exactly that price on that side, each registered in the id index. -/
theorem C7_theorem (b : OrderBook) (hb : Reachable b) :
    ((snapshot b).1 = none ↔ b.bids = []) ∧
    ((snapshot b).2 = none ↔ b.asks = []) ∧
    (∀ p, (snapshot b).1 = some p →
      ∃ lv, dGet b.bids p = some lv ∧ lv ≠ [] ∧
        ∀ e ∈ lv, dGet b.id_index e.1 = some ("BUY", p, e.2)) ∧
    (∀ p, (snapshot b).2 = some p →
      ∃ lv, dGet b.asks p = some lv ∧ lv ≠ [] ∧
        ∀ e ∈ lv, dGet b.id_index e.1 = some ("SELL", p, e.2)) := by
  have hI := reachable_inv b hb
  refine ⟨?_, ?_, ?_, ?_⟩
  · show (hpTop b.bid_heap).map Neg.neg = none ↔ b.bids = []
    rw [Option.map_eq_none', hpTop_eq_none]
    constructor
    · intro h
      have hperm := hI.bidS.heap_perm
      rw [h] at hperm
      simpa using hperm.symm.eq_nil
    · intro h
      have hperm := hI.bidS.heap_perm
      rw [h] at hperm
      simpa using hperm
  · show hpTop b.ask_heap = none ↔ b.asks = []
    rw [hpTop_eq_none]
    constructor
    · intro h
      have hperm := hI.askS.heap_perm
      rw [h] at hperm
      simpa using hperm.symm.eq_nil
    · intro h
      have hperm := hI.askS.heap_perm
      rw [h] at hperm
      simpa using hperm
  · intro p hp
    have hp' : (hpTop b.bid_heap).map Neg.neg = some p := hp
    obtain ⟨hv, hhv, hneg⟩ := Option.map_eq_some'.mp hp'
    have hmem := hpTop_mem _ _ hhv
    have himg : hv ∈ b.bids.map (fun kv => -kv.1) :=
      hI.bidS.heap_perm.mem_iff.mp hmem
    obtain ⟨kv, hkv, hkvf⟩ := List.mem_map.mp himg
    have hkey : kv.1 = p := by
      rw [← hneg, ← hkvf, neg_neg]
    have hkmem : p ∈ b.bids.map Prod.fst := by
      rw [← hkey]
      exact List.mem_map_of_mem Prod.fst hkv
    obtain ⟨lv, hlv⟩ := mem_map_fst_exists_dGet _ _ hkmem
    exact ⟨lv, hlv, hI.bidS.lv_ne (p, lv) (dGet_mem _ _ _ hlv),
      hI.bidS.lsync p lv hlv⟩
  · intro p hp
    have hp' : hpTop b.ask_heap = some p := hp
    have hmem := hpTop_mem _ _ hp'
    have himg : p ∈ b.asks.map (fun kv => kv.1) :=
      hI.askS.heap_perm.mem_iff.mp hmem
    obtain ⟨kv, hkv, hkvf⟩ := List.mem_map.mp himg
    have hkmem : p ∈ b.asks.map Prod.fst := by
      rw [← hkvf]
      exact List.mem_map_of_mem Prod.fst hkv
    obtain ⟨lv, hlv⟩ := mem_map_fst_exists_dGet _ _ hkmem
    exact ⟨lv, hlv, hI.askS.lv_ne (p, lv) (dGet_mem _ _ _ hlv),
      hI.askS.lsync p lv hlv⟩

theorem C7_witness :
    (((snapshot emptyBook).1 = none ↔ emptyBook.bids = []) ∧
    ((snapshot emptyBook).2 = none ↔ emptyBook.asks = []) ∧
    (∀ p, (snapshot emptyBook).1 = some p →
      ∃ lv, dGet emptyBook.bids p = some lv ∧ lv ≠ [] ∧
        ∀ e ∈ lv, dGet emptyBook.id_index e.1 = some ("BUY", p, e.2)) ∧
    (∀ p, (snapshot emptyBook).2 = some p →
      ∃ lv, dGet emptyBook.asks p = some lv ∧ lv ≠ [] ∧
        ∀ e ∈ lv, dGet emptyBook.id_index e.1 = some ("SELL", p, e.2))) :=
  C7_theorem emptyBook Reachable.empty

/-- C8: in every reachable book state, `cancel_order` returns true exactly when
the id is resting; a miss leaves the book untouched; a hit removes exactly that
order's index entry, leaves the trade log and the opposite side untouched, and
rewrites each level of its side to the same deque with only the cancelled
order filtered out (an emptied level is dropped). -/
theorem C8_theorem (b : OrderBook) (hb : Reachable b) (oid : ℕ) :
    ((cancelOrder b oid).2 = true ↔ (dGet b.id_index oid).isSome = true) ∧
    (dGet b.id_index oid = none → (cancelOrder b oid).1 = b) ∧
    (∀ side price q, dGet b.id_index oid = some (side, price, q) →
      (cancelOrder b oid).1.trades = b.trades ∧
      (cancelOrder b oid).1.id_index = dDel b.id_index oid ∧
      (side = "BUY" → (cancelOrder b oid).1.asks = b.asks ∧
        ∀ p, dGet (cancelOrder b oid).1.bids p =
          (dGet b.bids p).bind (fun lvp =>
            if lvp.filter (fun e => e.1 ≠ oid) = [] then none
            else some (lvp.filter (fun e => e.1 ≠ oid)))) ∧
      (side = "SELL" → (cancelOrder b oid).1.bids = b.bids ∧
        ∀ p, dGet (cancelOrder b oid).1.asks p =
          (dGet b.asks p).bind (fun lvp =>
            if lvp.filter (fun e => e.1 ≠ oid) = [] then none
            else some (lvp.filter (fun e => e.1 ≠ oid))))) := by
  have hI := reachable_inv b hb
  refine ⟨?_, ?_, ?_⟩
  · cases hidx : dGet b.id_index oid with
    | none =>
      unfold cancelOrder
      simp [hidx]
    | some v =>
      obtain ⟨side, price, q⟩ := v
      unfold cancelOrder
      simp only [hidx]
      rcases hI.labels oid _ hidx with hside | hside
      · have hsd : side = "BUY" := hside
        subst hsd
        obtain ⟨lv1, hlv1, hmem1⟩ := hI.bidS.isync oid price q hidx
        rw [if_pos rfl]
        simp only [hlv1]
        have hfound : lv1.any (fun e => e.1 == oid) = true :=
          List.any_eq_true.mpr ⟨(oid, q), hmem1, by simp⟩
        by_cases hfe : lv1.filter (fun e => e.1 ≠ oid) = []
        · rw [if_pos hfe]
          simp [hfound]
        · rw [if_neg hfe]
          simp [hfound]
      · have hsd : side = "SELL" := hside
        subst hsd
        obtain ⟨lv1, hlv1, hmem1⟩ := hI.askS.isync oid price q hidx
        rw [if_neg (show ¬("SELL" = "BUY") by decide)]
        simp only [hlv1]
        have hfound : lv1.any (fun e => e.1 == oid) = true :=
          List.any_eq_true.mpr ⟨(oid, q), hmem1, by simp⟩
        by_cases hfe : lv1.filter (fun e => e.1 ≠ oid) = []
        · rw [if_pos hfe]
          simp [hfound]
        · rw [if_neg hfe]
          simp [hfound]
  · intro hidx
    unfold cancelOrder
    simp [hidx]
  · intro side price q hidx
    rcases hI.labels oid _ hidx with hside | hside
    · have hsd : side = "BUY" := hside
      subst hsd
      obtain ⟨lv1, hlv1, hmem1⟩ := hI.bidS.isync oid price q hidx
      obtain ⟨chrE, chrP⟩ := cancel_bind_chr "BUY" Neg.neg b.bids b.bid_heap
        b.id_index oid price q lv1 hI.bidS hidx hlv1
      unfold cancelOrder
      simp only [hidx, if_true, if_false]
      simp only [hlv1]
      by_cases hfe : lv1.filter (fun e => e.1 ≠ oid) = []
      · rw [if_pos hfe]
        exact ⟨rfl, rfl, fun _ => ⟨rfl, chrE hfe⟩, fun hc => absurd hc (by decide)⟩
      · rw [if_neg hfe]
        exact ⟨rfl, rfl, fun _ => ⟨rfl, chrP hfe⟩, fun hc => absurd hc (by decide)⟩
    · have hsd : side = "SELL" := hside
      subst hsd
      obtain ⟨lv1, hlv1, hmem1⟩ := hI.askS.isync oid price q hidx
      obtain ⟨chrE, chrP⟩ := cancel_bind_chr "SELL" (fun x => x) b.asks
        b.ask_heap b.id_index oid price q lv1 hI.askS hidx hlv1
      have hF : ¬("SELL" = "BUY") := by decide
      unfold cancelOrder
      simp only [hidx, if_neg hF]
      simp only [hlv1]
      by_cases hfe : lv1.filter (fun e => e.1 ≠ oid) = []
      · rw [if_pos hfe]
        exact ⟨rfl, rfl, fun hc => absurd hc (by decide), fun _ => ⟨rfl, chrE hfe⟩⟩
      · rw [if_neg hfe]
        exact ⟨rfl, rfl, fun hc => absurd hc (by decide), fun _ => ⟨rfl, chrP hfe⟩⟩

theorem C8_witness :
    ((cancelOrder wBook 1).2 = true ↔ (dGet wBook.id_index 1).isSome = true) ∧
    (dGet wBook.id_index 1 = none → (cancelOrder wBook 1).1 = wBook) ∧
    (∀ side price q, dGet wBook.id_index 1 = some (side, price, q) →
      (cancelOrder wBook 1).1.trades = wBook.trades ∧
      (cancelOrder wBook 1).1.id_index = dDel wBook.id_index 1 ∧
      (side = "BUY" → (cancelOrder wBook 1).1.asks = wBook.asks ∧
        ∀ p, dGet (cancelOrder wBook 1).1.bids p =
          (dGet wBook.bids p).bind (fun lvp =>
            if lvp.filter (fun e => e.1 ≠ 1) = [] then none
            else some (lvp.filter (fun e => e.1 ≠ 1)))) ∧
      (side = "SELL" → (cancelOrder wBook 1).1.bids = wBook.bids ∧
        ∀ p, dGet (cancelOrder wBook 1).1.asks p =
          (dGet wBook.asks p).bind (fun lvp =>
            if lvp.filter (fun e => e.1 ≠ 1) = [] then none
            else some (lvp.filter (fun e => e.1 ≠ 1))))) :=
  C8_theorem wBook
    (Reachable.add 1 "BUY" 10 5 "LIMIT" Reachable.empty rfl) 1

/-- C9 counterexample: `add_order` raises nothing on malformed input — an
unrecognised order type falls through to the LIMIT branch and behaves exactly
like a LIMIT order, and a zero quantity returns no fills and leaves the book
unchanged instead of failing the run. -/
theorem C9_counterexample :
    addOrder emptyBook 1 "BUY" 100 10 "FOO"
      = addOrder emptyBook 1 "BUY" 100 10 "LIMIT" ∧
    addOrder emptyBook 1 "BUY" 100 0 "LIMIT" = (emptyBook, []) :=
  ⟨rfl, addOrder_zero emptyBook 1 "BUY" 100 "LIMIT"⟩

/-- C9 amended: `add_order` performs no input validation: every order type
other than MARKET and IOC is dispatched to the LIMIT path, and a quantity of
zero is a silent no-op returning no fills for every order type. -/
theorem C9_amended (b : OrderBook) (oid : ℕ) (side : String) (price : ℚ)
    (qty : ℕ) (otype : String) (h1 : otype ≠ "MARKET") (h2 : otype ≠ "IOC") :
    addOrder b oid side price qty otype = addOrder b oid side price qty "LIMIT" ∧
    (∀ ty, addOrder b oid side price 0 ty = (b, [])) := by
  constructor
  · unfold addOrder
    rw [if_neg h1, if_neg h2, if_neg (show ¬("LIMIT" = "MARKET") by decide),
        if_neg (show ¬("LIMIT" = "IOC") by decide)]
  · intro ty
    exact addOrder_zero b oid side price ty

theorem C9_witness :
    ("FOO" : String) ≠ "MARKET" ∧ ("FOO" : String) ≠ "IOC" ∧
    (addOrder emptyBook 3 "SELL" 7 2 "FOO"
        = addOrder emptyBook 3 "SELL" 7 2 "LIMIT" ∧
      ∀ ty, addOrder emptyBook 3 "SELL" 7 0 ty = (emptyBook, [])) :=
  ⟨by decide, by decide,
    C9_amended emptyBook 3 "SELL" 7 2 "FOO" (by decide) (by decide)⟩

end Engine

theorem dGet_dDel_none {κ α : Type} [DecidableEq κ] (d : List (κ × α)) (k k' : κ)
    (h : dGet d k' = none) : dGet (dDel d k) k' = none := by
  rw [dGet_eq_none_iff] at h ⊢
  rw [dDel_map_fst]
  intro hc
  exact h (List.mem_of_mem_erase hc)

theorem nodup_keys_mem_eq {α β : Type} (l : List (α × β)) :
    (l.map Prod.fst).Nodup → ∀ a b : α × β, a ∈ l → b ∈ l → a.1 = b.1 →
    a = b := by
  induction l with
  | nil =>
    intro _ a b ha
    cases ha
  | cons hd tl ih =>
    intro hnd a b ha hb hfst
    simp only [List.map_cons, List.nodup_cons] at hnd
    rcases List.mem_cons.mp ha with rfl | ha'
    · rcases List.mem_cons.mp hb with rfl | hb'
      · rfl
      · exfalso
        apply hnd.1
        rw [hfst]
        exact List.mem_map_of_mem Prod.fst hb'
    · rcases List.mem_cons.mp hb with rfl | hb'
      · exfalso
        apply hnd.1
        rw [← hfst]
        exact List.mem_map_of_mem Prod.fst ha'
      · exact ih hnd.2 a b ha' hb' hfst

theorem pair_sublist {α : Type} (l1 l2 l3 : List α) (x y : α) :
    [x, y].Sublist (l1 ++ x :: l2 ++ y :: l3) := by
  have h1 : [x].Sublist (x :: l2) := (List.nil_sublist l2).cons₂ x
  have h1b : [x].Sublist (l1 ++ x :: l2) := h1.trans (List.sublist_append_right l1 _)
  have h2 : [y].Sublist (y :: l3) := (List.nil_sublist l3).cons₂ y
  exact h1b.append h2

theorem decomp_mem_left {α : Type} (l1 l2 l3 : List α) (x y : α) :
    x ∈ l1 ++ x :: l2 ++ y :: l3 := by
  simp

theorem decomp_mem_right {α : Type} (l1 l2 l3 : List α) (x y : α) :
    y ∈ l1 ++ x :: l2 ++ y :: l3 := by
  simp

theorem decomp_fst_ne {β : Type} (l1 l2 l3 : List (ℕ × β)) (x y : ℕ × β)
    (hnd : ((l1 ++ x :: l2 ++ y :: l3).map Prod.fst).Nodup) : x.1 ≠ y.1 := by
  have hsub := (pair_sublist l1 l2 l3 x y).map Prod.fst
  have hxy := List.Nodup.sublist hsub hnd
  simpa using hxy

theorem sublist_pair_front {α : Type} (x y : α) :
    ∀ (pre post : List α), [x, y].Sublist (pre ++ post) →
    x ∈ pre ∨ [x, y].Sublist post := by
  intro pre
  induction pre with
  | nil =>
    intro post h
    exact Or.inr h
  | cons a tl ih =>
    intro post h
    cases h with
    | cons _ h' =>
      rcases ih post h' with h1 | h1
      · exact Or.inl (List.mem_cons_of_mem a h1)
      · exact Or.inr h1
    | cons₂ _ h' =>
      exact Or.inl (List.mem_cons_self _ _)

theorem mem_front_unique {β : Type} (pre post : List (ℕ × β)) (y : ℕ × β)
    (hnd : ((pre ++ post).map Prod.fst).Nodup) (h1 : y ∈ pre) (h2 : y ∈ post) :
    False := by
  rw [List.map_append, List.nodup_append] at hnd
  exact hnd.2.2 (List.mem_map_of_mem Prod.fst h1) (List.mem_map_of_mem Prod.fst h2)

theorem pair_sublist_cons_head {β : Type} (x y : ℕ × β) (t : List (ℕ × β))
    (hxy : x.1 ≠ y.1) (hnd : ((y :: t).map Prod.fst).Nodup)
    (h : [x, y].Sublist (y :: t)) : False := by
  cases h with
  | cons _ h' =>
    have hy : y ∈ t := h'.subset (by simp)
    simp only [List.map_cons, List.nodup_cons] at hnd
    exact hnd.1 (List.mem_map_of_mem Prod.fst hy)
  | cons₂ _ h' =>
    exact hxy rfl

namespace Engine

theorem consumeLevel_pres_notin (mk : ℕ → ℕ → Fill) (ms : String) (best : ℚ) :
    ∀ (lv : Level) (R : ℕ) (idx : IdIndex) (o : ℕ), o ∉ lv.map Prod.fst →
    dGet (consumeLevel mk ms best lv R idx).2.2.2 o = dGet idx o := by
  intro lv
  induction lv with
  | nil =>
    intro R idx o _
    simp [consumeLevel]
  | cons hd rest ih =>
    obtain ⟨mid, mqty⟩ := hd
    intro R idx o ho
    have ho1 : o ≠ mid := by
      intro hc
      exact ho (by simp [hc])
    have ho2 : o ∉ rest.map Prod.fst := by
      intro hc
      exact ho (by simp [hc])
    by_cases hR : R = 0
    · simp [consumeLevel, hR]
    · simp only [consumeLevel, if_neg hR]
      by_cases hfull : mqty - min R mqty = 0
      · simp only [if_pos hfull]
        rw [ih (R - min R mqty) (dDel idx mid) o ho2]
        exact dGet_dDel_ne idx mid o (fun hc => ho1 hc.symm)
      · simp only [if_neg hfull]
        rw [dGet_dSet, if_neg (fun hc => ho1 hc.symm)]

theorem consumeLevel_nd (mk : ℕ → ℕ → Fill) (ms : String) (best : ℚ) :
    ∀ (lv : Level) (R : ℕ) (idx : IdIndex), (idx.map Prod.fst).Nodup →
    ((consumeLevel mk ms best lv R idx).2.2.2.map Prod.fst).Nodup := by
  intro lv
  induction lv with
  | nil =>
    intro R idx h
    simpa [consumeLevel] using h
  | cons hd rest ih =>
    obtain ⟨mid, mqty⟩ := hd
    intro R idx h
    by_cases hR : R = 0
    · simpa [consumeLevel, hR] using h
    · simp only [consumeLevel, if_neg hR]
      by_cases hfull : mqty - min R mqty = 0
      · simp only [if_pos hfull]
        exact ih _ _ (dDel_keys_nodup idx mid h)
      · simp only [if_neg hfull]
        exact dSet_keys_nodup idx mid _ h

theorem consumeLevel_chr (mk : ℕ → ℕ → Fill) (ms : String) (best : ℚ) :
    ∀ (lv : Level) (R : ℕ) (idx : IdIndex),
    ∃ pre post, lv = pre ++ post ∧
      ((lv.map Prod.fst).Nodup → (idx.map Prod.fst).Nodup →
        ∀ e ∈ pre, dGet (consumeLevel mk ms best lv R idx).2.2.2 e.1 = none) ∧
      (((consumeLevel mk ms best lv R idx).1 = pre.map (fun e => mk e.1 e.2) ∧
        (consumeLevel mk ms best lv R idx).2.2.1 = post) ∨
       (∃ mid mq t q2, post = (mid, mq) :: t ∧ 0 < q2 ∧ q2 < mq ∧
        (consumeLevel mk ms best lv R idx).1
          = pre.map (fun e => mk e.1 e.2) ++ [mk mid (mq - q2)] ∧
        (consumeLevel mk ms best lv R idx).2.2.1 = (mid, q2) :: t)) := by
  intro lv
  induction lv with
  | nil =>
    intro R idx
    refine ⟨[], [], rfl, ?_, Or.inl (by simp [consumeLevel])⟩
    intro _ _ e he
    cases he
  | cons hd rest ih =>
    obtain ⟨mid, mqty⟩ := hd
    intro R idx
    by_cases hR : R = 0
    · refine ⟨[], (mid, mqty) :: rest, rfl, ?_, Or.inl (by simp [consumeLevel, hR])⟩
      intro _ _ e he
      cases he
    · by_cases hfull : mqty - min R mqty = 0
      · obtain ⟨pre1, post1, hsplit, hnone1, hdisj1⟩ :=
          ih (R - min R mqty) (dDel idx mid)
        have htq : min R mqty = mqty :=
          le_antisymm (min_le_right R mqty) (Nat.le_of_sub_eq_zero hfull)
        refine ⟨(mid, mqty) :: pre1, post1, by simp [hsplit], ?_, ?_⟩
        · intro hndl hndi e he
          have hmid_not_rest : mid ∉ rest.map Prod.fst := by
            simp only [List.map_cons, List.nodup_cons] at hndl
            exact hndl.1
          have hndl' : (rest.map Prod.fst).Nodup := by
            simp only [List.map_cons, List.nodup_cons] at hndl
            exact hndl.2
          rcases List.mem_cons.mp he with rfl | he'
          · have hgoal : dGet (consumeLevel mk ms best rest (R - min R mqty)
                (dDel idx mid)).2.2.2 mid = none := by
              rw [consumeLevel_pres_notin mk ms best rest (R - min R mqty)
                (dDel idx mid) mid hmid_not_rest]
              exact dGet_dDel_self idx mid hndi
            simp only [consumeLevel, if_neg hR, if_pos hfull]
            exact hgoal
          · have h' := hnone1 hndl' (dDel_keys_nodup idx mid hndi) e he'
            simp only [consumeLevel, if_neg hR, if_pos hfull]
            exact h'
        · rcases hdisj1 with ⟨hf1, hl1⟩ |
            ⟨mid2, mq2, t2, q2, hpost, hq0, hqlt, hf1, hl1⟩
          · refine Or.inl ⟨?_, ?_⟩
            · simp only [consumeLevel, if_neg hR, if_pos hfull]
              rw [hf1, htq]
              simp
            · simp only [consumeLevel, if_neg hR, if_pos hfull]
              exact hl1
          · refine Or.inr ⟨mid2, mq2, t2, q2, hpost, hq0, hqlt, ?_, ?_⟩
            · simp only [consumeLevel, if_neg hR, if_pos hfull]
              rw [hf1, htq]
              simp
            · simp only [consumeLevel, if_neg hR, if_pos hfull]
              exact hl1
      · have hmq0 : 0 < mqty := by
          rcases Nat.eq_zero_or_pos mqty with h | h
          · exfalso
            apply hfull
            rw [h]
            simp
          · exact h
        have htq0 : 0 < min R mqty := lt_min (Nat.pos_of_ne_zero hR) hmq0
        refine ⟨[], (mid, mqty) :: rest, rfl, ?_,
          Or.inr ⟨mid, mqty, rest, mqty - min R mqty, rfl,
            Nat.pos_of_ne_zero hfull, Nat.sub_lt hmq0 htq0, ?_, ?_⟩⟩
        · intro _ _ e he
          cases he
        · simp only [consumeLevel, if_neg hR, if_neg hfull]
          rw [Nat.sub_sub_self (min_le_right R mqty)]
          simp
        · simp only [consumeLevel, if_neg hR, if_neg hfull]

theorem sweep_fills_shape (mk : ℚ → ℕ → ℕ → Fill) (ms : String) (toP : ℚ → ℚ)
    (stop : ℚ → Bool) :
    ∀ (levels : Levels) (heap : List ℚ) (idx : IdIndex) (R : ℕ),
    (levels.map Prod.fst).Nodup →
    ∀ g ∈ (sweep mk ms toP stop levels heap idx R).1,
    ∃ P lvP m q, dGet levels P = some lvP ∧ g = mk P m q := by
  intro levels heap idx R
  induction levels, heap, idx, R using sweep.induct mk ms toP stop with
  | case1 levels heap idx =>
    intro _ g hg
    rw [sweep_zero] at hg
    exact absurd hg (by simp)
  | case2 levels heap idx R hR hh =>
    intro _ g hg
    rw [sweep_noheap mk ms toP stop levels heap idx R hR hh] at hg
    exact absurd hg (by simp)
  | case3 levels heap idx R hR hv hh hs =>
    intro _ g hg
    rw [sweep_stopped mk ms toP stop levels heap idx R hv hR hh hs] at hg
    exact absurd hg (by simp)
  | case4 levels heap idx R hR hv hh hs res hres ih =>
    intro hnd g hg
    rw [sweep_full mk ms toP stop levels heap idx R hv hR hh hs hres] at hg
    have hg2 : g ∈ (consumeLevel (mk (toP hv)) ms (toP hv)
        ((dGet levels (toP hv)).getD []) R idx).1 ++
        (sweep mk ms toP stop (dDel levels (toP hv)) (heap.erase hv)
          (consumeLevel (mk (toP hv)) ms (toP hv)
            ((dGet levels (toP hv)).getD []) R idx).2.2.2
          (consumeLevel (mk (toP hv)) ms (toP hv)
            ((dGet levels (toP hv)).getD []) R idx).2.1).1 := hg
    rcases List.mem_append.mp hg2 with hgl | hgr
    · cases hlv : dGet levels (toP hv) with
      | none =>
        rw [hlv] at hgl
        simp [consumeLevel] at hgl
      | some lv0 =>
        rw [hlv] at hgl
        simp only [Option.getD_some] at hgl
        obtain ⟨pre, post, hsplit, hnone, hdisj⟩ :=
          consumeLevel_chr (mk (toP hv)) ms (toP hv) lv0 R idx
        rcases hdisj with ⟨hf, _⟩ | ⟨mid, mq, t, q2, _, _, _, hf, _⟩
        · rw [hf] at hgl
          obtain ⟨e, _, hge⟩ := List.mem_map.mp hgl
          exact ⟨toP hv, lv0, e.1, e.2, hlv, hge.symm⟩
        · rw [hf] at hgl
          rcases List.mem_append.mp hgl with h1 | h1
          · obtain ⟨e, _, hge⟩ := List.mem_map.mp h1
            exact ⟨toP hv, lv0, e.1, e.2, hlv, hge.symm⟩
          · exact ⟨toP hv, lv0, mid, mq - q2, hlv, List.mem_singleton.mp h1⟩
    · have hnd' := dDel_keys_nodup levels (toP hv) hnd
      obtain ⟨P, lvP, m, q, hP, hgm⟩ := ih hnd' g hgr
      exact ⟨P, lvP, m, q, (dGet_dDel_some levels (toP hv) P lvP hnd hP).2, hgm⟩
  | case5 levels heap idx R hR hv hh hs res hres =>
    intro hnd g hg
    rw [sweep_stay mk ms toP stop levels heap idx R hv hR hh hs hres] at hg
    have hg2 : g ∈ (consumeLevel (mk (toP hv)) ms (toP hv)
        ((dGet levels (toP hv)).getD []) R idx).1 := hg
    cases hlv : dGet levels (toP hv) with
    | none =>
      rw [hlv] at hg2
      simp [consumeLevel] at hg2
    | some lv0 =>
      rw [hlv] at hg2
      simp only [Option.getD_some] at hg2
      obtain ⟨pre, post, hsplit, hnone, hdisj⟩ :=
        consumeLevel_chr (mk (toP hv)) ms (toP hv) lv0 R idx
      rcases hdisj with ⟨hf, _⟩ | ⟨mid, mq, t, q2, _, _, _, hf, _⟩
      · rw [hf] at hg2
        obtain ⟨e, _, hge⟩ := List.mem_map.mp hg2
        exact ⟨toP hv, lv0, e.1, e.2, hlv, hge.symm⟩
      · rw [hf] at hg2
        rcases List.mem_append.mp hg2 with h1 | h1
        · obtain ⟨e, _, hge⟩ := List.mem_map.mp h1
          exact ⟨toP hv, lv0, e.1, e.2, hlv, hge.symm⟩
        · exact ⟨toP hv, lv0, mid, mq - q2, hlv, List.mem_singleton.mp h1⟩

theorem sweep_none_pres (mk : ℚ → ℕ → ℕ → Fill) (ms : String) (toP : ℚ → ℚ)
    (stop : ℚ → Bool) :
    ∀ (levels : Levels) (heap : List ℚ) (idx : IdIndex) (R : ℕ) (o : ℕ),
    (levels.map Prod.fst).Nodup →
    (∀ p lv, dGet levels p = some lv → o ∉ lv.map Prod.fst) →
    dGet idx o = none →
    dGet (sweep mk ms toP stop levels heap idx R).2.2.2.2 o = none := by
  intro levels heap idx R
  induction levels, heap, idx, R using sweep.induct mk ms toP stop with
  | case1 levels heap idx =>
    intro o _ _ hidx
    rw [sweep_zero]
    exact hidx
  | case2 levels heap idx R hR hh =>
    intro o _ _ hidx
    rw [sweep_noheap mk ms toP stop levels heap idx R hR hh]
    exact hidx
  | case3 levels heap idx R hR hv hh hs =>
    intro o _ _ hidx
    rw [sweep_stopped mk ms toP stop levels heap idx R hv hR hh hs]
    exact hidx
  | case4 levels heap idx R hR hv hh hs res hres ih =>
    intro o hnd hno hidx
    rw [sweep_full mk ms toP stop levels heap idx R hv hR hh hs hres]
    have honot : o ∉ ((dGet levels (toP hv)).getD []).map Prod.fst := by
      cases hlv : dGet levels (toP hv) with
      | none => simp
      | some lv0 =>
        simp only [Option.getD_some]
        intro hc
        obtain ⟨e, he, hef⟩ := List.mem_map.mp hc
        have h1 := List.mem_map_of_mem Prod.fst he
        rw [hef] at h1
        exact hno (toP hv) lv0 hlv h1
    have h2 : dGet (consumeLevel (mk (toP hv)) ms (toP hv)
        ((dGet levels (toP hv)).getD []) R idx).2.2.2 o = none := by
      rw [consumeLevel_pres_notin (mk (toP hv)) ms (toP hv)
        ((dGet levels (toP hv)).getD []) R idx o honot]
      exact hidx
    have hno' : ∀ p lv, dGet (dDel levels (toP hv)) p = some lv →
        o ∉ lv.map Prod.fst := by
      intro p lv h0
      exact hno p lv (dGet_dDel_some levels (toP hv) p lv hnd h0).2
    exact ih o (dDel_keys_nodup levels (toP hv) hnd) hno' h2
  | case5 levels heap idx R hR hv hh hs res hres =>
    intro o hnd hno hidx
    rw [sweep_stay mk ms toP stop levels heap idx R hv hR hh hs hres]
    have honot : o ∉ ((dGet levels (toP hv)).getD []).map Prod.fst := by
      cases hlv : dGet levels (toP hv) with
      | none => simp
      | some lv0 =>
        simp only [Option.getD_some]
        intro hc
        obtain ⟨e, he, hef⟩ := List.mem_map.mp hc
        have h1 := List.mem_map_of_mem Prod.fst he
        rw [hef] at h1
        exact hno (toP hv) lv0 hlv h1
    show dGet (consumeLevel (mk (toP hv)) ms (toP hv)
        ((dGet levels (toP hv)).getD []) R idx).2.2.2 o = none
    rw [consumeLevel_pres_notin (mk (toP hv)) ms (toP hv)
      ((dGet levels (toP hv)).getD []) R idx o honot]
    exact hidx

theorem sweep_fifo (mk : ℚ → ℕ → ℕ → Fill) (ms : String) (toP : ℚ → ℚ)
    (stop : ℚ → Bool) (pr : Fill → ℚ) (mkr : Fill → ℕ)
    (hpr : ∀ P m q, pr (mk P m q) = P) (hmkr : ∀ P m q, mkr (mk P m q) = m) :
    ∀ (levels : Levels) (heap : List ℚ) (idx : IdIndex) (R : ℕ),
    (levels.map Prod.fst).Nodup →
    (∀ p0 lv0, dGet levels p0 = some lv0 → (lv0.map Prod.fst).Nodup) →
    (∀ p0 lv0, dGet levels p0 = some lv0 → ∀ e ∈ lv0,
      dGet idx e.1 = some (ms, p0, e.2)) →
    (idx.map Prod.fst).Nodup →
    ∀ p lv, dGet levels p = some lv →
    ∀ l1 l2 l3 x y, lv = l1 ++ x :: l2 ++ y :: l3 →
    (∃ g ∈ (sweep mk ms toP stop levels heap idx R).1, pr g = p ∧ mkr g = y.1) →
    mk p x.1 x.2 ∈ (sweep mk ms toP stop levels heap idx R).1 ∧
    dGet (sweep mk ms toP stop levels heap idx R).2.2.2.2 x.1 = none := by
  intro levels heap idx R
  induction levels, heap, idx, R using sweep.induct mk ms toP stop with
  | case1 levels heap idx =>
    intro _ _ _ _ p lv _ l1 l2 l3 x y _ htrig
    rw [sweep_zero] at htrig
    obtain ⟨g, hg, _⟩ := htrig
    exact absurd hg (by simp)
  | case2 levels heap idx R hR hh =>
    intro _ _ _ _ p lv _ l1 l2 l3 x y _ htrig
    rw [sweep_noheap mk ms toP stop levels heap idx R hR hh] at htrig
    obtain ⟨g, hg, _⟩ := htrig
    exact absurd hg (by simp)
  | case3 levels heap idx R hR hv hh hs =>
    intro _ _ _ _ p lv _ l1 l2 l3 x y _ htrig
    rw [sweep_stopped mk ms toP stop levels heap idx R hv hR hh hs] at htrig
    obtain ⟨g, hg, _⟩ := htrig
    exact absurd hg (by simp)
  | case4 levels heap idx R hR hv hh hs res hres ih =>
    intro hnd hlvnd hls hind p lv hplv l1 l2 l3 x y hdec htrig
    rw [sweep_full mk ms toP stop levels heap idx R hv hR hh hs hres] at htrig ⊢
    obtain ⟨g, hg, hgpr, hgmkr⟩ := htrig
    have hg2 : g ∈ (consumeLevel (mk (toP hv)) ms (toP hv)
        ((dGet levels (toP hv)).getD []) R idx).1 ++
        (sweep mk ms toP stop (dDel levels (toP hv)) (heap.erase hv)
          (consumeLevel (mk (toP hv)) ms (toP hv)
            ((dGet levels (toP hv)).getD []) R idx).2.2.2
          (consumeLevel (mk (toP hv)) ms (toP hv)
            ((dGet levels (toP hv)).getD []) R idx).2.1).1 := hg
    by_cases hpP : p = toP hv
    · rw [← hpP] at hg2 ⊢
      have hgetD : (dGet levels p).getD [] = lv := by
        rw [hplv]
        rfl
      rw [hgetD] at hg2 ⊢
      have hres2 : (consumeLevel (mk p) ms p lv R idx).2.2.1 = [] := by
        rw [← hgetD, hpP]
        exact hres
      obtain ⟨pre, post, hsplit, hnone, hdisj⟩ :=
        consumeLevel_chr (mk p) ms p lv R idx
      rcases hdisj with ⟨hf, hl⟩ | ⟨mid, mq, t, q2, hpost, _, _, hf, hl⟩
      · have hpost0 : post = [] := by
          rw [← hl]
          exact hres2
        have hpre : lv = pre := by
          rw [hsplit, hpost0, List.append_nil]
        have hx_pre : x ∈ pre := by
          rw [← hpre, hdec]
          exact decomp_mem_left l1 l2 l3 x y
        constructor
        · apply List.mem_append_left
          rw [hf]
          exact List.mem_map_of_mem _ hx_pre
        · have hn1 : dGet (consumeLevel (mk p) ms p lv R idx).2.2.2 x.1 = none :=
            hnone (hlvnd _ _ hplv) hind x hx_pre
          refine sweep_none_pres mk ms toP stop _ _ _ _ x.1
            (dDel_keys_nodup levels p hnd) ?_ hn1
          intro p0 lv0 hlv0
          obtain ⟨hne0, hlift⟩ := dGet_dDel_some levels p p0 lv0 hnd hlv0
          intro hc
          obtain ⟨e0, he0, he0f⟩ := List.mem_map.mp hc
          have h1 := hls p0 lv0 hlift e0 he0
          have h2 := hls p lv hplv x (by rw [hdec]; exact decomp_mem_left l1 l2 l3 x y)
          rw [he0f] at h1
          rw [h1] at h2
          injection h2 with h2
          exact hne0 (congrArg (fun w => w.2.1) h2).symm
      · rw [hl] at hres2
        simp at hres2
    · rcases List.mem_append.mp hg2 with hgl | hgr
      · exfalso
        cases hlv : dGet levels (toP hv) with
        | none =>
          rw [hlv] at hgl
          simp [consumeLevel] at hgl
        | some lv0 =>
          rw [hlv] at hgl
          simp only [Option.getD_some] at hgl
          obtain ⟨pre, post, hsplit, hnone, hdisj⟩ :=
            consumeLevel_chr (mk (toP hv)) ms (toP hv) lv0 R idx
          rcases hdisj with ⟨hf, _⟩ | ⟨mid, mq, t, q2, _, _, _, hf, _⟩
          · rw [hf] at hgl
            obtain ⟨e, _, hge⟩ := List.mem_map.mp hgl
            rw [← hge, hpr] at hgpr
            exact hpP hgpr.symm
          · rw [hf] at hgl
            rcases List.mem_append.mp hgl with h1 | h1
            · obtain ⟨e, _, hge⟩ := List.mem_map.mp h1
              rw [← hge, hpr] at hgpr
              exact hpP hgpr.symm
            · rw [List.mem_singleton.mp h1, hpr] at hgpr
              exact hpP hgpr.symm
      · have hnd' := dDel_keys_nodup levels (toP hv) hnd
        have hlvnd' : ∀ p0 lv0, dGet (dDel levels (toP hv)) p0 = some lv0 →
            (lv0.map Prod.fst).Nodup := by
          intro p0 lv0 h0
          exact hlvnd p0 lv0 (dGet_dDel_some levels (toP hv) p0 lv0 hnd h0).2
        have hls' : ∀ p0 lv0, dGet (dDel levels (toP hv)) p0 = some lv0 →
            ∀ e ∈ lv0, dGet (consumeLevel (mk (toP hv)) ms (toP hv)
              ((dGet levels (toP hv)).getD []) R idx).2.2.2 e.1
              = some (ms, p0, e.2) := by
          intro p0 lv0 h0 e he
          obtain ⟨hne0, hlift⟩ := dGet_dDel_some levels (toP hv) p0 lv0 hnd h0
          have hold := hls p0 lv0 hlift e he
          have hnotin : e.1 ∉ ((dGet levels (toP hv)).getD []).map Prod.fst := by
            cases hlv : dGet levels (toP hv) with
            | none => simp
            | some lvc =>
              simp only [Option.getD_some]
              intro hc
              obtain ⟨e2, he2, he2f⟩ := List.mem_map.mp hc
              have h1 := hls (toP hv) lvc hlv e2 he2
              rw [he2f, hold] at h1
              injection h1 with h1
              exact hne0 (congrArg (fun w => w.2.1) h1).symm
          rw [consumeLevel_pres_notin (mk (toP hv)) ms (toP hv)
            ((dGet levels (toP hv)).getD []) R idx e.1 hnotin]
          exact hold
        have hind' : (((consumeLevel (mk (toP hv)) ms (toP hv)
            ((dGet levels (toP hv)).getD []) R idx).2.2.2).map Prod.fst).Nodup :=
          consumeLevel_nd (mk (toP hv)) ms (toP hv) _ R idx hind
        have hplv' : dGet (dDel levels (toP hv)) p = some lv := by
          rw [dGet_dDel_ne levels (toP hv) p (fun hc => hpP hc.symm)]
          exact hplv
        obtain ⟨hA, hB⟩ := ih hnd' hlvnd' hls' hind' p lv hplv' l1 l2 l3 x y hdec
          ⟨g, hgr, hgpr, hgmkr⟩
        exact ⟨List.mem_append_right _ hA, hB⟩
  | case5 levels heap idx R hR hv hh hs res hres =>
    intro hnd hlvnd hls hind p lv hplv l1 l2 l3 x y hdec htrig
    rw [sweep_stay mk ms toP stop levels heap idx R hv hR hh hs hres] at htrig ⊢
    obtain ⟨g, hg, hgpr, hgmkr⟩ := htrig
    have hg2 : g ∈ (consumeLevel (mk (toP hv)) ms (toP hv)
        ((dGet levels (toP hv)).getD []) R idx).1 := hg
    by_cases hpP : p = toP hv
    · rw [← hpP] at hg2 ⊢
      have hgetD : (dGet levels p).getD [] = lv := by
        rw [hplv]
        rfl
      rw [hgetD] at hg2 ⊢
      obtain ⟨pre, post, hsplit, hnone, hdisj⟩ :=
        consumeLevel_chr (mk p) ms p lv R idx
      have hlvndL := hlvnd _ _ hplv
      have hxy : x.1 ≠ y.1 := decomp_fst_ne l1 l2 l3 x y (by rw [← hdec]; exact hlvndL)
      have hylv : y ∈ lv := by
        rw [hdec]
        exact decomp_mem_right l1 l2 l3 x y
      have hpair : [x, y].Sublist lv := by
        rw [hdec]
        exact pair_sublist l1 l2 l3 x y
      have hx_pre_of_y_pre : ∀ e, e ∈ pre → e = y → x ∈ pre := by
        intro e he hey
        rcases sublist_pair_front x y pre post (by rw [← hsplit]; exact hpair)
          with h | h
        · exact h
        · exfalso
          exact mem_front_unique pre post y (by rw [← hsplit]; exact hlvndL)
            (hey ▸ he) (h.subset (by simp))
      rcases hdisj with ⟨hf, hl⟩ | ⟨mid, mq, t, q2, hpost, _, _, hf, hl⟩
      · rw [hf] at hg2
        obtain ⟨e, he, hge⟩ := List.mem_map.mp hg2
        rw [← hge, hmkr] at hgmkr
        have hey : e = y := by
          apply nodup_keys_mem_eq lv hlvndL e y ?_ hylv hgmkr
          rw [hsplit]
          exact List.mem_append_left _ he
        have hx_pre : x ∈ pre := hx_pre_of_y_pre e he hey
        constructor
        · rw [hf]
          exact List.mem_map_of_mem _ hx_pre
        · exact hnone hlvndL hind x hx_pre
      · rw [hf] at hg2
        have hpostnd : (post.map Prod.fst).Nodup := by
          have h0 := hlvndL
          rw [hsplit, List.map_append, List.nodup_append] at h0
          exact h0.2.1
        rcases List.mem_append.mp hg2 with hgl1 | hgl1
        · obtain ⟨e, he, hge⟩ := List.mem_map.mp hgl1
          rw [← hge, hmkr] at hgmkr
          have hey : e = y := by
            apply nodup_keys_mem_eq lv hlvndL e y ?_ hylv hgmkr
            rw [hsplit]
            exact List.mem_append_left _ he
          have hx_pre : x ∈ pre := hx_pre_of_y_pre e he hey
          constructor
          · rw [hf]
            exact List.mem_append_left _ (List.mem_map_of_mem _ hx_pre)
          · exact hnone hlvndL hind x hx_pre
        · have hgm : g = mk p mid (mq - q2) := List.mem_singleton.mp hgl1
          rw [hgm, hmkr] at hgmkr
          have hmidlv : (mid, mq) ∈ lv := by
            rw [hsplit, hpost]
            exact List.mem_append_right _ (List.mem_cons_self _ _)
          have hey : (mid, mq) = y :=
            nodup_keys_mem_eq lv hlvndL (mid, mq) y hmidlv hylv hgmkr
          have hpost' : post = y :: t := by
            rw [hpost, hey]
          have hx_pre : x ∈ pre := by
            rcases sublist_pair_front x y pre post
              (by rw [← hsplit]; exact hpair) with h | h
            · exact h
            · exfalso
              rw [hpost'] at h
              have hndyt : ((y :: t).map Prod.fst).Nodup := by
                rw [← hpost']
                exact hpostnd
              exact pair_sublist_cons_head x y t hxy hndyt h
          constructor
          · rw [hf]
            exact List.mem_append_left _ (List.mem_map_of_mem _ hx_pre)
          · exact hnone hlvndL hind x hx_pre
    · exfalso
      cases hlv : dGet levels (toP hv) with
      | none =>
        rw [hlv] at hg2
        simp [consumeLevel] at hg2
      | some lv0 =>
        rw [hlv] at hg2
        simp only [Option.getD_some] at hg2
        obtain ⟨pre, post, hsplit, hnone, hdisj⟩ :=
          consumeLevel_chr (mk (toP hv)) ms (toP hv) lv0 R idx
        rcases hdisj with ⟨hf, _⟩ | ⟨mid, mq, t, q2, _, _, _, hf, _⟩
        · rw [hf] at hg2
          obtain ⟨e, _, hge⟩ := List.mem_map.mp hg2
          rw [← hge, hpr] at hgpr
          exact hpP hgpr.symm
        · rw [hf] at hg2
          rcases List.mem_append.mp hg2 with h1 | h1
          · obtain ⟨e, _, hge⟩ := List.mem_map.mp h1
            rw [← hge, hpr] at hgpr
            exact hpP hgpr.symm
          · rw [List.mem_singleton.mp h1, hpr] at hgpr
            exact hpP hgpr.symm

theorem matchLimit_buy_snd (b : OrderBook) (oid : ℕ) (price : ℚ) (qty : ℕ) :
    (matchLimit b oid "BUY" price qty).2
      = (sweep (fun P m q => (⟨oid, m, P, q, "BUY"⟩ : Fill)) "SELL" id
          (fun best => decide (price < best)) b.asks b.ask_heap b.id_index
          qty).1 := by
  unfold matchLimit
  rw [if_pos rfl]
  by_cases hrem : 0 < (sweep (fun P m q => (⟨oid, m, P, q, "BUY"⟩ : Fill))
      "SELL" id (fun best => decide (price < best)) b.asks b.ask_heap
      b.id_index qty).2.1
  · rw [if_pos hrem]
  · rw [if_neg hrem]

theorem matchLimit_buy_idx (b : OrderBook) (oid : ℕ) (price : ℚ) (qty : ℕ)
    (o : ℕ) (ho : o ≠ oid) :
    dGet (matchLimit b oid "BUY" price qty).1.id_index o
      = dGet (sweep (fun P m q => (⟨oid, m, P, q, "BUY"⟩ : Fill)) "SELL" id
          (fun best => decide (price < best)) b.asks b.ask_heap b.id_index
          qty).2.2.2.2 o := by
  unfold matchLimit
  rw [if_pos rfl]
  by_cases hrem : 0 < (sweep (fun P m q => (⟨oid, m, P, q, "BUY"⟩ : Fill))
      "SELL" id (fun best => decide (price < best)) b.asks b.ask_heap
      b.id_index qty).2.1
  · rw [if_pos hrem]
    show dGet (dSet (sweep (fun P m q => (⟨oid, m, P, q, "BUY"⟩ : Fill))
        "SELL" id (fun best => decide (price < best)) b.asks b.ask_heap
        b.id_index qty).2.2.2.2 oid
        ("BUY", price, (sweep (fun P m q => (⟨oid, m, P, q, "BUY"⟩ : Fill))
          "SELL" id (fun best => decide (price < best)) b.asks b.ask_heap
          b.id_index qty).2.1)) o = _
    rw [dGet_dSet, if_neg (fun hc => ho hc.symm)]
  · rw [if_neg hrem]

theorem matchLimit_sell_snd (b : OrderBook) (oid : ℕ) (side : String)
    (price : ℚ) (qty : ℕ) (hside : ¬ side = "BUY") :
    (matchLimit b oid side price qty).2
      = (sweep (fun P m q => (⟨m, oid, P, q, "SELL"⟩ : Fill)) "BUY" Neg.neg
          (fun best => decide (best < price)) b.bids b.bid_heap b.id_index
          qty).1 := by
  unfold matchLimit
  rw [if_neg hside]
  by_cases hrem : 0 < (sweep (fun P m q => (⟨m, oid, P, q, "SELL"⟩ : Fill))
      "BUY" Neg.neg (fun best => decide (best < price)) b.bids b.bid_heap
      b.id_index qty).2.1
  · rw [if_pos hrem]
  · rw [if_neg hrem]

theorem matchLimit_sell_idx (b : OrderBook) (oid : ℕ) (side : String)
    (price : ℚ) (qty : ℕ) (hside : ¬ side = "BUY") (o : ℕ) (ho : o ≠ oid) :
    dGet (matchLimit b oid side price qty).1.id_index o
      = dGet (sweep (fun P m q => (⟨m, oid, P, q, "SELL"⟩ : Fill)) "BUY"
          Neg.neg (fun best => decide (best < price)) b.bids b.bid_heap
          b.id_index qty).2.2.2.2 o := by
  unfold matchLimit
  rw [if_neg hside]
  by_cases hrem : 0 < (sweep (fun P m q => (⟨m, oid, P, q, "SELL"⟩ : Fill))
      "BUY" Neg.neg (fun best => decide (best < price)) b.bids b.bid_heap
      b.id_index qty).2.1
  · rw [if_pos hrem]
    show dGet (dSet (sweep (fun P m q => (⟨m, oid, P, q, "SELL"⟩ : Fill))
        "BUY" Neg.neg (fun best => decide (best < price)) b.bids b.bid_heap
        b.id_index qty).2.2.2.2 oid
        ("SELL", price, (sweep (fun P m q => (⟨m, oid, P, q, "SELL"⟩ : Fill))
          "BUY" Neg.neg (fun best => decide (best < price)) b.bids b.bid_heap
          b.id_index qty).2.1)) o = _
    rw [dGet_dSet, if_neg (fun hc => ho hc.symm)]
  · rw [if_neg hrem]

theorem executeMarket_buy_snd (b : OrderBook) (oid : ℕ) (qty : ℕ) :
    (executeMarket b oid "BUY" qty).2
      = (sweep (fun P m q => (⟨oid, m, P, q, "BUY"⟩ : Fill)) "SELL" id
          (fun _ => false) b.asks b.ask_heap b.id_index qty).1 := by
  unfold executeMarket
  rw [if_pos rfl]

theorem executeMarket_buy_idx (b : OrderBook) (oid : ℕ) (qty : ℕ) (o : ℕ) :
    dGet (executeMarket b oid "BUY" qty).1.id_index o
      = dGet (sweep (fun P m q => (⟨oid, m, P, q, "BUY"⟩ : Fill)) "SELL" id
          (fun _ => false) b.asks b.ask_heap b.id_index qty).2.2.2.2 o := by
  unfold executeMarket
  rw [if_pos rfl]

theorem executeMarket_sell_snd (b : OrderBook) (oid : ℕ) (side : String)
    (qty : ℕ) (hside : ¬ side = "BUY") :
    (executeMarket b oid side qty).2
      = (sweep (fun P m q => (⟨m, oid, P, q, "SELL"⟩ : Fill)) "BUY" Neg.neg
          (fun _ => false) b.bids b.bid_heap b.id_index qty).1 := by
  unfold executeMarket
  rw [if_neg hside]

theorem executeMarket_sell_idx (b : OrderBook) (oid : ℕ) (side : String)
    (qty : ℕ) (hside : ¬ side = "BUY") (o : ℕ) :
    dGet (executeMarket b oid side qty).1.id_index o
      = dGet (sweep (fun P m q => (⟨m, oid, P, q, "SELL"⟩ : Fill)) "BUY"
          Neg.neg (fun _ => false) b.bids b.bid_heap b.id_index
          qty).2.2.2.2 o := by
  unfold executeMarket
  rw [if_neg hside]

theorem executeIOC_buy_snd (b : OrderBook) (oid : ℕ) (price : ℚ) (qty : ℕ) :
    (executeIOC b oid "BUY" price qty).2
      = (sweep (fun P m q => (⟨oid, m, P, q, "BUY"⟩ : Fill)) "SELL" id
          (fun best => decide (price < best)) b.asks b.ask_heap b.id_index
          qty).1 := by
  unfold executeIOC
  rw [if_pos rfl]

theorem executeIOC_buy_idx (b : OrderBook) (oid : ℕ) (price : ℚ) (qty : ℕ)
    (o : ℕ) :
    dGet (executeIOC b oid "BUY" price qty).1.id_index o
      = dGet (sweep (fun P m q => (⟨oid, m, P, q, "BUY"⟩ : Fill)) "SELL" id
          (fun best => decide (price < best)) b.asks b.ask_heap b.id_index
          qty).2.2.2.2 o := by
  unfold executeIOC
  rw [if_pos rfl]

theorem executeIOC_sell_snd (b : OrderBook) (oid : ℕ) (side : String)
    (price : ℚ) (qty : ℕ) (hside : ¬ side = "BUY") :
    (executeIOC b oid side price qty).2
      = (sweep (fun P m q => (⟨m, oid, P, q, "SELL"⟩ : Fill)) "BUY" Neg.neg
          (fun best => decide (best < price)) b.bids b.bid_heap b.id_index
          qty).1 := by
  unfold executeIOC
  rw [if_neg hside]

theorem executeIOC_sell_idx (b : OrderBook) (oid : ℕ) (side : String)
    (price : ℚ) (qty : ℕ) (hside : ¬ side = "BUY") (o : ℕ) :
    dGet (executeIOC b oid side price qty).1.id_index o
      = dGet (sweep (fun P m q => (⟨m, oid, P, q, "SELL"⟩ : Fill)) "BUY"
          Neg.neg (fun best => decide (best < price)) b.bids b.bid_heap
          b.id_index qty).2.2.2.2 o := by
  unfold executeIOC
  rw [if_neg hside]

theorem buy_sweep_taker (b : OrderBook) (hI : Inv b) (oid : ℕ)
    (stop : ℚ → Bool) (R : ℕ) :
    ∀ g ∈ (sweep (fun P m q => (⟨oid, m, P, q, "BUY"⟩ : Fill)) "SELL" id stop
        b.asks b.ask_heap b.id_index R).1, g.taker_side = "BUY" := by
  intro g hg
  obtain ⟨P, lvP, m, q, _, hgm⟩ := sweep_fills_shape
    (fun P m q => (⟨oid, m, P, q, "BUY"⟩ : Fill)) "SELL" id stop
    b.asks b.ask_heap b.id_index R hI.askS.keys_nodup g hg
  rw [hgm]

theorem sell_sweep_taker (b : OrderBook) (hI : Inv b) (oid : ℕ)
    (stop : ℚ → Bool) (R : ℕ) :
    ∀ g ∈ (sweep (fun P m q => (⟨m, oid, P, q, "SELL"⟩ : Fill)) "BUY" Neg.neg
        stop b.bids b.bid_heap b.id_index R).1, g.taker_side = "SELL" := by
  intro g hg
  obtain ⟨P, lvP, m, q, _, hgm⟩ := sweep_fills_shape
    (fun P m q => (⟨m, oid, P, q, "SELL"⟩ : Fill)) "BUY" Neg.neg stop
    b.bids b.bid_heap b.id_index R hI.bidS.keys_nodup g hg
  rw [hgm]

theorem fifo_buy_op (b : OrderBook) (hI : Inv b) (oid : ℕ) (stop : ℚ → Bool)
    (R : ℕ) (hfresh : dGet b.id_index oid = none) (p : ℚ)
    (lv l1 l2 l3 : Level) (x y : ℕ × ℕ) (hdec : lv = l1 ++ x :: l2 ++ y :: l3)
    (hlv : dGet b.asks p = some lv)
    (htrig : ∃ g ∈ (sweep (fun P m q => (⟨oid, m, P, q, "BUY"⟩ : Fill)) "SELL"
        id stop b.asks b.ask_heap b.id_index R).1,
        g.price = p ∧ g.seller_id = y.1) :
    (⟨oid, x.1, p, x.2, "BUY"⟩ : Fill) ∈ (sweep (fun P m q =>
        (⟨oid, m, P, q, "BUY"⟩ : Fill)) "SELL" id stop b.asks b.ask_heap
        b.id_index R).1 ∧
    dGet (sweep (fun P m q => (⟨oid, m, P, q, "BUY"⟩ : Fill)) "SELL" id stop
        b.asks b.ask_heap b.id_index R).2.2.2.2 x.1 = none ∧
    x.1 ≠ oid := by
  have hx_lv : x ∈ lv := by
    rw [hdec]
    exact decomp_mem_left l1 l2 l3 x y
  have hxidx := hI.askS.lsync p lv hlv x hx_lv
  have hxo : x.1 ≠ oid := by
    intro hc
    rw [hc, hfresh] at hxidx
    cases hxidx
  obtain ⟨hA, hB⟩ := sweep_fifo (fun P m q => (⟨oid, m, P, q, "BUY"⟩ : Fill))
    "SELL" id stop Fill.price Fill.seller_id (fun P m q => rfl)
    (fun P m q => rfl) b.asks b.ask_heap b.id_index R hI.askS.keys_nodup
    hI.askS.lv_nodup hI.askS.lsync hI.idxnd p lv hlv l1 l2 l3 x y hdec htrig
  exact ⟨hA, hB, hxo⟩

theorem fifo_sell_op (b : OrderBook) (hI : Inv b) (oid : ℕ) (stop : ℚ → Bool)
    (R : ℕ) (hfresh : dGet b.id_index oid = none) (p : ℚ)
    (lv l1 l2 l3 : Level) (x y : ℕ × ℕ) (hdec : lv = l1 ++ x :: l2 ++ y :: l3)
    (hlv : dGet b.bids p = some lv)
    (htrig : ∃ g ∈ (sweep (fun P m q => (⟨m, oid, P, q, "SELL"⟩ : Fill)) "BUY"
        Neg.neg stop b.bids b.bid_heap b.id_index R).1,
        g.price = p ∧ g.buyer_id = y.1) :
    (⟨x.1, oid, p, x.2, "SELL"⟩ : Fill) ∈ (sweep (fun P m q =>
        (⟨m, oid, P, q, "SELL"⟩ : Fill)) "BUY" Neg.neg stop b.bids b.bid_heap
        b.id_index R).1 ∧
    dGet (sweep (fun P m q => (⟨m, oid, P, q, "SELL"⟩ : Fill)) "BUY" Neg.neg
        stop b.bids b.bid_heap b.id_index R).2.2.2.2 x.1 = none ∧
    x.1 ≠ oid := by
  have hx_lv : x ∈ lv := by
    rw [hdec]
    exact decomp_mem_left l1 l2 l3 x y
  have hxidx := hI.bidS.lsync p lv hlv x hx_lv
  have hxo : x.1 ≠ oid := by
    intro hc
    rw [hc, hfresh] at hxidx
    cases hxidx
  obtain ⟨hA, hB⟩ := sweep_fifo (fun P m q => (⟨m, oid, P, q, "SELL"⟩ : Fill))
    "BUY" Neg.neg stop Fill.price Fill.buyer_id (fun P m q => rfl)
    (fun P m q => rfl) b.bids b.bid_heap b.id_index R hI.bidS.keys_nodup
    hI.bidS.lv_nodup hI.bidS.lsync hI.idxnd p lv hlv l1 l2 l3 x y hdec htrig
  exact ⟨hA, hB, hxo⟩

/-- C6: price-time priority within a price level of the continuous book. In
every reachable book state, for any next order: whenever a resting order `y`
receives a fill at its level price as the maker, every order `x` queued ahead
of it at the same price and side is filled completely in the same call (a fill
for x's full remaining quantity at that price is returned, with the incoming
order as counterparty) and is removed from the id index — earlier-queued
orders reach zero remaining before later ones receive anything, across partial
fills and intervening cancels. -/
theorem C6_theorem (b : OrderBook) (hb : Reachable b) (oid : ℕ) (side : String)
    (price : ℚ) (qty : ℕ) (otype : String)
    (hfresh : dGet b.id_index oid = none)
    (p : ℚ) (lv l1 l2 l3 : Level) (x y : ℕ × ℕ)
    (hdec : lv = l1 ++ x :: l2 ++ y :: l3) :
    (dGet b.asks p = some lv →
      (∃ g ∈ (addOrder b oid side price qty otype).2,
        g.price = p ∧ g.seller_id = y.1 ∧ g.taker_side = "BUY") →
      (⟨oid, x.1, p, x.2, "BUY"⟩ : Fill) ∈ (addOrder b oid side price qty otype).2 ∧
      dGet (addOrder b oid side price qty otype).1.id_index x.1 = none) ∧
    (dGet b.bids p = some lv →
      (∃ g ∈ (addOrder b oid side price qty otype).2,
        g.price = p ∧ g.buyer_id = y.1 ∧ g.taker_side = "SELL") →
      (⟨x.1, oid, p, x.2, "SELL"⟩ : Fill) ∈ (addOrder b oid side price qty otype).2 ∧
      dGet (addOrder b oid side price qty otype).1.id_index x.1 = none) := by
  have hI := reachable_inv b hb
  by_cases hM : otype = "MARKET"
  · have hE : addOrder b oid side price qty otype = executeMarket b oid side qty := by
      unfold addOrder
      rw [if_pos hM]
    rw [hE]
    by_cases hS : side = "BUY"
    · subst hS
      constructor
      · intro hlv htrig
        rw [executeMarket_buy_snd] at htrig ⊢
        obtain ⟨hA, hB, _⟩ := fifo_buy_op b hI oid (fun _ => false) qty hfresh
          p lv l1 l2 l3 x y hdec hlv (by
            obtain ⟨g, hg, h1, h2, h3⟩ := htrig
            exact ⟨g, hg, h1, h2⟩)
        refine ⟨hA, ?_⟩
        rw [executeMarket_buy_idx]
        exact hB
      · intro hlv htrig
        exfalso
        obtain ⟨g, hg, _, _, h3⟩ := htrig
        rw [executeMarket_buy_snd] at hg
        have hts := buy_sweep_taker b hI oid (fun _ => false) qty g hg
        rw [hts] at h3
        exact absurd h3 (by decide)
    · constructor
      · intro hlv htrig
        exfalso
        obtain ⟨g, hg, _, _, h3⟩ := htrig
        rw [executeMarket_sell_snd b oid side qty hS] at hg
        have hts := sell_sweep_taker b hI oid (fun _ => false) qty g hg
        rw [hts] at h3
        exact absurd h3 (by decide)
      · intro hlv htrig
        rw [executeMarket_sell_snd b oid side qty hS] at htrig ⊢
        obtain ⟨hA, hB, _⟩ := fifo_sell_op b hI oid (fun _ => false) qty hfresh
          p lv l1 l2 l3 x y hdec hlv (by
            obtain ⟨g, hg, h1, h2, h3⟩ := htrig
            exact ⟨g, hg, h1, h2⟩)
        refine ⟨hA, ?_⟩
        rw [executeMarket_sell_idx b oid side qty hS]
        exact hB
  · by_cases hIO : otype = "IOC"
    · have hE : addOrder b oid side price qty otype
          = executeIOC b oid side price qty := by
        unfold addOrder
        rw [if_neg hM, if_pos hIO]
      rw [hE]
      by_cases hS : side = "BUY"
      · subst hS
        constructor
        · intro hlv htrig
          rw [executeIOC_buy_snd] at htrig ⊢
          obtain ⟨hA, hB, _⟩ := fifo_buy_op b hI oid
            (fun best => decide (price < best)) qty hfresh
            p lv l1 l2 l3 x y hdec hlv (by
              obtain ⟨g, hg, h1, h2, h3⟩ := htrig
              exact ⟨g, hg, h1, h2⟩)
          refine ⟨hA, ?_⟩
          rw [executeIOC_buy_idx]
          exact hB
        · intro hlv htrig
          exfalso
          obtain ⟨g, hg, _, _, h3⟩ := htrig
          rw [executeIOC_buy_snd] at hg
          have hts := buy_sweep_taker b hI oid
            (fun best => decide (price < best)) qty g hg
          rw [hts] at h3
          exact absurd h3 (by decide)
      · constructor
        · intro hlv htrig
          exfalso
          obtain ⟨g, hg, _, _, h3⟩ := htrig
          rw [executeIOC_sell_snd b oid side price qty hS] at hg
          have hts := sell_sweep_taker b hI oid
            (fun best => decide (best < price)) qty g hg
          rw [hts] at h3
          exact absurd h3 (by decide)
        · intro hlv htrig
          rw [executeIOC_sell_snd b oid side price qty hS] at htrig ⊢
          obtain ⟨hA, hB, _⟩ := fifo_sell_op b hI oid
            (fun best => decide (best < price)) qty hfresh
            p lv l1 l2 l3 x y hdec hlv (by
              obtain ⟨g, hg, h1, h2, h3⟩ := htrig
              exact ⟨g, hg, h1, h2⟩)
          refine ⟨hA, ?_⟩
          rw [executeIOC_sell_idx b oid side price qty hS]
          exact hB
    · have hE : addOrder b oid side price qty otype
          = matchLimit b oid side price qty := by
        unfold addOrder
        rw [if_neg hM, if_neg hIO]
      rw [hE]
      by_cases hS : side = "BUY"
      · subst hS
        constructor
        · intro hlv htrig
          rw [matchLimit_buy_snd] at htrig ⊢
          obtain ⟨hA, hB, hxo⟩ := fifo_buy_op b hI oid
            (fun best => decide (price < best)) qty hfresh
            p lv l1 l2 l3 x y hdec hlv (by
              obtain ⟨g, hg, h1, h2, h3⟩ := htrig
              exact ⟨g, hg, h1, h2⟩)
          refine ⟨hA, ?_⟩
          rw [matchLimit_buy_idx b oid price qty x.1 hxo]
          exact hB
        · intro hlv htrig
          exfalso
          obtain ⟨g, hg, _, _, h3⟩ := htrig
          rw [matchLimit_buy_snd] at hg
          have hts := buy_sweep_taker b hI oid
            (fun best => decide (price < best)) qty g hg
          rw [hts] at h3
          exact absurd h3 (by decide)
      · constructor
        · intro hlv htrig
          exfalso
          obtain ⟨g, hg, _, _, h3⟩ := htrig
          rw [matchLimit_sell_snd b oid side price qty hS] at hg
          have hts := sell_sweep_taker b hI oid
            (fun best => decide (best < price)) qty g hg
          rw [hts] at h3
          exact absurd h3 (by decide)
        · intro hlv htrig
          rw [matchLimit_sell_snd b oid side price qty hS] at htrig ⊢
          obtain ⟨hA, hB, hxo⟩ := fifo_sell_op b hI oid
            (fun best => decide (best < price)) qty hfresh
            p lv l1 l2 l3 x y hdec hlv (by
              obtain ⟨g, hg, h1, h2, h3⟩ := htrig
              exact ⟨g, hg, h1, h2⟩)
          refine ⟨hA, ?_⟩
          rw [matchLimit_sell_idx b oid side price qty hS x.1 hxo]
          exact hB

theorem w6_step1 : addOrder emptyBook 1 "SELL" 10 2 "LIMIT" = (w6b1, []) := by
  unfold addOrder
  rw [if_neg (show ¬("LIMIT" = "MARKET") by decide),
      if_neg (show ¬("LIMIT" = "IOC") by decide)]
  unfold matchLimit
  rw [if_neg (show ¬("SELL" = "BUY") by decide)]
  rw [sweep_noheap (fun p mid q => (⟨mid, 1, p, q, "SELL"⟩ : Fill)) "BUY"
    Neg.neg (fun best => decide (best < (10 : ℚ))) emptyBook.bids
    emptyBook.bid_heap emptyBook.id_index 2 (by decide) rfl]
  rfl

theorem w6_step2 : addOrder w6b1 2 "SELL" 10 4 "LIMIT" = (w6book, []) := by
  unfold addOrder
  rw [if_neg (show ¬("LIMIT" = "MARKET") by decide),
      if_neg (show ¬("LIMIT" = "IOC") by decide)]
  unfold matchLimit
  rw [if_neg (show ¬("SELL" = "BUY") by decide)]
  rw [sweep_noheap (fun p mid q => (⟨mid, 2, p, q, "SELL"⟩ : Fill)) "BUY"
    Neg.neg (fun best => decide (best < (10 : ℚ))) w6b1.bids
    w6b1.bid_heap w6b1.id_index 4 (by decide) rfl]
  rfl

theorem w6_step3 : addOrder w6book 9 "BUY" 10 5 "LIMIT"
    = (⟨[], [(10, [(2, 1)])], [], [10], [(2, ("SELL", 10, 1))],
        [⟨9, 1, 10, 2, "BUY"⟩, ⟨9, 2, 10, 3, "BUY"⟩]⟩,
       [⟨9, 1, 10, 2, "BUY"⟩, ⟨9, 2, 10, 3, "BUY"⟩]) := by
  unfold addOrder
  rw [if_neg (show ¬("LIMIT" = "MARKET") by decide),
      if_neg (show ¬("LIMIT" = "IOC") by decide)]
  unfold matchLimit
  rw [if_pos (show ("BUY" : String) = "BUY" from rfl)]
  rw [sweep_stay (fun p mid q => (⟨9, mid, p, q, "BUY"⟩ : Fill)) "SELL" id
    (fun best => decide ((10 : ℚ) < best)) w6book.asks w6book.ask_heap
    w6book.id_index 5 10 (by decide) rfl (by decide) (by decide)]
  rfl

theorem w6book_reach : Reachable w6book := by
  have h1 : Reachable (addOrder emptyBook 1 "SELL" 10 2 "LIMIT").1 :=
    Reachable.add 1 "SELL" 10 2 "LIMIT" Reachable.empty rfl
  rw [w6_step1] at h1
  have h1b : Reachable w6b1 := h1
  have h2 : Reachable (addOrder w6b1 2 "SELL" 10 4 "LIMIT").1 :=
    Reachable.add 2 "SELL" 10 4 "LIMIT" h1b rfl
  rw [w6_step2] at h2
  exact h2

theorem C6_witness :
    (⟨9, 1, 10, 2, "BUY"⟩ : Fill) ∈ (addOrder w6book 9 "BUY" 10 5 "LIMIT").2 ∧
    dGet (addOrder w6book 9 "BUY" 10 5 "LIMIT").1.id_index 1 = none :=
  (C6_theorem w6book w6book_reach 9 "BUY" 10 5 "LIMIT" (by decide) 10
    [(1, 2), (2, 4)] [] [] [] (1, 2) (2, 4) rfl).1 (by decide)
    ⟨⟨9, 2, 10, 3, "BUY"⟩, by rw [w6_step3]; decide, rfl, rfl, rfl⟩

end Engine

end BatchSim
